import Mathlib

/-!
Verification of the penman-js library (PENMAN notation ↔ graph codec).

This file contains a shallow embedding, in Lean 4, of the parts of the
penman-js source that the verified claims are about:

* `src/lib/model.ts`   — the semantic `Model` (role inversion, role
  canonicalization, reification/dereification, graph error checks);
* `src/lib/graph.ts`   — the `Graph` data type (triples, top, epidata);
* `src/lib/tree.ts`    — the `Tree`/node structure;
* `src/lib/epigraph.ts`, `src/lib/surface.ts` — epigraphical markers;
* `src/lib/layout.ts`  — `interpret` (tree → graph) and `configure`
  (graph → tree), together with `reconfigure`.

Representation choices (documented once here):

* JS strings are Lean `String`s; the handful of string operations the
  source uses (`endsWith('-of')`, `slice(0, -3)`, `startsWith(':')`,
  `split('~')`, …) are defined below on `String.data` so that they can
  be reasoned about directly.
* A JS value of type `Variable | Constant | null` is an `Option String`
  (`none` is JS `null`; numeric constants, which this library treats as
  uninterpreted atoms, are represented by their lexical string form).
* JS object-key lookups coerce `null` to the string key `"null"`; the
  function `jsKey` below models this coercion and is used exactly where
  the source indexes an object by a possibly-null variable.
* The `roles` table of a `Model` is a list of role names.  The source
  compiles the role names into the anchored alternation regex
  `^(name1|name2|…)$`, which for literal role names (the only kind the
  repository's models declare) is string equality against one of the
  names; the embedding uses list membership accordingly.
* Unbounded `while` loops of the source are given explicit fuel, with
  the fuel chosen (and proved, where a claim needs it) to be at least
  the number of iterations of the loop; this keeps every definition
  computable by the kernel.
* Thrown JS exceptions are modelled with `Except String`.
-/
/-! ## String primitives mirroring the JS string operations -/
/-- The character list of the suffix `"-of"`. -/
def ofChars : List Char := ['-', 'o', 'f']

/-- JS `role.endsWith('-of')`. -/
def strEndsWithOf (r : String) : Bool := ofChars.isSuffixOf r.data

/-- JS `role.slice(0, -3)` (drop the last three characters). -/
def strDropLast3 (r : String) : String := String.mk (r.data.take (r.data.length - 3))

/-- JS `role.startsWith(':')`. -/
def strStartsWithColon (r : String) : Bool :=
  match r.data with
  | [] => false
  | c :: _ => c == ':'

/-- JS `s.includes('~')`. -/
def strContainsTilde (s : String) : Bool := s.data.contains '~'

/-! ## Triples, epigraphical markers

From `src/lib/types.ts` / `src/lib/graph.ts`: a triple is
`[source, role, target]` where the source is a variable (or, for
triples produced by inverting an attribute, JS `null`) and the target
is a variable or a constant (possibly `null`). -/
/-- A PENMAN triple `(source, role, target)`. -/
abbrev Triple := Option String × String × Option String

deriving instance DecidableEq for Except

/-- `CONCEPT_ROLE` from `src/lib/graph.ts`. -/
def CONCEPT_ROLE : String := ":instance"

/-- JS object-key coercion: indexing an object by `null` uses the key
`"null"`.  Used wherever the source indexes `nodemap`/`g`/`q` by a
possibly-null variable. -/
def jsKey : Option String → String
  | none => "null"
  | some s => s

/-- JS template/`${…}` coercion of a possibly-null value to a string
(`null` renders as `"null"`). -/
def jsStr : Option String → String
  | none => "null"
  | some s => s

/-- JS falsiness of a `Variable | Constant | null` value: `null` and the
empty string are falsy. -/
def jsFalsy : Option String → Bool
  | none => true
  | some s => s == ""

/-! ## The semantic model (`src/lib/model.ts`) -/
/-- A reification specification `[role, concept, source, target]`
(`_ReificationSpec` in `src/lib/model.ts`). -/
abbrev ReificationSpec := String × Option String × String × String

/-- The `Model` class of `src/lib/model.ts` (the fields consumed by the
embedded operations; the per-role auxiliary data attached to role names
is not consulted by any of them). -/
structure Model where
  topVariable : String := "top"
  topRole : String := ":TOP"
  conceptRole : String := CONCEPT_ROLE
  roles : List String := []
  normalizations : List (String × String) := []
  reifications : List ReificationSpec := []

deriving DecidableEq

/-- The default model (`new Model()`). -/
def defaultModel : Model := {}

namespace Model

/-- `Model._hasRole`: the role-name regex `^(r1|…|topRole|conceptRole)$`
tests membership among the declared role names plus the top and concept
roles. -/
def _hasRole (m : Model) (role : String) : Bool :=
  (m.roles ++ [m.topRole, m.conceptRole]).contains role

/-- `Model.hasRole`. -/
def hasRole (m : Model) (role : String) : Bool :=
  m._hasRole role || (strEndsWithOf role && m._hasRole (strDropLast3 role))

/-- `Model.isRoleInverted`. -/
def isRoleInverted (m : Model) (role : String) : Bool :=
  !m._hasRole role && strEndsWithOf role

/-- `Model.invertRole`. -/
def invertRole (m : Model) (role : String) : String :=
  if !m._hasRole role && strEndsWithOf role then strDropLast3 role
  else role ++ "-of"

/-- `Model.invert`: invert the role and swap source and target. -/
def invert (m : Model) (triple : Triple) : Triple :=
  let (source, role, target) := triple
  (target, m.invertRole role, source)

/-- `Model.deinvert`: invert only if the model considers the role
inverted. -/
def deinvert (m : Model) (triple : Triple) : Triple :=
  if m.isRoleInverted triple.2.1 then m.invert triple else triple

/-- One pass of the fixed-point loop in `Model._canonicalizeInversion`:
`role = invertRole(invertRole(role))`. -/
def canonStep (m : Model) (role : String) : String :=
  m.invertRole (m.invertRole role)

/-- The `while (true)` loop body of `Model._canonicalizeInversion`,
with explicit fuel.  The loop repeatedly applies `canonStep` until the
role no longer changes. -/
def canonLoop (m : Model) : Nat → String → String
  | 0, role => role
  | fuel + 1, role =>
    let next := m.canonStep role
    if next = role then role else m.canonLoop fuel next

/-- The longest declared role name (plus slack); used to bound the
number of iterations of the canonicalization loop. -/
def maxRoleLen (m : Model) : Nat :=
  ((m.roles ++ [m.topRole, m.conceptRole]).map (fun r => r.data.length)).foldr Nat.max 0

/-- Fuel that always suffices for `canonLoop` (proved below). -/
def canonFuel (m : Model) (role : String) : Nat :=
  2 * (m.maxRoleLen + 6) + role.data.length + 1

/-- `Model._canonicalizeInversion`. -/
def _canonicalizeInversion (m : Model) (role : String) : String :=
  if !m._hasRole role then m.canonLoop (m.canonFuel role) role else role

/-- The leading-colon step of `Model.canonicalizeRole`:
`if (role !== '/' && !role.startsWith(':')) role = ':' + role`. -/
def colonizeRole (role : String) : String :=
  if role ≠ "/" && !strStartsWithColon role then ":" ++ role else role

/-- The normalization-table step of `Model.canonicalizeRole`:
`role = this.normalizations[role] || role` (a falsy table value — the
empty string — leaves the role unchanged). -/
def normApply (m : Model) (role : String) : String :=
  match m.normalizations.lookup role with
  | some v => if v = "" then role else v
  | none => role

/-- `Model.canonicalizeRole`: ensure a leading `':'` (except for `'/'`),
normalize multiple inversions, then apply the normalization table. -/
def canonicalizeRole (m : Model) (role : String) : String :=
  m.normApply (m._canonicalizeInversion (colonizeRole role))

/-- `Model.canonicalize`. -/
def canonicalize (m : Model) (triple : Triple) : Triple :=
  let (source, role, target) := triple
  (source, m.canonicalizeRole role, target)

/-- The reification entries for a role, in declaration order
(`Model.reifications.get(role)`). -/
def reificationsFor (m : Model) (role : String) : List (Option String × String × String) :=
  m.reifications.filterMap
    (fun s => if s.1 = role then some (s.2.1, s.2.2.1, s.2.2.2) else none)

/-- The dereification entries for a concept, in declaration order
(`Model.dereifications.get(concept)`). -/
def dereificationsFor (m : Model) (concept : Option String) :
    List (String × String × String) :=
  m.reifications.filterMap
    (fun s => if s.2.1 = concept then some (s.1, s.2.2.1, s.2.2.2) else none)

/-- `Model.isRoleReifiable`. -/
def isRoleReifiable (m : Model) (role : String) : Bool :=
  !(m.reificationsFor role).isEmpty

/-- The fresh-variable loop of `Model.reify` (`'_'`, then `'_2'`,
`'_3'`, …, skipping taken variables), with fuel. -/
def freshLoop (vars : List String) : Nat → String → Nat → String
  | 0, v, _ => v
  | fuel + 1, v, i =>
    if vars.contains v then freshLoop vars fuel ("_" ++ toString i) (i + 1) else v

/-- `Model.reify`.  The optional `takenVars` argument is the
`variables` option of the source; when it is `none` the fresh node
variable is `'_'`. -/
def reify (m : Model) (triple : Triple) (takenVars : Option (List String) := none) :
    Except String (Triple × Triple × Triple) :=
  match m.reificationsFor triple.2.1 with
  | [] => .error ("'" ++ triple.2.1 ++ "' cannot be reified")
  | (concept, sourceRole, targetRole) :: _ =>
    let v : String :=
      match takenVars with
      | none => "_"
      | some vars => freshLoop vars (vars.length + 2) "_" 2
    .ok ((some v, sourceRole, triple.1),
         (some v, CONCEPT_ROLE, concept),
         (some v, targetRole, triple.2.2))

/-- The matching loop of `Model.dereify`: find the first registered
`(role, source, target)` entry whose argument roles match the two
argument triples' roles in either order. -/
def dereifyScan (entries : List (String × String × String))
    (sourceRole targetRole : String) (sourceTgt targetTgt : Option String) :
    Option Triple :=
  match entries with
  | [] => none
  | (role, source, target) :: rest =>
    if source = sourceRole && target = targetRole then
      some (sourceTgt, role, targetTgt)
    else if target = sourceRole && source = targetRole then
      some (targetTgt, role, sourceTgt)
    else dereifyScan rest sourceRole targetRole sourceTgt targetTgt

/-- `Model.dereify`. -/
def dereify (m : Model) (instanceTriple sourceTriple targetTriple : Triple) :
    Except String Triple :=
  if instanceTriple.2.1 ≠ CONCEPT_ROLE then
    .error "second argument is not an instance triple"
  else if instanceTriple.1 ≠ sourceTriple.1 || instanceTriple.1 ≠ targetTriple.1 then
    .error "triples do not share the same source"
  else
    let concept := instanceTriple.2.2
    let sourceRole := sourceTriple.2.1
    let targetRole := targetTriple.2.1
    match m.dereificationsFor concept with
    | [] => .error (jsStr concept ++ " cannot be dereified")
    | entries =>
      match dereifyScan entries sourceRole targetRole sourceTriple.2.2 targetTriple.2.2 with
      | some t => .ok t
      | none =>
        .error (sourceRole ++ " and " ++ targetRole ++
          " are not valid roles to dereify " ++ jsStr concept)

end Model

/-- Whether the canonicalization step is a genuine double-strip (the
only length-decreasing transition of the fixed-point loop). -/
def Model.t1app (m : Model) (r : String) : Bool :=
  !m._hasRole r && strEndsWithOf r &&
    !m._hasRole (strDropLast3 r) && strEndsWithOf (strDropLast3 r)

/-- Termination measure for the canonicalization loop. -/
def Model.canonMeasure (m : Model) (r : String) : Nat :=
  if m.t1app r then 2 * (m.maxRoleLen + 6) + r.data.length
  else (m.maxRoleLen + 6) - r.data.length

/-! ## Epigraphical markers (`src/lib/epigraph.ts`, `src/lib/surface.ts`,
and the layout markers of `src/lib/layout.ts`)

An `AlignMark` is the payload of `Alignment` / `RoleAlignment`
(`surface.ts`): a list of indices and an optional prefix.  JS `parseInt`
can produce `NaN` for a malformed index; a `none` index models `NaN`.
The alignment string codec is an excluded collaborator in the spec
(§1); it is modelled here to the precision the layout claims need. -/
structure AlignMark where
  indices : List (Option Int)
  pfx : Option String

deriving DecidableEq

/-- An `Epidatum`: a layout marker (`Push`/`POP` from `layout.ts`) or an
alignment marker (`RoleAlignment`/`Alignment` from `surface.ts`). -/
inductive Epi where
  | push (v : Option String)
  | pop
  | roleAlign (a : AlignMark)
  | align (a : AlignMark)

deriving DecidableEq

/-- The `mode` attribute of an `Epidatum` (0 unspecified, 1 role
epidata, 2 target epidata). -/
def Epi.mode : Epi → Nat
  | .push _ => 0
  | .pop => 0
  | .roleAlign _ => 1
  | .align _ => 2

/-- Whether an epidatum is a `LayoutMarker` (`Push` or `Pop`). -/
def Epi.isLayoutMarker : Epi → Bool
  | .push _ => true
  | .pop => true
  | _ => false

/-- JS `parseInt` at radix 10: optional sign then leading digits;
`NaN` (here `none`) when there is no digit. -/
def parseIntJS (s : String) : Option Int :=
  let p : Bool × List Char :=
    match s.data with
    | '-' :: rest => (true, rest)
    | l => (false, l)
  let ds := p.2.takeWhile (·.isDigit)
  if ds.isEmpty then none
  else
    let n : Nat := ds.foldl (fun acc c => acc * 10 + (c.toNat - '0'.toNat)) 0
    some (if p.1 then -(n : Int) else (n : Int))

/-- Rendering of one alignment index (JS number-to-string; `NaN` renders
as `"NaN"`). -/
def idxRender : Option Int → String
  | none => "NaN"
  | some i => toString i

/-- `AlignmentMarker.toString`: `~` + prefix (falsy prefix renders
empty) + comma-joined indices. -/
def AlignMark.render (a : AlignMark) : String :=
  "~" ++ (match a.pfx with
          | none => ""
          | some p => p) ++
    String.intercalate "," (a.indices.map idxRender)

/-- `${epi}` string coercion of an epidatum (each marker class defines
`toString`). -/
def Epi.render : Epi → String
  | .push v => "Push(" ++ jsStr v ++ ")"
  | .pop => "POP"
  | .roleAlign a => a.render
  | .align a => a.render

/-- JS `String.split` at a single-character separator (kernel-reducible
replacement for the library split). -/
def splitOnChar (c : Char) : List Char → List (List Char)
  | [] => [[]]
  | x :: rest =>
    match splitOnChar c rest, x == c with
    | r, true => [] :: r
    | [], false => [[x]]
    | h :: t, false => (x :: h) :: t

/-- `s.split(Char.ofNat 126)` as strings. -/
def splitTilde (s : String) : List String :=
  (splitOnChar '~' s.data).map String.mk

/-- `AlignmentMarker.fromString` (modulo the `Alignment` vs
`RoleAlignment` class, which the caller chooses): strip leading `~`s,
split off an optional one-letter prefix (optionally followed by `.`),
and parse the comma-separated indices.  An empty marker string throws a
`SurfaceError` (in the source, via the caught `TypeError` from indexing
an empty string). -/
def alignFromString (s : String) : Except String AlignMark :=
  let l : String := String.mk (s.data.dropWhile (· == '~'))
  match l.data with
  | [] => .error ("invalid alignment marker: " ++ s)
  | c :: rest =>
    if c.isAlpha then
      let i : Nat := match rest with
                     | '.' :: _ => 2
                     | _ => 1
      .ok ⟨(splitOnChar ',' (l.data.drop i)).map (fun cs => parseIntJS (String.mk cs)),
           some (String.mk (l.data.take i))⟩
    else
      .ok ⟨(splitOnChar ',' l.data).map (fun cs => parseIntJS (String.mk cs)), none⟩

/-! ## The `Graph` data type (`src/lib/graph.ts`)

The `epidata` map (`EpidataMap`) keys triples by their JSON-encoded
value; since the JSON encoding is injective on triples, the embedding
keys the association list by the triple value itself. -/
/-- An `EpidataMap` as an insertion-ordered association list. -/
abbrev EpidataMap := List (Triple × List Epi)

/-- `EpidataMap.get` (returns JS `undefined`, here `none`, for a missing
key). -/
def emGet (em : EpidataMap) (t : Triple) : Option (List Epi) :=
  match em with
  | [] => none
  | (k, v) :: rest => if k = t then some v else emGet rest t

/-- `EpidataMap.has`. -/
def emHas (em : EpidataMap) (t : Triple) : Bool :=
  (emGet em t).isSome

/-- `EpidataMap.set` (overwrite in place, preserving insertion order;
append for a new key). -/
def emSet (em : EpidataMap) (t : Triple) (v : List Epi) : EpidataMap :=
  match em with
  | [] => [(t, v)]
  | (k, w) :: rest => if k = t then (k, v) :: rest else (k, w) :: emSet rest t v

/-- `_ensureColon` from `src/lib/graph.ts`. -/
def ensureColon (role : String) : String :=
  if !strStartsWithColon role then ":" ++ role else role

/-- The `Graph` class: triple list, optional explicit top, epidata and
metadata. -/
structure Graph where
  triples : List Triple := []
  _top : Option String := none
  epidata : EpidataMap := []
  metadata : List (String × String) := []

deriving DecidableEq

/-- The `Graph` constructor: stores top/epidata/metadata and rebuilds
the triple list with `_ensureColon` applied to every role. -/
def Graph.make (triples : List Triple) (top : Option String := none)
    (epidata : EpidataMap := []) (metadata : List (String × String) := []) : Graph :=
  { triples := triples.map (fun t => (t.1, ensureColon t.2.1, t.2.2))
    _top := top
    epidata := epidata
    metadata := metadata }

/-- Set-insertion with first-insertion order (JS `Set` iteration
order). -/
def dedupKeepFirst (l : List (Option String)) : List (Option String) :=
  l.foldl (fun acc x => if x ∈ acc then acc else acc ++ [x]) []

/-- `Graph.variables()`: the set of triple sources plus the explicit
top (in JS `Set` iteration order). -/
def Graph.variablesL (g : Graph) : List (Option String) :=
  let base := dedupKeepFirst (g.triples.map (·.1))
  match g._top with
  | none => base
  | some t => if (some t) ∈ base then base else base ++ [some t]

/-- The `top` getter: the explicit top, or the source of the first
triple when no explicit top is set. -/
def Graph.top (g : Graph) : Option String :=
  match g._top with
  | some t => some t
  | none =>
    match g.triples with
    | [] => none
    | t :: _ => t.1

/-- The `top` setter: a non-null value that is not a variable of the
graph raises a `GraphError` (and, the assignment never having happened,
leaves the graph unchanged); otherwise the explicit top is replaced. -/
def Graph.setTop (g : Graph) (top : Option String) : Except String Graph :=
  if top ≠ none ∧ top ∉ g.variablesL then .error "top must be a valid node"
  else .ok { g with _top := top }

/-! ## `Model.errors` and `_dfs` (`src/lib/model.ts`)

`errors` accumulates an error map keyed by `triple.toString()` (JS
object: string keys, insertion-ordered, assignment overwrites in
place), groups triples by their (JS-key-coerced) source variable, and
flags every triple of a source variable the undirected DFS from the top
does not reach. -/
/-- JS `Array.prototype.toString` on a triple: `join(',')`, with `null`
elements rendering as the empty string. -/
def tripleToString (t : Triple) : String :=
  (match t.1 with
   | none => ""
   | some s => s) ++ "," ++ t.2.1 ++ "," ++
  (match t.2.2 with
   | none => ""
   | some s => s)

/-- Insertion-ordered string-keyed map update (`obj[k] = v`): overwrite
in place, or append a new key. -/
def errSet (e : List (String × List String)) (k : String) (v : List String) :
    List (String × List String) :=
  match e with
  | [] => [(k, v)]
  | (k', w) :: rest => if k' = k then (k', v) :: rest else (k', w) :: errSet rest k v

/-- `g[variable].push(triple)` with `g[variable] = []` first when the
key is new. -/
def gmAdd (gm : List (String × List Triple)) (k : String) (t : Triple) :
    List (String × List Triple) :=
  match gm with
  | [] => [(k, [t])]
  | (k', l) :: rest => if k' = k then (k', l ++ [t]) :: rest else (k', l) :: gmAdd rest k t

/-- The keys of the source-variable map. -/
def gKeys (gm : List (String × List Triple)) : List String := gm.map Prod.fst

/-- JS `Set` built from a list: deduplicate keeping first insertion. -/
def dedupStr (l : List String) : List String :=
  l.foldl (fun acc x => if x ∈ acc then acc else acc ++ [x]) []

/-- The per-variable adjacency of the first pass of `_dfs`: the set of
stringified targets of the variable's triples that are themselves keys
of `g`. -/
def q0F (gm : List (String × List Triple)) (l : List Triple) : List String :=
  dedupStr ((l.map (fun t => jsStr t.2.2)).filter (fun tgt => tgt ∈ gKeys gm))

/-- The first pass of `_dfs`: `q[variable]` is the set of stringified
targets of the variable's triples that are themselves keys of `g`. -/
def buildQ0 (gm : List (String × List Triple)) : List (String × List String) :=
  gm.map (fun p => (p.1, q0F gm p.2))

/-- `if (!(tgt in q)) q[tgt] = new Set(); q[tgt].add(variable)`. -/
def qAdd (q : List (String × List String)) (k v : String) : List (String × List String) :=
  match q with
  | [] => [(k, [v])]
  | (k', l) :: rest =>
    if k' = k then (k', if v ∈ l then l else l ++ [v]) :: rest
    else (k', l) :: qAdd rest k v

/-- The second pass of `_dfs`: make the edges bidirectional, iterating
over a snapshot of the entries of `q` (new keys added during the loop
are not themselves iterated; with the first pass, every target is
already a key, so none are added). -/
def buildQ (gm : List (String × List Triple)) : List (String × List String) :=
  let q0 := buildQ0 gm
  q0.foldl (fun q p => p.2.foldl (fun q' tgt => qAdd q' tgt p.1) q) q0

/-- The adjacency list at a (JS-key-coerced) variable. -/
def qVal (q : List (String × List String)) (k : String) : List String :=
  (q.lookup k).getD []

/-- Total adjacency size, used for the DFS fuel. -/
def totalAdj (q : List (String × List String)) : Nat :=
  (q.map (fun p => p.2.length)).sum

/-- Termination measure for the DFS work-list: unvisited keys dominate,
plus one slot for a possible `null` starting point, plus the agenda
length. -/
def dfsMeasure (q : List (String × List String)) (visited agenda : List (Option String)) :
    Nat :=
  (q.map Prod.fst).countP (fun x => !(visited.contains (some x))) * (totalAdj q + 1) +
    (if visited.contains none then 0 else totalAdj q + 1) + agenda.length

/-- The DFS work-list loop of `_dfs`.  The agenda is a stack (JS
`pop()` takes the most recently pushed element; the embedding keeps the
JS array reversed, so the JS tail is the list head).  Iterating
`q[cur]` when `cur` is not a key throws a `TypeError` in JS. -/
def dfsLoop (q : List (String × List String)) :
    Nat → List (Option String) → List (Option String) → Except String (List (Option String))
  | 0, _, _ => .error "fuel exhausted"
  | _ + 1, visited, [] => .ok visited
  | fuel + 1, visited, cur :: rest =>
    if cur ∈ visited then dfsLoop q fuel visited rest
    else
      match q.lookup (jsKey cur) with
      | none => .error "TypeError: cannot iterate undefined"
      | some ts =>
        let visited' := cur :: visited
        dfsLoop q fuel visited'
          (((ts.filter (fun t => (some t) ∉ visited')).reverse.map some) ++ rest)

/-- `_dfs(g, top)`: build the undirected adjacency and run the
work-list. -/
def _dfs (gm : List (String × List Triple)) (top : Option String) :
    Except String (List (Option String)) :=
  let q := buildQ gm
  dfsLoop q (dfsMeasure q [] [top] + 1) [] [top]

/-- The per-triple pass of `Model.errors`: record `'invalid role'`
errors and group triples by source variable. -/
def errorsPass1 (m : Model) (triples : List Triple) :
    List (String × List String) × List (String × List Triple) :=
  triples.foldl
    (fun acc triple =>
      let e := if !(m.hasRole triple.2.1) then
                 errSet acc.1 (tripleToString triple) ["invalid role"]
               else acc.1
      (e, gmAdd acc.2 (jsKey triple.1) triple))
    ([], [])

/-- The unreachable pass of `Model.errors`: flag every triple of every
unreached source variable. -/
def errorsUnreachablePass (e : List (String × List String))
    (gm : List (String × List Triple)) (reachable : List (Option String)) :
    List (String × List String) :=
  (gm.filter (fun p => !(reachable.contains (some p.1)))).foldl
    (fun e' p => p.2.foldl (fun e'' t => errSet e'' (tripleToString t) ["unreachable"]) e')
    e

/-- The error map of `Model.errors` before the unreachable pass: the
per-triple `'invalid role'` entries plus the top checks. -/
def errorsPre (m : Model) (graph : Graph) : List (String × List String) :=
  let e1 := (errorsPass1 m graph.triples).1
  let e2 := if jsFalsy graph.top then errSet e1 "" ["top is not set"] else e1
  if !(jsKey graph.top ∈ gKeys (errorsPass1 m graph.triples).2) then
    errSet e2 "" ["top is not a variable in the graph"]
  else e2

/-- `Model.errors`. -/
def Model.errors (m : Model) (graph : Graph) :
    Except String (List (String × List String)) :=
  if graph.triples.length = 0 then .ok [("", ["graph is empty"])]
  else
    match _dfs (errorsPass1 m graph.triples).2 graph.top with
    | .error msg => .error msg
    | .ok reachable =>
      .ok (errorsUnreachablePass (errorsPre m graph) (errorsPass1 m graph.triples).2
        reachable)

/-! Specification-side connectivity for claim C3, following the spec's
words: an adjacency built only from triples whose (stringified) target
is itself a (JS-key-coerced) source variable of the graph, walked
ignoring edge direction. -/
/-- The source-variable keys of a graph, as `Model.errors` builds
them. -/
def sourceKeys (g : Graph) : List String := g.triples.map (fun t => jsKey t.1)

/-- A directed adjacency step of the spec's reachability relation. -/
def dirEdge (g : Graph) (a b : String) : Prop :=
  ∃ t ∈ g.triples, jsKey t.1 = a ∧ jsStr t.2.2 = b ∧ b ∈ sourceKeys g

/-- One undirected step. -/
def undirStep (g : Graph) (a b : String) : Prop := dirEdge g a b ∨ dirEdge g b a

/-- Undirected connectivity from `a` to `b` over the variable-target
adjacency. -/
def Connected (g : Graph) (a b : String) : Prop :=
  Relation.ReflTransGen (undirStep g) a b

/-- The source-variable multimap built by the triples loop of
`Model.errors` (the second component of `errorsPass1`). -/
def buildGM (triples : List Triple) : List (String × List Triple) :=
  triples.foldl (fun gm t => gmAdd gm (jsKey t.1) t) []

/-! ## Trees (`src/lib/tree.ts`)

A PENMAN tree node is `[variable, branches]` where each branch is
`[role, target]` and a target is either atomic (a string, number or
`null`; numbers only arise from hand-built trees and are not
representable by the parser, so the embedding uses strings) or a nested
node.  The `Tree` class wraps a node together with metadata. -/
mutual
/-- A tree node `[variable, branches]`. -/
inductive PNode where
  | mk (v : Option String) (bs : PBranches)
deriving DecidableEq

/-- The branch list of a node, each branch `[role, target]`. -/
inductive PBranches where
  | nil
  | cons (role : String) (tgt : PTarget) (rest : PBranches)
deriving DecidableEq

/-- A branch target: atomic or a nested node. -/
inductive PTarget where
  | atom (a : Option String)
  | sub (n : PNode)
deriving DecidableEq
end

/-- The variable of a node. -/
def PNode.var : PNode → Option String
  | .mk v _ => v

/-- The dynamically-typed value of a tree's `metadata` field: normally a
string-to-string record, but the `Tree` constructor bug (see
`optionsMetadata`) can leave a plain string there. -/
inductive MetaVal where
  | record (entries : List (String × String))
  | str (s : String)

deriving DecidableEq

/-- A `Tree`: a node plus metadata (named `PTree` here since Lean's
library already declares a `Tree`). -/
structure PTree where
  node : PNode
  metadata : MetaVal := .record []

deriving DecidableEq

/-- A tree metadata value as a record (the ill-typed string case, which
no claim exercises, reads as the empty record). -/
def MetaVal.asRecord : MetaVal → List (String × String)
  | .record r => r
  | .str _ => []

/-- The `Tree` constructor takes an `options` object and destructures
its `metadata` property, defaulting to `{}`.  Both `configure`
(`layout.ts` line 333) and `_parse` pass a plain metadata record where
`options` is expected, so the constructed tree's metadata is that
record's `"metadata"` entry: absent, the tree metadata is the default
empty record; present, the tree metadata becomes the entry's raw string
value. -/
def optionsMetadata (record : List (String × String)) : MetaVal :=
  match record.lookup "metadata" with
  | none => MetaVal.record []
  | some s => MetaVal.str s

mutual
/-- `_nodes` from `tree.ts`, restricted to the variables (`interpret`
immediately maps each node to `node[0]`): the node's own variable when
truthy, then the variables of nested nodes in branch order. -/
def nodeVarsN : PNode → List String
  | .mk v bs =>
    (match v with
     | some s => if s = "" then [] else [s]
     | none => []) ++ nodeVarsB bs

/-- Variables of the nodes nested under a branch list. -/
def nodeVarsB : PBranches → List String
  | .nil => []
  | .cons _ (.atom _) rest => nodeVarsB rest
  | .cons _ (.sub n) rest => nodeVarsN n ++ nodeVarsB rest
end

/-! ## Interpretation (`src/lib/layout.ts`, `interpret`) -/
/-- JS `Set.has` on the variable set for an optional target (`has` of
`null` is `false` since the set holds strings). -/
def optMem (a : Option String) (vars : List String) : Bool :=
  match a with
  | some s => vars.contains s
  | none => false

/-- `_processRole`: `/` becomes the concept role; a role containing `~`
is split at the first `~` into the bare role and a `RoleAlignment`
parsed from the second component (later components are dropped, as in
the source's two-element destructuring). -/
def _processRole (role : String) : Except String (String × List Epi) :=
  if role = "/" then .ok (CONCEPT_ROLE, [])
  else if strContainsTilde role then
    match alignFromString (((splitTilde role).drop 1).headD "") with
    | .error e => .error e
    | .ok a => .ok ((splitTilde role).headD "", [Epi.roleAlign a])
  else .ok (role, [])

/-- Whether a string starts with a double quote. -/
def strStartsWithQuote (s : String) : Bool :=
  match s.data with
  | [] => false
  | c :: _ => c == '"'

/-- `target.lastIndexOf(Char.ofNat 34) + 1` (0 when there is no quote,
since `lastIndexOf` is then `-1`). -/
def lastQuotePivot (s : String) : Nat :=
  s.data.length - (s.data.reverse.takeWhile (fun c => !(c == '"'))).length

/-- `_processAtomic`: strip an `Alignment` marker from a truthy atomic
target containing `~`; string targets (starting with a quote) split
after the last quote, and only when something follows it, others split
at the first `~`. -/
def _processAtomic (target : Option String) : Except String (Option String × List Epi) :=
  match target with
  | none => .ok (none, [])
  | some s =>
    if s ≠ "" ∧ strContainsTilde s = true then
      if strStartsWithQuote s then
        let pivot := lastQuotePivot s
        if pivot < s.data.length then
          match alignFromString (String.mk (s.data.drop pivot)) with
          | .error e => .error e
          | .ok a => .ok (some (String.mk (s.data.take pivot)), [Epi.align a])
        else .ok (some s, [])
      else
        match alignFromString (((splitTilde s).drop 1).headD "") with
        | .error e => .error e
        | .ok a => .ok (some ((splitTilde s).headD ""), [Epi.align a])
    else .ok (some s, [])

/-- Append a `POP` to the epidata list of the last entry (`layout.ts`
line 204); the empty case cannot arise since `_interpretNode` always
returns at least one epidata entry. -/
def appendPopLast : List (Triple × List Epi) → List (Triple × List Epi)
  | [] => []
  | [x] => [(x.1, x.2 ++ [Epi.pop])]
  | x :: y :: rest => x :: appendPopLast (y :: rest)

mutual
/-- `_interpretNode`: returns the node's variable, the triples and the
per-triple epidata lists.  When no branch produced a concept role a
null-concept instance triple is prepended to the triples (and its empty
epidata entry appended). -/
def _interpretNode (t : PNode) (vars : List String) (m : Model) :
    Except String (Option String × List Triple × List (Triple × List Epi)) :=
  match t with
  | .mk v bs =>
    match interpretBranches v bs vars m with
    | .error e => .error e
    | .ok (triples, epidata, hasConcept) =>
      if hasConcept then .ok (v, triples, epidata)
      else
        .ok (v, ((v, CONCEPT_ROLE, (none : Option String)) : Triple) :: triples,
             epidata ++ [(((v, CONCEPT_ROLE, (none : Option String)) : Triple), ([] : List Epi))])

/-- The body of `_interpretNode`'s loop over the branch list: triples,
epidata and the `hasConcept` flag accumulated over the branches.
Atomic targets are deinverted only when the processed target is in the
variable set (otherwise the source merely warns); nested targets are
deinverted unconditionally, get a `Push` marker, and the nested node's
last epidata entry receives a `POP`. -/
def interpretBranches (v : Option String) (bs : PBranches) (vars : List String) (m : Model) :
    Except String (List Triple × List (Triple × List Epi) × Bool) :=
  match bs with
  | .nil => .ok ([], [], false)
  | .cons role tgt rest =>
    match _processRole role with
    | .error e => .error e
    | .ok (role2, repis) =>
      let isConcept : Bool := role2 == CONCEPT_ROLE
      match tgt with
      | .atom a =>
        match _processAtomic a with
        | .error e => .error e
        | .ok (a2, tepis) =>
          let triple0 : Triple := (v, role2, a2)
          let triple :=
            if m.isRoleInverted role2 && optMem a2 vars then m.invert triple0 else triple0
          match interpretBranches v rest vars m with
          | .error e => .error e
          | .ok (trs, eps, hc) =>
            .ok (triple :: trs, (triple, repis ++ tepis) :: eps, isConcept || hc)
      | .sub child =>
        let triple := m.deinvert (v, role2, child.var)
        match _interpretNode child vars m with
        | .error e => .error e
        | .ok (_, ctrs, ceps) =>
          match interpretBranches v rest vars m with
          | .error e => .error e
          | .ok (trs, eps, hc) =>
            .ok (triple :: (ctrs ++ trs),
                 (triple, repis ++ [Epi.push child.var]) :: (appendPopLast ceps ++ eps),
                 isConcept || hc)
end

/-- The epigraph-map construction loop of `interpret`: keep the first
epidata entry for each triple value (a duplicate is discarded with a
warning, not overwritten). -/
def buildEpimap (l : List (Triple × List Epi)) : EpidataMap :=
  l.foldl (fun em p => if emHas em p.1 then em else emSet em p.1 p.2) []

/-- `interpret` continued: the graph built from the node phase's output
and the epigraph map, carrying the tree's metadata. -/
def interpret (t : PTree) (m : Model := defaultModel) : Except String Graph :=
  match _interpretNode t.node (nodeVarsN t.node) m with
  | .error e => .error e
  | .ok (top, triples, epidata) =>
    .ok (Graph.make triples top (buildEpimap epidata) t.metadata.asRecord)

/-! ## Configuration (`src/lib/layout.ts`, `configure`)

The imperative configuration code mutates a `nodemap` from variables to
node objects and mutates the node objects themselves (their edge
lists), while popping work items off the end of a `data` array.  The
embedding makes the heap explicit: node objects live in an id-keyed
store (`CState.objs`); the nodemap maps JS object keys (variables
coerced with `jsKey`) to an optional id (`none` embeds JS `null`, a
missing key embeds `undefined`); an edge target is either an atomic
value or a reference to a node id, mirroring JS object references.
Work lists are Lean lists whose head is the end of the JS array (the
next element `data.pop()` would return), so the source's
`_preconfigure(g, model).reverse()` is the preconfigured list in
original order. -/
/-- A work item of the configuration pass: a `[triple, push, epis]`
datum or a `POP` marker. -/
inductive WItem where
  | datum (triple : Triple) (push : Bool) (epis : List Epi)
  | pop

deriving DecidableEq

/-- Insert-or-replace in an association list, preserving insertion
order (JS object/array index assignment). -/
def upsertBy {α β : Type} [DecidableEq α] (l : List (α × β)) (k : α) (v : β) : List (α × β) :=
  match l with
  | [] => [(k, v)]
  | (k1, w) :: rest => if k1 = k then (k1, v) :: rest else (k1, w) :: upsertBy rest k v

/-- An edge target inside a node object under construction: an atomic
value or a reference to another node object. -/
inductive BTgt where
  | atom (a : Option String)
  | ref (id : Nat)

deriving DecidableEq

/-- An edge `[role, target, epis]` of a node object. -/
abbrev CEdge := String × BTgt × List Epi

/-- A node object `[variable, edges]`. -/
structure NodeObj where
  v : Option String
  edges : List CEdge

deriving DecidableEq

/-- The mutable state of configuration: the id allocator, the nodemap
and the node-object store. -/
structure CState where
  nextId : Nat
  nodemap : List (String × Option Nat)
  objs : List (Nat × NodeObj)

deriving DecidableEq

/-- Replace the node object at `id`. -/
def stSetObj (st : CState) (id : Nat) (o : NodeObj) : CState :=
  { st with objs := upsertBy st.objs id o }

/-- The accumulator of `_preconfigure`'s loop over one triple's
epidata. -/
structure PreSt where
  triple : Triple
  push : Bool
  epis : List Epi
  pops : List WItem
  pushed : List (Option String)

deriving DecidableEq

/-- One step of `_preconfigure`'s epidatum loop: a `Push` for an
already-pushed variable or one naming neither endpoint (or on an
instance triple) is dropped with a warning; a valid `Push` of the
source inverts the triple; `Pop`s are collected to follow the datum;
other epidata are kept on the datum. -/
def preconfigEpi (m : Model) (v0 : Option String) (role : String) (target : Option String)
    (st : PreSt) (epi : Epi) : PreSt :=
  match epi with
  | .push pvar =>
    if st.pushed.contains pvar then st
    else if (pvar ≠ v0 ∧ pvar ≠ target) ∨ role = CONCEPT_ROLE then st
    else
      { st with
        triple := if pvar = v0 then m.invert st.triple else st.triple
        push := true
        pushed := pvar :: st.pushed }
  | .pop => { st with pops := st.pops ++ [WItem.pop] }
  | e => { st with epis := st.epis ++ [e] }

/-- `_preconfigure`: one datum per triple (with its non-layout epidata
and its push flag), followed by its collected `POP`s; the `pushed` set
threads through all triples. -/
def _preconfigure (g : Graph) (m : Model) : List WItem :=
  (g.triples.foldl
    (fun (acc : List WItem × List (Option String)) triple =>
      let st0 : PreSt := ⟨triple, false, [], [], acc.2⟩
      let st := ((emGet g.epidata triple).getD []).foldl
        (preconfigEpi m triple.1 triple.2.1 triple.2.2) st0
      (acc.1 ++ [WItem.datum st.triple st.push st.epis] ++ st.pops, st.pushed))
    ([], [])).1

/-- The `while` loop of `_configureNode`, for the node object `id` with
variable `v0` (captured once at entry, like the source's `node` /
`edges` bindings; the object is re-read from the store at each
mutation, which is what mutating the captured `edges` array amounts
to).  Consumes work items until the list is empty, a `POP` is reached,
or a datum cannot be placed (which pushes it back and stops with
`surprising`).  A child context (`push`) allocates a fresh node object
for the target, rebinds the target's nodemap entry to it, and recurses
into it before linking it as an edge; the source's recursive
`_configureNode(target, …)` re-reads the entry just written, which is
the fresh id.  Fuel only bounds the recursion; `length + 1` always
suffices since every recursive call consumes at least one item first
and child calls never lengthen the list. -/
def cnLoop (m : Model) (v0 : Option String) (id : Nat) :
    Nat → Bool → CState → List WItem → Except String (Bool × CState × List WItem)
  | 0, _, _, _ => .error "internal: configuration fuel exhausted"
  | _ + 1, surprising, st, [] => .ok (surprising, st, [])
  | _ + 1, surprising, st, WItem.pop :: rest => .ok (surprising, st, rest)
  | fuel + 1, surprising, st, WItem.datum triple push0 epis :: rest =>
    let ori : Option (String × Option String × Bool × Bool) :=
      if triple.1 = v0 then some (triple.2.1, triple.2.2, push0, surprising)
      else if triple.2.2 = v0 ∧ triple.2.1 ≠ CONCEPT_ROLE then
        some ((m.invert triple).2.1, (m.invert triple).2.2, false, true)
      else none
    match ori with
    | none => .ok (true, st, WItem.datum triple push0 epis :: rest)
    | some (role, target, push, surp) =>
      if role = CONCEPT_ROLE then
        if jsFalsy target then cnLoop m v0 id fuel surp st rest
        else
          match st.objs.lookup id with
          | none => .error "internal: missing node object"
          | some obj =>
            cnLoop m v0 id fuel surp
              (stSetObj st id ⟨obj.v, ("/", BTgt.atom target, epis) :: obj.edges⟩) rest
      else if push then
        let cid := st.nextId
        let st1 : CState :=
          ⟨cid + 1, upsertBy st.nodemap (jsKey target) (some cid),
           upsertBy st.objs cid ⟨target, []⟩⟩
        match cnLoop m target cid fuel false st1 rest with
        | .error e => .error e
        | .ok (csurp, st2, rest2) =>
          match st2.objs.lookup id with
          | none => .error "internal: missing node object"
          | some obj =>
            cnLoop m v0 id fuel (surp && csurp)
              (stSetObj st2 id ⟨obj.v, obj.edges ++ [(role, BTgt.ref cid, epis)]⟩) rest2
      else
        let st3 := if st.nodemap.lookup (jsKey target) = some none then
                     { st with nodemap := upsertBy st.nodemap (jsKey target) (some id) }
                   else st
        match st3.objs.lookup id with
        | none => .error "internal: missing node object"
        | some obj =>
          cnLoop m v0 id fuel surp
            (stSetObj st3 id ⟨obj.v, obj.edges ++ [(role, BTgt.atom target, epis)]⟩) rest

/-- `_configureNode`: look up the entered variable's node object
(`nodemap[variable]!`) and run the work-item loop on it. -/
def _configureNode (m : Model) (v0 : Option String) (fuel : Nat) (st : CState)
    (data : List WItem) : Except String (Bool × CState × List WItem) :=
  match st.nodemap.lookup (jsKey v0) with
  | some (some id) => cnLoop m v0 id fuel false st data
  | _ => .error "internal: node context is not available"

/-- The edge-splicing loop of `_getOrEstablishSite`: replace the first
non-concept edge whose target is the atomic `v0` by a reference to the
new node `nid`. -/
def replaceFirstEdge (edges : List CEdge) (v0 : Option String) (nid : Nat) : List CEdge :=
  match edges with
  | [] => []
  | (r, tg, e) :: rest =>
    if tg = BTgt.atom v0 ∧ r ≠ "/" then (r, BTgt.ref nid, e) :: rest
    else (r, tg, e) :: replaceFirstEdge rest v0 nid

/-- `_getOrEstablishSite`: `false` when the variable's nodemap entry is
null or missing; `true` when it already holds the variable's own node;
otherwise establish a fresh node for the variable, rebind its nodemap
entry, and splice the new node into the holding node's first matching
edge. -/
def _getOrEstablishSite (v0 : Option String) (st : CState) : Bool × CState :=
  match st.nodemap.lookup (jsKey v0) with
  | none => (false, st)
  | some none => (false, st)
  | some (some nid) =>
    match st.objs.lookup nid with
    | none => (true, st)
    | some obj =>
      if v0 = obj.v then (true, st)
      else
        (true,
         ⟨st.nextId + 1,
          upsertBy st.nodemap (jsKey v0) (some st.nextId),
          upsertBy (upsertBy st.objs nid ⟨obj.v, replaceFirstEdge obj.edges v0 st.nextId⟩)
            st.nextId ⟨v0, []⟩⟩)

/-- `_findNext`: scan the work list from the pop end for the first
datum one of whose endpoints (source first, then a non-null target)
has a nodemap entry and yields an established site.  Returns the new
state, the scanned-over items, the found variable and the remaining
list headed by the found item; when nothing is found the source's
pivot arithmetic leaves exactly the element at the far end as the
remaining list. -/
def _findNext (st : CState) : List WItem → CState × List WItem × Option (Option String) × List WItem
  | [] => (st, [], none, [])
  | x :: rest =>
    let found : Option (Option String) × CState :=
      match x with
      | WItem.pop => (none, st)
      | WItem.datum triple _ _ =>
        if (st.nodemap.lookup (jsKey triple.1)).isSome then
          let r := _getOrEstablishSite triple.1 st
          if r.1 then (some triple.1, r.2)
          else if triple.2.2 ≠ none ∧ (st.nodemap.lookup (jsKey triple.2.2)).isSome = true then
            let r2 := _getOrEstablishSite triple.2.2 st
            if r2.1 then (some triple.2.2, r2.2) else (none, st)
          else (none, st)
        else if triple.2.2 ≠ none ∧ (st.nodemap.lookup (jsKey triple.2.2)).isSome = true then
          let r2 := _getOrEstablishSite triple.2.2 st
          if r2.1 then (some triple.2.2, r2.2) else (none, st)
        else (none, st)
    match found with
    | (some v, st2) => (st2, [], some v, x :: rest)
    | (none, _) =>
      match rest with
      | [] => (st, [], none, [x])
      | _ :: _ =>
        let r := _findNext st rest
        (r.1, x :: r.2.1, r.2.2.1, r.2.2.2)

/-- Remove superfluous `POP`s from the pop end of the work list. -/
def dropLeadingPops : List WItem → List WItem
  | WItem.pop :: rest => dropLeadingPops rest
  | l => l

/-- The driver loop of `configure` over the remaining work items and
the skipped buffer (the skipped buffer, like the work list, is kept
with the JS array's end first).  Each iteration finds the next
placeable context, configures it, and either files one stuck item into
the skipped buffer, fails, or merges the buffer back and continues;
superfluous `POP`s are trimmed after every iteration.  Fuel only
bounds the iteration count. -/
def configLoop (m : Model) : Nat → CState → List WItem → List WItem → Except String CState
  | 0, _, _, _ => .error "internal: configuration driver fuel exhausted"
  | _ + 1, st, [], skipped =>
    if skipped.isEmpty then .ok st else .error "incomplete configuration"
  | fuel + 1, st, d :: ds, skipped =>
    let fn := _findNext st (d :: ds)
    let skipped1 := fn.2.1 ++ skipped
    let data1 := fn.2.2.2
    match fn.2.2.1 with
    | none => .error "possibly disconnected graph"
    | some v =>
      if data1.isEmpty then .error "possibly disconnected graph"
      else
        match _configureNode m v (data1.length + 1) fn.1 data1 with
        | .error e => .error e
        | .ok (surp, st2, data2) =>
          if data2.length = data1.length ∧ surp = true then
            match data2 with
            | [] => .error "internal: empty data after stuck configuration"
            | h :: t => configLoop m fuel st2 (dropLeadingPops t) (skipped1 ++ [h])
          else if data1.length ≤ data2.length then .error "unknown configuration error"
          else configLoop m fuel st2 (dropLeadingPops (data2 ++ skipped1)) []

/-! ## Materializing the configured tree -/
mutual
/-- A configured node before epigraph processing: like `PNode` but with
the epidata still attached to each branch. -/
inductive ENode where
  | mk (v : Option String) (bs : EBranches)
deriving DecidableEq

/-- Branches of an `ENode`: `[role, target, epis]`. -/
inductive EBranches where
  | nil
  | cons (role : String) (tgt : ETarget) (epis : List Epi) (rest : EBranches)
deriving DecidableEq

/-- A branch target of an `ENode`. -/
inductive ETarget where
  | atom (a : Option String)
  | sub (n : ENode)
deriving DecidableEq
end

/-- Materialize an edge list given the materialization of referenced
ids. -/
def materializeE (f : Nat → ENode) : List CEdge → EBranches
  | [] => EBranches.nil
  | (r, BTgt.atom a, e) :: rest => EBranches.cons r (ETarget.atom a) e (materializeE f rest)
  | (r, BTgt.ref j, e) :: rest => EBranches.cons r (ETarget.sub (f j)) e (materializeE f rest)

/-- Read the node-object graph out of the store as a tree, following
edge references.  References always point to later-allocated ids, so a
fuel of `objs.length + 1` suffices; the fuel-exhausted and dangling-id
placeholders are unreachable. -/
def materializeN (st : CState) : Nat → Nat → ENode
  | 0, _ => ENode.mk none EBranches.nil
  | fuel + 1, id =>
    match st.objs.lookup id with
    | none => ENode.mk none EBranches.nil
    | some obj => ENode.mk obj.v (materializeE (fun j => materializeN st fuel j) obj.edges)

mutual
/-- `_processEpigraph`: fold each branch's epidata onto the role (mode
1 markers append their rendering to the role) and onto an atomic
target (mode 2 markers coerce the target to a string, `null` included,
and append); all other markers are dropped with a warning.  Nested
targets are processed recursively. -/
def processEpigraph : ENode → PNode
  | .mk v bs => PNode.mk v (processEpiBranches bs)

/-- The branch loop of `_processEpigraph`. -/
def processEpiBranches : EBranches → PBranches
  | .nil => PBranches.nil
  | .cons role tgt epis rest =>
    let atomicTarget : Bool := match tgt with
                               | .atom _ => true
                               | .sub _ => false
    let res : String × Option String :=
      epis.foldl
        (fun acc epi =>
          if epi.mode = 1 then (acc.1 ++ epi.render, acc.2)
          else if epi.mode = 2 ∧ atomicTarget = true then
            (acc.1, some (jsStr acc.2 ++ epi.render))
          else acc)
        (role, match tgt with
               | .atom a => a
               | .sub _ => none)
    match tgt with
    | .atom _ => PBranches.cons res.1 (PTarget.atom res.2) (processEpiBranches rest)
    | .sub en => PBranches.cons res.1 (PTarget.sub (processEpigraph en)) (processEpiBranches rest)
end

/-- `configure`: build a tree from a graph.  An empty graph yields a
childless node for `g.top`; otherwise the nodemap is initialized with
every variable unmapped, the requested top (defaulting to `g.top`)
must be a variable, and the work list produced by `_preconfigure`
is consumed starting at the top node, the driver loop placing
whatever remains.  The resulting node is materialized, its epigraph
data rendered back onto roles and targets, and wrapped in a tree —
passing `g.metadata` where the constructor expects an options object
(see `optionsMetadata`). -/
def configure (g : Graph) (m : Model := defaultModel)
    (topArg : Option (Option String) := none) : Except String PTree :=
  if g.triples.isEmpty then
    .ok ⟨PNode.mk g.top PBranches.nil, optionsMetadata g.metadata⟩
  else
    let top := topArg.getD g.top
    let nodemap0 : List (String × Option Nat) :=
      g.variablesL.foldl (fun nm v => upsertBy nm (jsKey v) (none : Option Nat)) []
    match top with
    | none => .error ("top is not a variable: " ++ jsStr none)
    | some tv =>
      if (nodemap0.lookup tv).isNone then .error ("top is not a variable: " ++ tv)
      else
        let st0 : CState := ⟨1, upsertBy nodemap0 tv (some 0), [(0, ⟨some tv, []⟩)]⟩
        let data0 := _preconfigure g m
        match _configureNode m (some tv) (data0.length + 1) st0 data0 with
        | .error e => .error e
        | .ok (_, st1, data1) =>
          match configLoop m ((data1.length + 1) * (data1.length + 1) + 1) st1
              (dropLeadingPops data1) [] with
          | .error e => .error e
          | .ok st2 =>
            .ok ⟨processEpigraph (materializeN st2 (st2.objs.length + 1) 0),
                 optionsMetadata g.metadata⟩

/-! ## Reconfiguration (`src/lib/layout.ts`, `reconfigure`) -/
/-- Stable insertion of a triple into a list sorted by a role key
(later-inserted equals go after earlier ones, as in lodash's stable
`sortBy`). -/
def insertByRoleKey (key : String → Int) (x : Triple) : List Triple → List Triple
  | [] => [x]
  | y :: rest =>
    if key y.2.1 ≤ key x.2.1 then y :: insertByRoleKey key x rest
    else x :: y :: rest

/-- Stable sort of the triples by a role key. -/
def stableSortByRoleKey (key : String → Int) (ts : List Triple) : List Triple :=
  ts.foldl (fun acc x => insertByRoleKey key x acc) []

/-- `reconfigure`: configure a deep copy of the graph after the
epidata-clearing loop.  The source sets `epilist.length = 0` and THEN
iterates the (now empty) list to keep non-layout markers, so every
epidata list comes out empty: all epigraph data is discarded, not just
the layout markers.  With a `key`, the triples are pre-sorted stably
by the key of their role. -/
def reconfigure (g : Graph) (m : Model := defaultModel)
    (topArg : Option (Option String) := none)
    (key : Option (String → Int) := none) : Except String PTree :=
  let p : Graph := { g with epidata := g.epidata.map (fun e => (e.1, ([] : List Epi))) }
  let p2 : Graph :=
    match key with
    | none => p
    | some k => { p with triples := stableSortByRoleKey k p.triples }
  configure p2 m topArg

/-- Modelled from the spec: `reconfigure` as documented — configuration
after removing exactly the layout markers (`Push` and `Pop`) from each
epidata list, retaining alignments and other non-layout epigraph data,
with the same optional stable pre-sort by a role key. -/
def reconfigureSpec (g : Graph) (m : Model := defaultModel)
    (topArg : Option (Option String) := none)
    (key : Option (String → Int) := none) : Except String PTree :=
  let p : Graph :=
    { g with epidata := g.epidata.map (fun e => (e.1, e.2.filter (fun epi => !epi.isLayoutMarker))) }
  let p2 : Graph :=
    match key with
    | none => p
    | some k => { p with triples := stableSortByRoleKey k p.triples }
  configure p2 m topArg

/-! ## Claims C7, C10 and C2 -/
/-- Helper instance: the automatic instance search fails to assemble
decidable equality for this product shape, though each component has
it. -/
instance : DecidableEq (List Triple × List (Triple × List Epi)) :=
  fun a b => @instDecidableEqProd _ _ (fun _ _ => inferInstance) (fun _ _ => inferInstance) a b

/-- A tree with two branches interpreting to the same triple value but
different role alignments. -/
def dupTree : PTree :=
  ⟨PNode.mk (some "a")
      (.cons "/" (.atom (some "alpha"))
        (.cons ":ARG0~1" (.atom (some "b")) (.cons ":ARG0~2" (.atom (some "b")) .nil))),
   .record []⟩

/-- A graph holding a non-layout epigraph marker: the interpretation of
`(a / alpha~1)`, whose instance triple carries an `Alignment`. -/
def alignedGraph : Graph :=
  Graph.make [(some "a", ":instance", some "alpha")] (some "a")
    [((some "a", ":instance", some "alpha"), [Epi.align ⟨[some 1], none⟩])] []

/-! ## Claim C1: scaffolding

The round trip `configure (interpret t)` is proved exact for
well-formed trees.  `wfNode`/`wfBranches` capture the conditions under
which every step of the pipeline is deterministic and
structure-preserving: truthy, pairwise-distinct variables; every node
introduced with a leading concept branch whose concept is a truthy,
tilde-free atom; roles colon-headed, tilde-free and distinct from the
concept role; atomic targets tilde-free and never (under the JS object
key coercion) a variable of the tree (the claim's no-reentrancy
hypothesis); and inverted nested roles whose double inversion is the
identity and whose single inversion is not the concept role.
`trListB`/`epListB` mirror the triples and epidata `_interpretNode`
produces on such trees, and `dataB` the work list `_preconfigure`
derives from them. -/
/-- Duplicate-freedom as a boolean. -/
def nodupL {α : Type} [BEq α] : List α → Bool
  | [] => true
  | x :: rest => !(rest.contains x) && nodupL rest

mutual
/-- Well-formedness of a node for the exact round trip. -/
def wfNode (m : Model) (vars : List String) : PNode → Bool
  | .mk (some s) (.cons r (.atom (some c)) rest) =>
    (r == "/") && !(s == "") && vars.contains s && !(c == "") && !(strContainsTilde c) &&
    wfBranches m vars rest
  | _ => false

/-- Well-formedness of the branches after the concept branch. -/
def wfBranches (m : Model) (vars : List String) : PBranches → Bool
  | .nil => true
  | .cons r (.atom a) rest =>
    strStartsWithColon r && !(strContainsTilde r) && !(r == CONCEPT_ROLE) &&
    !(vars.contains (jsKey a)) &&
    (match a with
     | some s => !(strContainsTilde s)
     | none => true) &&
    wfBranches m vars rest
  | .cons r (.sub child) rest =>
    strStartsWithColon r && !(strContainsTilde r) && !(r == CONCEPT_ROLE) &&
    (!(m.isRoleInverted r) ||
      ((m.invertRole (m.invertRole r) == r) && !(m.invertRole r == CONCEPT_ROLE))) &&
    wfNode m vars child && wfBranches m vars rest
end

mutual
/-- The triples `_interpretNode` produces for a well-formed node (the
concept triple first, then per branch). -/
def trListN (m : Model) : PNode → List Triple
  | .mk v bs =>
    match bs with
    | .cons r (.atom (some c)) rest =>
      if r = "/" then ((v, CONCEPT_ROLE, some c) : Triple) :: trListB m v rest
      else trListB m v (.cons r (.atom (some c)) rest)
    | bs2 => trListB m v bs2

/-- The triples of the branches after the concept branch (nested
targets contribute their deinverted edge triple followed by the
subtree's triples). -/
def trListB (m : Model) (v : Option String) : PBranches → List Triple
  | .nil => []
  | .cons r (.atom a) rest => ((v, r, a) : Triple) :: trListB m v rest
  | .cons r (.sub child) rest =>
    m.deinvert (v, r, child.var) :: (trListN m child ++ trListB m v rest)
end

mutual
/-- The epidata `_interpretNode` produces for a well-formed node; `k`
extra `POP`s are appended to the last entry (the node context closures
accumulated by enclosing nodes). -/
def epListN (m : Model) (k : Nat) : PNode → List (Triple × List Epi)
  | .mk v bs =>
    match bs with
    | .cons r (.atom (some c)) rest =>
      if r = "/" then
        match rest with
        | .nil => [(((v, CONCEPT_ROLE, some c) : Triple), List.replicate k Epi.pop)]
        | _ => (((v, CONCEPT_ROLE, some c) : Triple), ([] : List Epi)) :: epListB m k v rest
      else epListB m k v (.cons r (.atom (some c)) rest)
    | bs2 => epListB m k v bs2

/-- The epidata of the branches after the concept branch. -/
def epListB (m : Model) (k : Nat) (v : Option String) : PBranches → List (Triple × List Epi)
  | .nil => []
  | .cons r (.atom a) .nil => [(((v, r, a) : Triple), List.replicate k Epi.pop)]
  | .cons r (.atom a) rest => (((v, r, a) : Triple), ([] : List Epi)) :: epListB m k v rest
  | .cons r (.sub child) .nil =>
    (m.deinvert (v, r, child.var), [Epi.push child.var]) :: epListN m (k + 1) child
  | .cons r (.sub child) rest =>
    (m.deinvert (v, r, child.var), [Epi.push child.var]) ::
      (epListN m 1 child ++ epListB m k v rest)
end

mutual
/-- The work list `_preconfigure` derives from a well-formed node's
triples and epidata (the validated `Push` having re-inverted each
nested edge triple). -/
def dataN : PNode → List WItem
  | .mk v bs =>
    match bs with
    | .cons r (.atom (some c)) rest =>
      if r = "/" then WItem.datum (v, CONCEPT_ROLE, some c) false [] :: dataB v rest
      else dataB v (.cons r (.atom (some c)) rest)
    | bs2 => dataB v bs2

/-- The work items of the branches after the concept branch. -/
def dataB (v : Option String) : PBranches → List WItem
  | .nil => []
  | .cons r (.atom a) rest => WItem.datum (v, r, a) false [] :: dataB v rest
  | .cons r (.sub child) rest =>
    WItem.datum (v, r, child.var) true [] :: (dataN child ++ (WItem.pop :: dataB v rest))
end

/-- Well-formedness of a tree: a well-formed node over the tree's own
variable list, distinct variables, distinct triples. -/
def wfTree (m : Model) (t : PTree) : Bool :=
  wfNode m (nodeVarsN t.node) t.node && nodupL (nodeVarsN t.node) &&
    nodupL (trListN m t.node)

/-! ## Claim C1: the preconfiguration pass -/
/-- One step of `_preconfigure`'s triple loop, taking the epidata value
directly (the epimap lookup is discharged separately via key
uniqueness). -/
def preF (m : Model) (acc : List WItem × List (Option String)) (e : Triple × List Epi) :
    List WItem × List (Option String) :=
  let st := e.2.foldl (preconfigEpi m e.1.1 e.1.2.1 e.1.2.2) ⟨e.1, false, [], [], acc.2⟩
  (acc.1 ++ [WItem.datum st.triple st.push st.epis] ++ st.pops, st.pushed)

mutual
/-- The node-context variables pushed while preconfiguring a node's
subtree, in reverse order of processing once accumulated. -/
def pushListN : PNode → List (Option String)
  | .mk _ bs => pushListB bs

/-- The pushed variables of a branch list. -/
def pushListB : PBranches → List (Option String)
  | .nil => []
  | .cons _ (.atom _) rest => pushListB rest
  | .cons _ (.sub child) rest => child.var :: (pushListN child ++ pushListB rest)
end

/-- The branch list of a node. -/
def PNode.branches : PNode → PBranches
  | .mk _ bs => bs

/-- The counterexample tree for claim C1: a single node with the
colon-less role `ARG0` and no reentrancy (target `b` is not a node
variable), with no epigraph markers to disturb. -/
def cxTree : PTree :=
  ⟨PNode.mk (some "a") (.cons "ARG0" (.atom (some "b")) .nil), MetaVal.record []⟩

/-- The tree `(b / bark-01 :ARG0 (d / dog))` with empty metadata. -/
def barkTree : PTree :=
  ⟨PNode.mk (some "b") (.cons "/" (.atom (some "bark-01"))
    (.cons ":ARG0" (.sub (PNode.mk (some "d") (.cons "/" (.atom (some "dog")) .nil))) .nil)),
   MetaVal.record []⟩

/-! ## Theorems -/

theorem strEndsWithOf_append (r : String) : strEndsWithOf (r ++ "-of") = true := by
  simp only [strEndsWithOf, List.isSuffixOf_iff_suffix, decide_eq_true_eq]
  show ofChars <:+ (r.data ++ "-of".data)
  exact List.suffix_append _ _

theorem data_append (r s : String) : (r ++ s).data = r.data ++ s.data := rfl

theorem strDropLast3_append (r : String) : strDropLast3 (r ++ "-of") = r := by
  simp only [strDropLast3, data_append]
  show String.mk (List.take ((r.data ++ "-of".data).length - 3) (r.data ++ "-of".data)) = r
  have h1 : (r.data ++ "-of".data).length = r.data.length + 3 := by
    simp [List.length_append]
  rw [h1]
  simp only [Nat.add_sub_cancel]
  rw [List.take_left' rfl]

theorem length_append_of (r : String) : (r ++ "-of").data.length = r.data.length + 3 := by
  rw [data_append]; simp [List.length_append]

theorem length_strDropLast3 (r : String) :
    (strDropLast3 r).data.length = r.data.length - 3 := by
  simp only [strDropLast3]
  show (List.take (r.data.length - 3) r.data).length = r.data.length - 3
  rw [List.length_take]
  omega

theorem endsWithOf_length (r : String) (h : strEndsWithOf r = true) : 3 ≤ r.data.length := by
  simp only [strEndsWithOf, List.isSuffixOf_iff_suffix, decide_eq_true_eq] at h
  have := h.length_le
  simpa [ofChars] using this

/-- A string ending in `"-of"` is its first part plus `"-of"`. -/
theorem eq_dropLast3_append_of (r : String) (h : strEndsWithOf r = true) :
    r = strDropLast3 r ++ "-of" := by
  simp only [strEndsWithOf, List.isSuffixOf_iff_suffix, decide_eq_true_eq] at h
  obtain ⟨pre, hpre⟩ := h
  have hr : r = String.mk pre ++ "-of" := by
    cases r with
    | mk d =>
      show String.mk d = String.mk (pre ++ "-of".data)
      rw [show ("-of" : String).data = ofChars from rfl, hpre]
  rw [hr, strDropLast3_append]

/-! ## Lemmas about role inversion and the canonicalization loop -/
theorem foldr_max_le_of_mem {l : List Nat} {n : Nat} (h : n ∈ l) :
    n ≤ l.foldr Nat.max 0 := by
  induction l with
  | nil => cases h
  | cons x xs ih =>
    rcases List.mem_cons.mp h with h | h
    · subst h; exact Nat.le_max_left _ _
    · exact Nat.le_trans (ih h) (Nat.le_max_right _ _)

theorem Model.hasRole_length {m : Model} {x : String} (h : m._hasRole x = true) :
    x.data.length ≤ m.maxRoleLen := by
  have hx : x ∈ m.roles ++ [m.topRole, m.conceptRole] := by
    simpa [Model._hasRole, List.contains] using h
  exact foldr_max_le_of_mem (List.mem_map_of_mem _ hx)

theorem head_append_of (r : String) (h : r.data ≠ []) :
    (r ++ "-of").data.head? = r.data.head? := by
  rw [data_append]
  cases hr : r.data with
  | nil => exact absurd hr h
  | cons c tl => simp

theorem endsWithOf_four_le (r : String) (c : Char) (h : strEndsWithOf r = true)
    (hh : r.data.head? = some c) (hc : c ≠ '-') : 4 ≤ r.data.length := by
  have h3 := endsWithOf_length r h
  by_contra hlt
  have hlen : r.data.length = 3 := by omega
  simp only [strEndsWithOf, List.isSuffixOf_iff_suffix, decide_eq_true_eq] at h
  have heq : ofChars = r.data := h.eq_of_length (by simp [ofChars, hlen])
  rw [← heq] at hh
  simp [ofChars] at hh
  exact hc (by rw [← hh])

theorem head_strDropLast3 (r : String) (h : 4 ≤ r.data.length) :
    (strDropLast3 r).data.head? = r.data.head? := by
  simp only [strDropLast3]
  show (List.take (r.data.length - 3) r.data).head? = r.data.head?
  obtain ⟨c, tl, hr⟩ : ∃ c tl, r.data = c :: tl := by
    cases hd : r.data with
    | nil => rw [hd] at h; simp at h
    | cons a b => exact ⟨a, b, rfl⟩
  rw [hr] at h ⊢
  have hlen : (c :: tl).length - 3 = ((c :: tl).length - 4) + 1 := by
    simp only [List.length_cons] at h ⊢
    omega
  rw [hlen, List.take_succ_cons]
  simp

theorem Model.invertRole_head (m : Model) (r : String) (c : Char)
    (hh : r.data.head? = some c) (hc : c = ':' ∨ c = '/') :
    (m.invertRole r).data.head? = some c := by
  have hcd : c ≠ '-' := by rcases hc with h | h <;> simp [h]
  have hne : r.data ≠ [] := by
    intro h0; rw [h0] at hh; simp at hh
  unfold Model.invertRole
  by_cases h1 : (!m._hasRole r && strEndsWithOf r) = true
  · rw [if_pos h1]
    have hends : strEndsWithOf r = true := by
      revert h1; cases strEndsWithOf r <;> simp
    rw [head_strDropLast3 r (endsWithOf_four_le r c hends hh hcd)]
    exact hh
  · rw [if_neg h1, head_append_of r hne]
    exact hh

theorem Model.canonStep_head (m : Model) (r : String) (c : Char)
    (hh : r.data.head? = some c) (hc : c = ':' ∨ c = '/') :
    (m.canonStep r).data.head? = some c :=
  m.invertRole_head _ c (m.invertRole_head r c hh hc) hc

theorem Model.canonLoop_head (m : Model) (fuel : Nat) (r : String) (c : Char)
    (hh : r.data.head? = some c) (hc : c = ':' ∨ c = '/') :
    (m.canonLoop fuel r).data.head? = some c := by
  induction fuel generalizing r with
  | zero => exact hh
  | succ n ih =>
    simp only [Model.canonLoop]
    by_cases h : m.canonStep r = r
    · rw [if_pos h]; exact hh
    · rw [if_neg h]; exact ih _ (m.canonStep_head r c hh hc)

theorem Model.canonStep_decrease (m : Model) (r : String)
    (hne : m.canonStep r ≠ r) :
    m.canonMeasure (m.canonStep r) < m.canonMeasure r := by
  by_cases h1 : (!m._hasRole r && strEndsWithOf r) = true
  · -- the first inversion strips the "-of" suffix
    have hends : strEndsWithOf r = true := by
      revert h1; cases strEndsWithOf r <;> simp
    have hhas : m._hasRole r = false := by
      revert h1; cases m._hasRole r <;> simp
    have hinner : m.invertRole r = strDropLast3 r := by
      unfold Model.invertRole; rw [if_pos h1]
    by_cases h2 : (!m._hasRole (strDropLast3 r) && strEndsWithOf (strDropLast3 r)) = true
    · -- double strip: the t1 transition
      have hends2 : strEndsWithOf (strDropLast3 r) = true := by
        revert h2; cases strEndsWithOf (strDropLast3 r) <;> simp
      have hhas2 : m._hasRole (strDropLast3 r) = false := by
        revert h2; cases m._hasRole (strDropLast3 r) <;> simp
      have hstep : m.canonStep r = strDropLast3 (strDropLast3 r) := by
        unfold Model.canonStep
        rw [hinner]
        unfold Model.invertRole
        rw [if_pos h2]
      rw [hstep]
      have ht1 : m.t1app r = true := by
        simp [Model.t1app, hends, hhas, hends2, hhas2]
      have l1 : 3 ≤ r.data.length := endsWithOf_length r hends
      have l2 : 3 ≤ (strDropLast3 r).data.length := endsWithOf_length _ hends2
      rw [length_strDropLast3] at l2
      have l3 : (strDropLast3 (strDropLast3 r)).data.length = r.data.length - 6 := by
        rw [length_strDropLast3, length_strDropLast3]
        omega
      unfold Model.canonMeasure
      rw [if_pos ht1]
      by_cases ht1' : m.t1app (strDropLast3 (strDropLast3 r)) = true
      · rw [if_pos ht1', l3]
        omega
      · rw [if_neg ht1', l3]
        omega
    · -- re-append: the step is the identity, contradiction
      have hstep : m.canonStep r = r := by
        unfold Model.canonStep
        rw [hinner]
        unfold Model.invertRole
        rw [if_neg h2]
        exact (eq_dropLast3_append_of r hends).symm
      exact absurd hstep hne
  · -- the first inversion appends "-of"
    have hinner : m.invertRole r = r ++ "-of" := by
      unfold Model.invertRole; rw [if_neg h1]
    by_cases h3 : (!m._hasRole (r ++ "-of") && strEndsWithOf (r ++ "-of")) = true
    · -- strip back: the step is the identity, contradiction
      have hstep : m.canonStep r = r := by
        unfold Model.canonStep
        rw [hinner]
        unfold Model.invertRole
        rw [if_pos h3, strDropLast3_append]
      exact absurd hstep hne
    · -- double append: the t2 transition, possible only for a declared
      -- "-of" role, whose length is bounded by the role table
      have hstep : m.canonStep r = (r ++ "-of") ++ "-of" := by
        unfold Model.canonStep
        rw [hinner]
        unfold Model.invertRole
        rw [if_neg h3]
      rw [hstep]
      have hhas3 : m._hasRole (r ++ "-of") = true := by
        revert h3
        cases hh : m._hasRole (r ++ "-of")
        · simp [strEndsWithOf_append]
        · simp
      have hlen3 : (r ++ "-of").data.length ≤ m.maxRoleLen := Model.hasRole_length hhas3
      rw [length_append_of] at hlen3
      have ht1r : m.t1app r = false := by
        unfold Model.t1app
        revert h1
        cases m._hasRole r <;> cases strEndsWithOf r <;> simp
      have ht1s : m.t1app ((r ++ "-of") ++ "-of") = false := by
        unfold Model.t1app
        rw [strDropLast3_append, hhas3]
        simp
      unfold Model.canonMeasure
      rw [if_neg (by rw [ht1s]; exact Bool.false_ne_true),
        if_neg (by rw [ht1r]; exact Bool.false_ne_true)]
      rw [length_append_of, length_append_of]
      omega

theorem Model.canonLoop_of_fixed (m : Model) (fuel : Nat) (r : String)
    (h : m.canonStep r = r) : m.canonLoop fuel r = r := by
  cases fuel with
  | zero => rfl
  | succ n => simp only [Model.canonLoop, h, if_pos]

theorem Model.canonLoop_exit (m : Model) (fuel : Nat) (r : String)
    (h : m.canonMeasure r < fuel) :
    m.canonStep (m.canonLoop fuel r) = m.canonLoop fuel r := by
  induction fuel generalizing r with
  | zero => omega
  | succ n ih =>
    simp only [Model.canonLoop]
    by_cases hfix : m.canonStep r = r
    · rw [if_pos hfix]; exact hfix
    · rw [if_neg hfix]
      exact ih _ (by
        have := m.canonStep_decrease r hfix
        omega)

theorem Model.canonMeasure_lt_canonFuel (m : Model) (r : String) :
    m.canonMeasure r < m.canonFuel r := by
  unfold Model.canonMeasure Model.canonFuel
  by_cases h : m.t1app r = true
  · rw [if_pos h]; omega
  · rw [if_neg h]; omega

/-- The result of `_canonicalizeInversion` is stable: it is either a
declared role or a fixed point of the double-inversion step. -/
theorem Model.canonInv_stable (m : Model) (r : String) :
    m._hasRole (m._canonicalizeInversion r) = true ∨
      m.canonStep (m._canonicalizeInversion r) = m._canonicalizeInversion r := by
  unfold Model._canonicalizeInversion
  by_cases h : m._hasRole r = true
  · rw [if_neg (by simp [h])]
    exact Or.inl h
  · rw [if_pos (by simp [Bool.not_eq_true] at h ⊢; exact h)]
    exact Or.inr (m.canonLoop_exit _ _ (m.canonMeasure_lt_canonFuel r))

/-- `_canonicalizeInversion` is idempotent. -/
theorem Model.canonInv_idem (m : Model) (r : String) :
    m._canonicalizeInversion (m._canonicalizeInversion r) =
      m._canonicalizeInversion r := by
  rcases m.canonInv_stable r with h | h
  · generalize hgen : m._canonicalizeInversion r = o at h ⊢
    unfold Model._canonicalizeInversion
    rw [if_neg (by simp [h])]
  · generalize hgen : m._canonicalizeInversion r = o at h ⊢
    unfold Model._canonicalizeInversion
    by_cases hh : m._hasRole o = true
    · rw [if_neg (by simp [hh])]
    · rw [if_pos (by simp [Bool.not_eq_true] at hh ⊢; exact hh)]
      exact m.canonLoop_of_fixed _ _ h

theorem Model.canonInv_head (m : Model) (r : String) (c : Char)
    (hh : r.data.head? = some c) (hc : c = ':' ∨ c = '/') :
    (m._canonicalizeInversion r).data.head? = some c := by
  unfold Model._canonicalizeInversion
  by_cases h : (!m._hasRole r) = true
  · rw [if_pos h]; exact m.canonLoop_head _ _ c hh hc
  · rw [if_neg h]; exact hh

theorem lookup_mem {k v : String} :
    ∀ {l : List (String × String)}, l.lookup k = some v → (k, v) ∈ l := by
  intro l
  induction l with
  | nil => intro h; simp [List.lookup] at h
  | cons p rest ih =>
    intro h
    cases p with
    | mk pk pv =>
      simp only [List.lookup] at h
      split at h
      · next heq =>
        cases h
        have hk : k = pk := by simpa using heq
        subst hk
        exact List.mem_cons_self _ _
      · exact List.mem_cons_of_mem _ (ih h)

theorem startsColon_head (s : String) :
    strStartsWithColon s = true ↔ s.data.head? = some ':' := by
  cases hd : s.data with
  | nil => simp [strStartsWithColon, hd]
  | cons c tl => simp [strStartsWithColon, hd]

theorem colonizeRole_shape (r : String) :
    Model.colonizeRole r = "/" ∨ strStartsWithColon (Model.colonizeRole r) = true := by
  unfold Model.colonizeRole
  by_cases h : (r ≠ "/" && !strStartsWithColon r) = true
  · rw [if_pos h]
    right
    rw [startsColon_head]
    rfl
  · rw [if_neg h]
    simp only [Bool.and_eq_true, Bool.not_eq_true', ne_eq, decide_not, Bool.not_eq_true,
      decide_eq_false_iff_not, Decidable.not_not] at h
    by_cases hr : r = "/"
    · exact Or.inl hr
    · right
      cases hcol : strStartsWithColon r with
      | false =>
        exfalso
        revert h
        simp [hr, hcol]
      | true => rfl

theorem Model.canonInv_slash (m : Model) (h2 : m._hasRole "/-of" = false) :
    m._canonicalizeInversion "/" = "/" := by
  unfold Model._canonicalizeInversion
  by_cases h : (!m._hasRole "/") = true
  · rw [if_pos h]
    apply m.canonLoop_of_fixed
    have hslash : m.invertRole "/" = "/-of" := by
      unfold Model.invertRole
      rw [if_neg (by simp [show strEndsWithOf "/" = false from by decide])]
      rfl
    have hback : m.invertRole "/-of" = "/" := by
      unfold Model.invertRole
      rw [if_pos (by rw [h2]; decide)]
      rfl
    unfold Model.canonStep
    rw [hslash, hback]
  · rw [if_neg h]

/-- Idempotence of `canonicalizeRole` for models whose normalization
aliases are themselves canonical and which do not declare the
inversion of the concept-role sentinel (`'/' + '-of'`) as a role. -/
theorem Model.canonicalizeRole_idem (m : Model)
    (H1 : ∀ p ∈ m.normalizations, m.canonicalizeRole p.2 = p.2)
    (H2 : m._hasRole "/-of" = false) (r : String) :
    m.canonicalizeRole (m.canonicalizeRole r) = m.canonicalizeRole r := by
  set o := m._canonicalizeInversion (Model.colonizeRole r) with ho
  have hshape : o = "/" ∨ strStartsWithColon o = true := by
    rcases colonizeRole_shape r with h | h
    · left
      rw [ho, h]
      exact m.canonInv_slash H2
    · right
      rw [startsColon_head] at h ⊢
      rw [ho]
      exact m.canonInv_head _ ':' h (Or.inl rfl)
  have hcol : Model.colonizeRole o = o := by
    unfold Model.colonizeRole
    rcases hshape with h | h
    · rw [if_neg]
      simp [h]
    · rw [if_neg]
      simp [h]
  have hinv : m._canonicalizeInversion o = o := by
    rw [ho]
    exact m.canonInv_idem _
  show m.normApply (m._canonicalizeInversion (Model.colonizeRole (m.normApply o))) =
    m.normApply o
  cases hl : m.normalizations.lookup o with
  | none =>
    have hno : m.normApply o = o := by
      unfold Model.normApply
      rw [hl]
    rw [hno, hcol, hinv, hno]
  | some v =>
    by_cases hv : v = ""
    · subst hv
      have hno : m.normApply o = o := by
        unfold Model.normApply
        rw [hl]
        simp
      rw [hno, hcol, hinv, hno]
    · have hyes : m.normApply o = v := by
        unfold Model.normApply
        rw [hl]
        simp [hv]
      rw [hyes]
      exact H1 _ (lookup_mem hl)

/-! ## Claims C5 and C6 -/
/-- Claim C5, counterexample: under the default model, double inversion
of the triple `('a', ':ARG0-of-of', 'b')` yields `('a', ':ARG0', 'b')`,
not the original triple — `invertRole` does not "unconditionally toggle
a trailing `-of`": it strips one `-of` from `':ARG0-of-of'` and then
strips again instead of re-adding. -/
theorem claim_C5_counterexample :
    defaultModel.invert (defaultModel.invert (some "a", ":ARG0-of-of", some "b")) ≠
      (some "a", ":ARG0-of-of", some "b") := by
  decide

/-- Claim C5 (amended): `model.invert(model.invert(triple))` equals
`triple` for every triple whose role is restored by two applications of
`invertRole` — in particular every role that neither already ends in
`-of` nor has its `-of`-suffixed form declared as a role.  The original
unconditional claim fails, e.g. on the role `':ARG0-of-of'`. -/
theorem claim_C5 (m : Model) (s t : Option String) (r : String)
    (h : m.invertRole (m.invertRole r) = r) :
    m.invert (m.invert (s, r, t)) = (s, r, t) := by
  simp only [Model.invert]
  rw [h]

/-- Witness for claim C5 at the default model and `('a', ':ARG0', 'b')`. -/
theorem claim_C5_witness :
    defaultModel.invertRole (defaultModel.invertRole ":ARG0") = ":ARG0" ∧
      defaultModel.invert (defaultModel.invert (some "a", ":ARG0", some "b")) =
        (some "a", ":ARG0", some "b") :=
  ⟨by decide, claim_C5 defaultModel (some "a") (some "b") ":ARG0" (by decide)⟩

/-- Claim C6, counterexample: `canonicalizeRole` is not idempotent for
every model.  For a model normalizing `':x'` to `'y'` (an alias that
does not itself start with `':'`), `canonicalizeRole(':x') = 'y'` but
`canonicalizeRole('y') = ':y'`. -/
theorem claim_C6_counterexample :
    ¬ (({ normalizations := [(":x", "y")] } : Model).canonicalizeRole
        (({ normalizations := [(":x", "y")] } : Model).canonicalizeRole ":x") =
      ({ normalizations := [(":x", "y")] } : Model).canonicalizeRole ":x") := by
  decide

/-- Claim C6 (amended): `canonicalizeRole` is idempotent —
`canonicalizeRole(canonicalizeRole(r)) = canonicalizeRole(r)` for every
role `r` — for every model whose normalization-table values are
themselves fixed points of `canonicalizeRole` and which does not
declare the inversion of the sentinel (`'/' + '-of'`) as a role.
(Both conditions hold for the default
model, whose tables are empty; the original claim over all models fails
on a model with a non-canonical normalization alias.) -/
theorem claim_C6 (m : Model)
    (H1 : ∀ p ∈ m.normalizations, m.canonicalizeRole p.2 = p.2)
    (H2 : m._hasRole "/-of" = false) (r : String) :
    m.canonicalizeRole (m.canonicalizeRole r) = m.canonicalizeRole r :=
  m.canonicalizeRole_idem H1 H2 r

/-- Witness for claim C6 at the default model and `':ARG0-of-of'`. -/
theorem claim_C6_witness :
    (∀ p ∈ defaultModel.normalizations, defaultModel.canonicalizeRole p.2 = p.2) ∧
      defaultModel._hasRole "/-of" = false ∧
      defaultModel.canonicalizeRole (defaultModel.canonicalizeRole ":ARG0-of-of") =
        defaultModel.canonicalizeRole ":ARG0-of-of" :=
  ⟨by simp [defaultModel], by decide,
    claim_C6 defaultModel (by simp [defaultModel]) (by decide) ":ARG0-of-of"⟩

/-! ## Claims C4 and C8 -/
/-- Claim C4, counterexample: the reify/dereify inverse property fails
when a reification's two argument roles coincide.  For a model with the
single reification `(':r', 'C', ':a', ':a')` and the triple
`('x', ':r', 'y')`, `reify` yields `(a, b, c)` but `dereify(b, c, a)`
returns `('y', ':r', 'x')` — the inverted triple, not the original. -/
theorem claim_C4_counterexample :
    ({ reifications := [(":r", some "C", ":a", ":a")] } : Model).reify
        (some "x", ":r", some "y") =
      .ok ((some "_", ":a", some "x"), (some "_", ":instance", some "C"),
        (some "_", ":a", some "y")) ∧
    ({ reifications := [(":r", some "C", ":a", ":a")] } : Model).dereify
        (some "_", ":instance", some "C") (some "_", ":a", some "y")
        (some "_", ":a", some "x") ≠
      .ok (some "x", ":r", some "y") := by
  constructor
  · decide
  · decide

/-- Claim C4 (amended): for a model in which the reifiable role `r` and
its concept determine each other uniquely (the concept's dereification
table is exactly `r`'s entry) and whose two argument roles differ,
`reify` followed by `dereify` restores the original triple, with the
two argument triples accepted in either order.  The original claim over
all models fails when the two argument roles coincide (the restored
triple comes out inverted for one argument order) or when another
reification shadows the entry. -/
theorem claim_C4 (m : Model) (s t con : Option String) (r sr tr : String)
    (h1 : m.reificationsFor r = [(con, sr, tr)])
    (h2 : m.dereificationsFor con = [(r, sr, tr)])
    (h3 : sr ≠ tr) :
    ∀ a b c, m.reify (s, r, t) = .ok (a, b, c) →
      m.dereify b a c = .ok (s, r, t) ∧ m.dereify b c a = .ok (s, r, t) := by
  intro a b c heq
  have hreify : m.reify (s, r, t) =
      .ok ((some "_", sr, s), (some "_", CONCEPT_ROLE, con), (some "_", tr, t)) := by
    unfold Model.reify
    rw [h1]
  rw [hreify] at heq
  injection heq with heq
  simp only [Prod.mk.injEq] at heq
  obtain ⟨ha, hb, hc⟩ := heq
  subst ha hb hc
  constructor
  · unfold Model.dereify
    rw [if_neg (by simp [CONCEPT_ROLE]), if_neg (by simp)]
    simp only [h2]
    unfold Model.dereifyScan
    simp
  · unfold Model.dereify
    rw [if_neg (by simp [CONCEPT_ROLE]), if_neg (by simp)]
    simp only [h2]
    unfold Model.dereifyScan
    rw [if_neg (by simp; exact fun h _ => h3 h)]
    rw [if_pos (by simp)]

/-- Witness for claim C4 at a one-entry model and `('x', ':mod', '5')`. -/
theorem claim_C4_witness :
    ({ reifications := [(":mod", some "have-mod-91", ":ARG1", ":ARG2")] } : Model).dereify
        (some "_", ":instance", some "have-mod-91") (some "_", ":ARG1", some "x")
        (some "_", ":ARG2", some "5") = .ok (some "x", ":mod", some "5") ∧
    ({ reifications := [(":mod", some "have-mod-91", ":ARG1", ":ARG2")] } : Model).dereify
        (some "_", ":instance", some "have-mod-91") (some "_", ":ARG2", some "5")
        (some "_", ":ARG1", some "x") = .ok (some "x", ":mod", some "5") :=
  claim_C4 ({ reifications := [(":mod", some "have-mod-91", ":ARG1", ":ARG2")] } : Model)
    (some "x") (some "5") (some "have-mod-91") ":mod" ":ARG1" ":ARG2"
    (by decide) (by decide) (by decide)
    (some "_", ":ARG1", some "x") (some "_", ":instance", some "have-mod-91")
    (some "_", ":ARG2", some "5") (by decide)

/-- Claim C8: assigning `top` a non-null value outside the graph's
variable set raises a `GraphError` (leaving the graph unchanged, the
assignment never having happened); assigning a variable of the graph or
`null` succeeds; and the `top` getter on a graph with no explicit top
returns the source of the first triple, or `null` when the triple list
is empty. -/
theorem claim_C8 (g : Graph) (v : String) :
    (some v ∉ g.variablesL → g.setTop (some v) = .error "top must be a valid node") ∧
    (some v ∈ g.variablesL → g.setTop (some v) = .ok { g with _top := some v }) ∧
    g.setTop none = .ok { g with _top := none } ∧
    (g._top = none → g.top = (g.triples.head?).bind (·.1)) := by
  refine ⟨?_, ?_, ?_, ?_⟩
  · intro h
    unfold Graph.setTop
    rw [if_pos ⟨by simp, h⟩]
  · intro h
    unfold Graph.setTop
    rw [if_neg (by simp [h])]
  · unfold Graph.setTop
    rw [if_neg (by simp)]
  · intro h
    unfold Graph.top
    rw [h]
    cases g.triples with
    | nil => rfl
    | cons t rest => rfl

/-- Witness for claim C8 on the one-triple graph `('a', ':instance',
'alpha')`: assigning `'z'` errors, assigning `'a'` or `null` succeeds,
and the implicit top is `'a'`. -/
theorem claim_C8_witness :
    (some "z" ∉ (Graph.make [(some "a", ":instance", some "alpha")]).variablesL ∧
      (Graph.make [(some "a", ":instance", some "alpha")]).setTop (some "z") =
        .error "top must be a valid node") ∧
    (some "a" ∈ (Graph.make [(some "a", ":instance", some "alpha")]).variablesL ∧
      (Graph.make [(some "a", ":instance", some "alpha")]).setTop (some "a") =
        .ok { Graph.make [(some "a", ":instance", some "alpha")] with _top := some "a" }) ∧
    (Graph.make [(some "a", ":instance", some "alpha")]).setTop none =
      .ok { Graph.make [(some "a", ":instance", some "alpha")] with _top := none } ∧
    (Graph.make [(some "a", ":instance", some "alpha")])._top = none ∧
    (Graph.make [(some "a", ":instance", some "alpha")]).top =
      ((Graph.make [(some "a", ":instance", some "alpha")]).triples.head?).bind (·.1) :=
  ⟨⟨by decide, ((claim_C8 (Graph.make [(some "a", ":instance", some "alpha")]) "z").1
      (by decide))⟩,
   ⟨by decide, ((claim_C8 (Graph.make [(some "a", ":instance", some "alpha")]) "a").2.1
      (by decide))⟩,
   (claim_C8 (Graph.make [(some "a", ":instance", some "alpha")]) "a").2.2.1,
   by decide,
   ((claim_C8 (Graph.make [(some "a", ":instance", some "alpha")]) "a").2.2.2
      (by decide))⟩

/-! ## Association-list lemmas for the `errors`/`_dfs` constructions -/
theorem lookup_isSome_iff {β : Type} (l : List (String × β)) (k : String) :
    (l.lookup k).isSome ↔ k ∈ l.map Prod.fst := by
  induction l with
  | nil => simp [List.lookup]
  | cons p rest ih =>
    cases p with
    | mk pk pv =>
      cases hbeq : k == pk with
      | true =>
        have hk : k = pk := by simpa using hbeq
        simp [List.lookup, hbeq, hk]
      | false =>
        have hk : ¬k = pk := by simpa using hbeq
        simp [List.lookup, hbeq, ih, hk]

theorem lookup_mem_entry {β : Type} {l : List (String × β)} {k : String} {v : β}
    (h : l.lookup k = some v) : (k, v) ∈ l := by
  induction l with
  | nil => simp [List.lookup] at h
  | cons p rest ih =>
    cases p with
    | mk pk pv =>
      simp only [List.lookup] at h
      split at h
      · next heq =>
        cases h
        have hk : k = pk := by simpa using heq
        subst hk
        exact List.mem_cons_self _ _
      · exact List.mem_cons_of_mem _ (ih h)

theorem lookup_map_value {β γ : Type} (l : List (String × β)) (F : β → γ) (k : String) :
    ((l.map (fun p => (p.1, F p.2))).lookup k) = (l.lookup k).map F := by
  induction l with
  | nil => simp [List.lookup]
  | cons p rest ih =>
    cases p with
    | mk pk pv =>
      cases hbeq : k == pk with
      | true => simp [List.lookup, hbeq]
      | false => simp [List.lookup, hbeq, ih]

theorem gmAdd_lookup (gm : List (String × List Triple)) (k : String) (t : Triple)
    (k' : String) :
    (gmAdd gm k t).lookup k' =
      if k' = k then some (((gm.lookup k).getD []) ++ [t]) else gm.lookup k' := by
  induction gm with
  | nil =>
    by_cases h : k' = k
    · subst h
      simp [gmAdd, List.lookup]
    · simp [gmAdd, List.lookup, h, (show (k' == k) = false by simpa using h)]
  | cons p rest ih =>
    cases p with
    | mk pk pv =>
      by_cases hpk : pk = k
      · subst hpk
        by_cases h : k' = pk
        · subst h
          simp [gmAdd, List.lookup]
        · simp [gmAdd, List.lookup, h, (show (k' == pk) = false by simpa using h)]
      · have hgm : gmAdd ((pk, pv) :: rest) k t = (pk, pv) :: gmAdd rest k t := by
          simp [gmAdd, hpk]
        rw [hgm]
        by_cases h : k' = pk
        · subst h
          have hne : ¬k' = k := hpk
          simp [List.lookup, hne]
        · have hbeq : (k' == pk) = false := by simpa using h
          simp only [List.lookup, hbeq]
          rw [ih]
          by_cases h2 : k' = k
          · subst h2
            simp [List.lookup, hbeq]
          · simp [h2]

theorem gmAdd_keys (gm : List (String × List Triple)) (k : String) (t : Triple) :
    gKeys (gmAdd gm k t) = if k ∈ gKeys gm then gKeys gm else gKeys gm ++ [k] := by
  induction gm with
  | nil => simp [gmAdd, gKeys]
  | cons p rest ih =>
    cases p with
    | mk pk pv =>
      simp only [gmAdd, gKeys]
      by_cases hpk : pk = k
      · subst hpk
        rw [if_pos rfl]
        simp [gKeys]
      · rw [if_neg hpk]
        simp only [List.map_cons, gKeys] at ih ⊢
        rw [ih]
        by_cases h : k ∈ List.map Prod.fst rest
        · rw [if_pos h, if_pos (by simp [h])]
        · rw [if_neg h, if_neg (by simp [h, Ne.symm hpk])]
          simp

theorem gmAdd_keys_nodup (gm : List (String × List Triple)) (k : String) (t : Triple)
    (h : (gKeys gm).Nodup) : (gKeys (gmAdd gm k t)).Nodup := by
  rw [gmAdd_keys]
  by_cases hk : k ∈ gKeys gm
  · rw [if_pos hk]; exact h
  · rw [if_neg hk]
    simpa [List.nodup_append] using ⟨h, hk⟩

theorem errorsPass1_eq (m : Model) (triples : List Triple) :
    errorsPass1 m triples =
      (triples.foldl
        (fun e t => if !(m.hasRole t.2.1) then
            errSet e (tripleToString t) ["invalid role"]
          else e) [],
       buildGM triples) := by
  unfold errorsPass1 buildGM
  generalize ([] : List (String × List String)) = e0
  generalize ([] : List (String × List Triple)) = g0
  induction triples generalizing e0 g0 with
  | nil => rfl
  | cons t rest ih => exact ih _ _

theorem buildGM_lookup_aux (triples : List Triple)
    (acc : List (String × List Triple)) (k : String) :
    ((triples.foldl (fun gm t => gmAdd gm (jsKey t.1) t) acc).lookup k) =
      match acc.lookup k with
      | some l => some (l ++ triples.filter (fun t => jsKey t.1 = k))
      | none =>
        if k ∈ triples.map (fun t => jsKey t.1) then
          some (triples.filter (fun t => jsKey t.1 = k))
        else none := by
  induction triples generalizing acc with
  | nil =>
    cases h : acc.lookup k with
    | none => simp [h]
    | some l => simp [h]
  | cons t rest ih =>
    simp only [List.foldl_cons]
    rw [ih]
    rw [gmAdd_lookup]
    by_cases hk : k = jsKey t.1
    · subst hk
      rw [if_pos rfl]
      cases h : acc.lookup (jsKey t.1) with
      | none => simp [List.filter_cons]
      | some l => simp [List.filter_cons]
    · rw [if_neg hk]
      have hmem : (k ∈ List.map (fun t => jsKey t.1) (t :: rest)) ↔
          (k ∈ List.map (fun t => jsKey t.1) rest) := by
        simp only [List.map_cons, List.mem_cons]
        constructor
        · rintro (h' | h')
          · exact absurd h' hk
          · exact h'
        · intro h'
          exact Or.inr h'
      have hfil : List.filter (fun t' => decide (jsKey t'.1 = k)) (t :: rest) =
          List.filter (fun t' => decide (jsKey t'.1 = k)) rest := by
        rw [List.filter_cons, if_neg]
        simp only [decide_eq_true_eq]
        intro hh
        exact hk hh.symm
      cases h : acc.lookup k with
      | none =>
        simp only [h]
        rw [hfil, if_congr hmem rfl rfl]
      | some l =>
        simp only [h]
        rw [hfil]

theorem buildGM_lookup (triples : List Triple) (k : String) :
    (buildGM triples).lookup k =
      if k ∈ triples.map (fun t => jsKey t.1) then
        some (triples.filter (fun t => jsKey t.1 = k))
      else none := by
  unfold buildGM
  rw [buildGM_lookup_aux]
  simp [List.lookup]

theorem dedupStr_mem_aux (l acc : List String) (x : String) :
    x ∈ l.foldl (fun acc y => if y ∈ acc then acc else acc ++ [y]) acc ↔
      x ∈ acc ∨ x ∈ l := by
  induction l generalizing acc with
  | nil => simp
  | cons y rest ih =>
    simp only [List.foldl_cons]
    by_cases h : y ∈ acc
    · rw [if_pos h, ih]
      constructor
      · rintro (h' | h')
        · exact Or.inl h'
        · exact Or.inr (List.mem_cons_of_mem _ h')
      · rintro (h' | h')
        · exact Or.inl h'
        · rcases List.mem_cons.mp h' with h'' | h''
          · exact Or.inl (h'' ▸ h)
          · exact Or.inr h''
    · rw [if_neg h, ih]
      simp only [List.mem_append, List.mem_singleton, List.mem_cons]
      tauto

theorem dedupStr_mem (l : List String) (x : String) : x ∈ dedupStr l ↔ x ∈ l := by
  unfold dedupStr
  rw [dedupStr_mem_aux]
  simp

theorem qAdd_memVal (q : List (String × List String)) (k v k' b : String) :
    b ∈ qVal (qAdd q k v) k' ↔ b ∈ qVal q k' ∨ (k' = k ∧ b = v) := by
  induction q with
  | nil =>
    unfold qAdd qVal
    by_cases h : k' = k
    · subst h
      simp [List.lookup]
    · simp [List.lookup, (show (k' == k) = false by simpa using h), h]
  | cons p rest ih =>
    cases p with
    | mk pk pl =>
      by_cases hpk : pk = k
      · subst hpk
        have hq : qAdd ((pk, pl) :: rest) pk v =
            (pk, if v ∈ pl then pl else pl ++ [v]) :: rest := by
          simp [qAdd]
        rw [hq]
        by_cases h : k' = pk
        · subst h
          unfold qVal
          simp only [List.lookup, beq_self_eq_true]
          by_cases hv : v ∈ pl
          · simp [hv]
            intro h'
            exact h' ▸ hv
          · simp [hv]
        · unfold qVal
          simp only [List.lookup, (show (k' == pk) = false by simpa using h)]
          simp [h]
      · have hq : qAdd ((pk, pl) :: rest) k v = (pk, pl) :: qAdd rest k v := by
          simp [qAdd, hpk]
        rw [hq]
        by_cases h : k' = pk
        · subst h
          unfold qVal
          simp only [List.lookup, beq_self_eq_true]
          have hne : ¬k' = k := hpk
          simp [hne]
        · unfold qVal at ih ⊢
          simp only [List.lookup, (show (k' == pk) = false by simpa using h)]
          exact ih

theorem qAdd_keys_mem (q : List (String × List String)) (k v k' : String) :
    k' ∈ (qAdd q k v).map Prod.fst ↔ k' ∈ q.map Prod.fst ∨ k' = k := by
  induction q with
  | nil => simp [qAdd]
  | cons p rest ih =>
    cases p with
    | mk pk pl =>
      by_cases hpk : pk = k
      · subst hpk
        simp [qAdd]
        tauto
      · have hq : qAdd ((pk, pl) :: rest) k v = (pk, pl) :: qAdd rest k v := by
          simp [qAdd, hpk]
        rw [hq]
        simp [ih]
        tauto

theorem innerFold_memVal (tgts : List String) (v : String)
    (q : List (String × List String)) (k' b : String) :
    b ∈ qVal (tgts.foldl (fun q' tgt => qAdd q' tgt v) q) k' ↔
      b ∈ qVal q k' ∨ (k' ∈ tgts ∧ b = v) := by
  induction tgts generalizing q with
  | nil => simp
  | cons tg rest ih =>
    simp only [List.foldl_cons]
    rw [ih, qAdd_memVal]
    simp only [List.mem_cons]
    tauto

theorem buildQ_memVal (gm : List (String × List Triple)) (a b : String) :
    b ∈ qVal (buildQ gm) a ↔
      b ∈ qVal (buildQ0 gm) a ∨ ∃ p ∈ buildQ0 gm, a ∈ p.2 ∧ b = p.1 := by
  unfold buildQ
  generalize hq0 : buildQ0 gm = q0
  have main : ∀ (entries : List (String × List String)) (q : List (String × List String)),
      b ∈ qVal (entries.foldl (fun q p => p.2.foldl (fun q' tgt => qAdd q' tgt p.1) q) q) a ↔
        b ∈ qVal q a ∨ ∃ p ∈ entries, a ∈ p.2 ∧ b = p.1 := by
    intro entries
    induction entries with
    | nil => simp
    | cons p rest ih =>
      intro q
      simp only [List.foldl_cons]
      rw [ih, innerFold_memVal]
      simp only [List.mem_cons]
      constructor
      · rintro ((h | h) | ⟨p', hp', h1, h2⟩)
        · exact Or.inl h
        · exact Or.inr ⟨p, Or.inl rfl, h.1, h.2⟩
        · exact Or.inr ⟨p', Or.inr hp', h1, h2⟩
      · rintro (h | ⟨p', hp' | hp', h1, h2⟩)
        · exact Or.inl (Or.inl h)
        · subst hp'
          exact Or.inl (Or.inr ⟨h1, h2⟩)
        · exact Or.inr ⟨p', hp', h1, h2⟩
  exact main q0 q0

theorem buildGM_keys_nodup_aux (triples : List Triple) (acc : List (String × List Triple))
    (h : (gKeys acc).Nodup) :
    (gKeys (triples.foldl (fun gm t => gmAdd gm (jsKey t.1) t) acc)).Nodup := by
  induction triples generalizing acc with
  | nil => exact h
  | cons t rest ih =>
    simp only [List.foldl_cons]
    exact ih _ (gmAdd_keys_nodup _ _ _ h)

theorem buildGM_keys_nodup (triples : List Triple) : (gKeys (buildGM triples)).Nodup :=
  buildGM_keys_nodup_aux triples [] (by simp [gKeys])

theorem mem_lookup_of_nodup {β : Type} {l : List (String × β)} {k : String} {v : β}
    (hnd : (l.map Prod.fst).Nodup) (hmem : (k, v) ∈ l) : l.lookup k = some v := by
  induction l with
  | nil => cases hmem
  | cons p rest ih =>
    cases p with
    | mk pk pv =>
      simp only [List.map_cons, List.nodup_cons] at hnd
      rcases List.mem_cons.mp hmem with h | h
      · cases h
        simp [List.lookup]
      · have hk : ¬k = pk := by
          intro hkk
          subst hkk
          exact hnd.1 (List.mem_map.mpr ⟨(k, v), h, rfl⟩)
        simp only [List.lookup, (show (k == pk) = false by simpa using hk)]
        exact ih hnd.2 h

theorem buildGM_keys_mem (triples : List Triple) (k : String) :
    k ∈ gKeys (buildGM triples) ↔ k ∈ triples.map (fun t => jsKey t.1) := by
  unfold gKeys
  rw [← lookup_isSome_iff (β := List Triple), buildGM_lookup]
  by_cases h : k ∈ triples.map (fun t => jsKey t.1)
  · simp [h]
  · simp [h]

theorem q0_memVal_iff_dirEdge (g : Graph) (a b : String) :
    b ∈ qVal (buildQ0 (buildGM g.triples)) a ↔ dirEdge g a b := by
  unfold buildQ0 qVal
  rw [lookup_map_value (buildGM g.triples) (q0F (buildGM g.triples)) a]
  rw [buildGM_lookup]
  unfold q0F
  by_cases ha : a ∈ g.triples.map (fun t => jsKey t.1)
  · rw [if_pos ha]
    simp only [Option.map_some', Option.getD_some]
    rw [dedupStr_mem]
    simp only [List.mem_filter, List.mem_map]
    unfold dirEdge
    constructor
    · rintro ⟨⟨t, htf, hstr⟩, hmem⟩
      refine ⟨t, htf.1, by simpa using htf.2, hstr, ?_⟩
      unfold sourceKeys
      rw [← buildGM_keys_mem]
      exact (by simpa using hmem)
    · rintro ⟨t, ht, hsrc, htgt, hmem⟩
      refine ⟨⟨t, ⟨ht, by simpa using hsrc⟩, htgt⟩, ?_⟩
      simp only [decide_eq_true_eq]
      rw [buildGM_keys_mem]
      exact hmem
  · rw [if_neg ha]
    simp only [Option.map_none', Option.getD_none, List.not_mem_nil, false_iff]
    unfold dirEdge
    rintro ⟨t, ht, hsrc, -, -⟩
    exact ha (List.mem_map.mpr ⟨t, ht, hsrc⟩)

theorem buildQ_memVal_iff_undirStep (g : Graph) (a b : String) :
    b ∈ qVal (buildQ (buildGM g.triples)) a ↔ undirStep g a b := by
  rw [buildQ_memVal]
  unfold undirStep
  constructor
  · rintro (h | ⟨p, hp, ha, hb⟩)
    · exact Or.inl ((q0_memVal_iff_dirEdge g a b).mp h)
    · right
      subst hb
      rw [← q0_memVal_iff_dirEdge]
      unfold buildQ0 at hp ⊢
      rcases List.mem_map.mp hp with ⟨q, hq, hqe⟩
      have hnd : ((buildGM g.triples).map Prod.fst).Nodup := by
        have := buildGM_keys_nodup g.triples
        simpa [gKeys] using this
      have hlk : (buildGM g.triples).lookup q.1 = some q.2 := mem_lookup_of_nodup hnd hq
      unfold qVal
      rw [lookup_map_value (buildGM g.triples) (q0F (buildGM g.triples)) _]
      simp only [← hqe] at ha ⊢
      rw [hlk]
      simpa using ha
  · rintro (h | h)
    · exact Or.inl ((q0_memVal_iff_dirEdge g a b).mpr h)
    · right
      rw [← q0_memVal_iff_dirEdge] at h
      unfold qVal at h
      cases hlk : (buildQ0 (buildGM g.triples)).lookup b with
      | none => rw [hlk] at h; cases h
      | some vl =>
        rw [hlk] at h
        exact ⟨(b, vl), lookup_mem_entry hlk, by simpa using h, rfl⟩

theorem optContains_iff (l : List (Option String)) (a : Option String) :
    l.contains a = true ↔ a ∈ l := by
  induction l with
  | nil => simp
  | cons x rest ih => simp [List.contains]

theorem countP_visited_mono (keys : List String) (visited : List (Option String))
    (cur : Option String) :
    keys.countP (fun x => !((cur :: visited).contains (some x))) ≤
      keys.countP (fun x => !(visited.contains (some x))) := by
  apply List.countP_mono_left
  intro a _ h
  simp only [Bool.not_eq_true'] at h ⊢
  rcases hc : visited.contains (some a) with _ | _
  · rfl
  · exfalso
    have : (cur :: visited).contains (some a) = true := by
      rw [optContains_iff] at hc ⊢
      exact List.mem_cons_of_mem _ hc
    rw [h] at this
    cases this

theorem countP_cons_lt (keys : List String) (visited : List (Option String)) (s : String)
    (hmem : s ∈ keys) (hnv : (some s) ∉ visited) :
    keys.countP (fun x => !((some s :: visited).contains (some x))) <
      keys.countP (fun x => !(visited.contains (some x))) := by
  induction keys with
  | nil => cases hmem
  | cons k rest ih =>
    rw [List.countP_cons, List.countP_cons]
    rcases List.mem_cons.mp hmem with h | h
    · rw [← h]
      have h1 : (!((some s :: visited).contains (some s))) = false := by
        simp only [Bool.not_eq_false']
        rw [optContains_iff]
        exact List.mem_cons_self _ _
      have h2 : (!(visited.contains (some s))) = true := by
        simp only [Bool.not_eq_true']
        rcases hc : visited.contains (some s) with _ | _
        · rfl
        · exact absurd ((optContains_iff _ _).mp hc) hnv
      rw [h1, h2]
      have := countP_visited_mono rest visited (some s)
      simp only [Bool.false_eq_true, if_false, if_pos trivial]
      omega
    · have hle : (if (!((some s :: visited).contains (some k))) = true then 1 else 0) ≤
          (if (!(visited.contains (some k))) = true then 1 else 0) := by
        by_cases hk : (!((some s :: visited).contains (some k))) = true
        · rw [if_pos hk]
          have : (!(visited.contains (some k))) = true := by
            simp only [Bool.not_eq_true'] at hk ⊢
            rcases hc : visited.contains (some k) with _ | _
            · rfl
            · exfalso
              have : (some s :: visited).contains (some k) = true := by
                rw [optContains_iff] at hc ⊢
                exact List.mem_cons_of_mem _ hc
              rw [hk] at this
              cases this
          rw [if_pos this]
        · rw [if_neg hk]
          omega
      have := ih h
      omega

theorem lookup_length_le_totalAdj (q : List (String × List String)) (k : String)
    (ts : List String) (h : q.lookup k = some ts) : ts.length ≤ totalAdj q := by
  have hmem := lookup_mem_entry h
  unfold totalAdj
  have : ts.length ∈ q.map (fun p => p.2.length) :=
    List.mem_map.mpr ⟨(k, ts), hmem, rfl⟩
  exact List.single_le_sum (by intro x _; omega) _ this

theorem contains_none_cons_some (visited : List (Option String)) (s : String) :
    ((some s :: visited).contains none) = (visited.contains none) := by
  cases hb : visited.contains none with
  | true =>
    rw [optContains_iff] at hb ⊢
    exact List.mem_cons_of_mem _ hb
  | false =>
    cases hb2 : (some s :: visited).contains none with
    | false => rfl
    | true =>
      exfalso
      rw [optContains_iff] at hb2
      rcases List.mem_cons.mp hb2 with h | h
      · cases h
      · rw [(optContains_iff _ _).mpr h] at hb
        cases hb

theorem contains_some_cons_none (visited : List (Option String)) (x : String) :
    ((none :: visited).contains (some x)) = (visited.contains (some x)) := by
  cases hb : visited.contains (some x) with
  | true =>
    rw [optContains_iff] at hb ⊢
    exact List.mem_cons_of_mem _ hb
  | false =>
    cases hb2 : (none :: visited).contains (some x) with
    | false => rfl
    | true =>
      exfalso
      rw [optContains_iff] at hb2
      rcases List.mem_cons.mp hb2 with h | h
      · cases h
      · rw [(optContains_iff _ _).mpr h] at hb
        cases hb

/-- Full specification of the `_dfs` work-list loop: with sufficient
fuel and a value-closed adjacency, the loop succeeds and its result is
closed under the adjacency, contains the initial agenda, and stays
inside any relation `R` that contains the agenda and is closed under
adjacency steps. -/
theorem dfsLoop_spec (q : List (String × List String)) (R : Option String → Prop)
    (hclosed : ∀ a b, R a → b ∈ qVal q (jsKey a) → R (some b))
    (hvq : ∀ a b, b ∈ qVal q a → ((q.lookup b).isSome : Prop)) :
    ∀ fuel (visited agenda : List (Option String)),
      dfsMeasure q visited agenda < fuel →
      (∀ x ∈ agenda, ((q.lookup (jsKey x)).isSome : Prop)) →
      (∀ x ∈ visited, ∀ y ∈ qVal q (jsKey x), some y ∈ visited ∨ some y ∈ agenda) →
      (∀ x ∈ visited, R x) → (∀ x ∈ agenda, R x) →
      ∃ vis', dfsLoop q fuel visited agenda = .ok vis' ∧
        (∀ x ∈ visited, x ∈ vis') ∧ (∀ x ∈ agenda, x ∈ vis') ∧
        (∀ x ∈ vis', ∀ y ∈ qVal q (jsKey x), some y ∈ vis') ∧
        (∀ x ∈ vis', R x) := by
  intro fuel
  induction fuel with
  | zero =>
    intro visited agenda hm
    omega
  | succ n ih =>
    intro visited agenda hm hag hinv hRv hRa
    cases agenda with
    | nil =>
      refine ⟨visited, rfl, fun x hx => hx, by simp, ?_, hRv⟩
      intro x hx y hy
      rcases hinv x hx y hy with h | h
      · exact h
      · cases h
    | cons cur rest =>
      by_cases hcv : cur ∈ visited
      · have hm' : dfsMeasure q visited rest < n := by
          unfold dfsMeasure at hm ⊢
          simp only [List.length_cons] at hm
          omega
        obtain ⟨vis', heq, h1, h2, h3, h4⟩ := ih visited rest hm'
          (fun x hx => hag x (List.mem_cons_of_mem _ hx))
          (by
            intro x hx y hy
            rcases hinv x hx y hy with h | h
            · exact Or.inl h
            · rcases List.mem_cons.mp h with h' | h'
              · exact Or.inl (h' ▸ hcv)
              · exact Or.inr h')
          hRv
          (fun x hx => hRa x (List.mem_cons_of_mem _ hx))
        refine ⟨vis', ?_, h1, ?_, h3, h4⟩
        · simp only [dfsLoop]
          rw [if_pos hcv]
          exact heq
        · intro x hx
          rcases List.mem_cons.mp hx with h' | h'
          · exact h' ▸ h1 cur hcv
          · exact h2 x h'
      · have hlk : ((q.lookup (jsKey cur)).isSome : Prop) :=
          hag cur (List.mem_cons_self _ _)
        obtain ⟨ts, hts⟩ := Option.isSome_iff_exists.mp hlk
        have hqval : qVal q (jsKey cur) = ts := by
          unfold qVal
          rw [hts]
          rfl
        have htsbound : ts.length ≤ totalAdj q := lookup_length_le_totalAdj q _ ts hts
        have hm' : dfsMeasure q (cur :: visited)
            (((ts.filter (fun t => (some t) ∉ (cur :: visited))).reverse.map some) ++ rest)
            < n := by
          have hplen : (((ts.filter (fun t => (some t) ∉ (cur :: visited))).reverse.map
              some)).length ≤ totalAdj q := by
            rw [List.length_map, List.length_reverse]
            exact le_trans (List.length_filter_le _ _) htsbound
          unfold dfsMeasure at hm ⊢
          rw [List.length_append]
          simp only [List.length_cons] at hm
          cases cur with
          | some s =>
            have hsk : s ∈ q.map Prod.fst := by
              rw [← lookup_isSome_iff]
              show (q.lookup (jsKey (some s))).isSome = true
              rw [hts]
              rfl
            have hclt := countP_cons_lt (q.map Prod.fst) visited s hsk hcv
            have hnone : ((some s :: visited).contains none) = (visited.contains none) :=
              contains_none_cons_some visited s
            rw [hnone]
            set c' := (q.map Prod.fst).countP
              (fun x => !((some s :: visited).contains (some x))) with hc'
            set c := (q.map Prod.fst).countP
              (fun x => !(visited.contains (some x))) with hc
            have hmul : c' * (totalAdj q + 1) + (totalAdj q + 1) ≤ c * (totalAdj q + 1) := by
              have h1 : c' + 1 ≤ c := hclt
              calc c' * (totalAdj q + 1) + (totalAdj q + 1)
                  = (c' + 1) * (totalAdj q + 1) := by ring
                _ ≤ c * (totalAdj q + 1) := Nat.mul_le_mul_right _ h1
            omega
          | none =>
            have hcnt : ((q.map Prod.fst).countP
                (fun x => !((none :: visited).contains (some x)))) =
                ((q.map Prod.fst).countP (fun x => !(visited.contains (some x)))) := by
              apply List.countP_congr
              intro x _
              rw [contains_some_cons_none]
            have hnone1 : (visited.contains none) = false := by
              cases hb : visited.contains none with
              | false => rfl
              | true => exact absurd ((optContains_iff _ _).mp hb) hcv
            have hnone2 : ((none :: visited).contains none) = true := by
              rw [optContains_iff]
              exact List.mem_cons_self _ _
            have e1 : (if visited.contains none = true then 0 else totalAdj q + 1) =
                totalAdj q + 1 := by
              rw [hnone1]
              simp
            have e2 : (if ((none :: visited).contains none) = true then 0
                else totalAdj q + 1) = 0 := by
              rw [hnone2]
              simp
            rw [e1] at hm
            rw [hcnt, e2]
            omega
        obtain ⟨vis', heq, h1, h2, h3, h4⟩ := ih (cur :: visited)
          (((ts.filter (fun t => (some t) ∉ (cur :: visited))).reverse.map some) ++ rest)
          hm'
          (by
            intro x hx
            rcases List.mem_append.mp hx with h | h
            · rcases List.mem_map.mp h with ⟨t, ht, rfl⟩
              have ht' : t ∈ ts := List.mem_of_mem_filter (List.mem_reverse.mp ht)
              have : t ∈ qVal q (jsKey cur) := by rw [hqval]; exact ht'
              exact hvq _ _ this
            · exact hag x (List.mem_cons_of_mem _ h))
          (by
            intro x hx y hy
            rcases List.mem_cons.mp hx with h | h
            · subst h
              rw [hqval] at hy
              by_cases hyv : (some y) ∈ (x :: visited)
              · exact Or.inl hyv
              · refine Or.inr (List.mem_append.mpr (Or.inl ?_))
                exact List.mem_map.mpr
                  ⟨y, List.mem_reverse.mpr (List.mem_filter.mpr ⟨hy, by simpa using hyv⟩), rfl⟩
            · rcases hinv x h y hy with h' | h'
              · exact Or.inl (List.mem_cons_of_mem _ h')
              · rcases List.mem_cons.mp h' with h'' | h''
                · exact Or.inl (h'' ▸ List.mem_cons_self _ _)
                · exact Or.inr (List.mem_append.mpr (Or.inr h'')))
          (by
            intro x hx
            rcases List.mem_cons.mp hx with h | h
            · exact h ▸ hRa cur (List.mem_cons_self _ _)
            · exact hRv x h)
          (by
            intro x hx
            rcases List.mem_append.mp hx with h | h
            · rcases List.mem_map.mp h with ⟨t, ht, rfl⟩
              have ht' : t ∈ ts := List.mem_of_mem_filter (List.mem_reverse.mp ht)
              have htq : t ∈ qVal q (jsKey cur) := by rw [hqval]; exact ht'
              exact hclosed cur t (hRa cur (List.mem_cons_self _ _)) htq
            · exact hRa x (List.mem_cons_of_mem _ h))
        refine ⟨vis', ?_, ?_, ?_, h3, h4⟩
        · simp only [dfsLoop]
          rw [if_neg hcv, hts]
          exact heq
        · intro x hx
          exact h1 x (List.mem_cons_of_mem _ hx)
        · intro x hx
          rcases List.mem_cons.mp hx with h | h
          · exact h ▸ h1 cur (List.mem_cons_self _ _)
          · exact h2 x (List.mem_append.mpr (Or.inr h))

theorem errSet_lookup (e : List (String × List String)) (k : String) (v : List String)
    (k' : String) :
    (errSet e k v).lookup k' = if k' = k then some v else e.lookup k' := by
  induction e with
  | nil =>
    by_cases h : k' = k
    · subst h
      simp [errSet, List.lookup]
    · simp [errSet, List.lookup, h, (show (k' == k) = false by simpa using h)]
  | cons p rest ih =>
    cases p with
    | mk pk pv =>
      by_cases hpk : pk = k
      · subst hpk
        by_cases h : k' = pk
        · subst h
          simp [errSet, List.lookup]
        · simp [errSet, List.lookup, h, (show (k' == pk) = false by simpa using h)]
      · have he : errSet ((pk, pv) :: rest) k v = (pk, pv) :: errSet rest k v := by
          simp [errSet, hpk]
        rw [he]
        by_cases h : k' = pk
        · subst h
          have hne : ¬k' = k := hpk
          simp [List.lookup, hne]
        · have hbeq : (k' == pk) = false := by simpa using h
          simp only [List.lookup, hbeq]
          exact ih

theorem errSet_entries_sub {e : List (String × List String)} {k : String}
    {v : List String} {p : String × List String} (h : p ∈ errSet e k v) :
    p ∈ e ∨ p = (k, v) := by
  induction e with
  | nil =>
    simp [errSet] at h
    exact Or.inr (by simp [h])
  | cons q rest ih =>
    cases q with
    | mk qk qv =>
      by_cases hqk : qk = k
      · subst hqk
        simp only [errSet, if_pos rfl] at h
        rcases List.mem_cons.mp h with h' | h'
        · exact Or.inr (by simp [h'])
        · exact Or.inl (List.mem_cons_of_mem _ h')
      · simp only [errSet, if_neg hqk] at h
        rcases List.mem_cons.mp h with h' | h'
        · exact Or.inl (h' ▸ List.mem_cons_self _ _)
        · rcases ih h' with h'' | h''
          · exact Or.inl (List.mem_cons_of_mem _ h'')
          · exact Or.inr h''

theorem pass1_entries (m : Model) (triples : List Triple)
    {p : String × List String} (hp : p ∈ (errorsPass1 m triples).1) :
    p.2 = ["invalid role"] := by
  rw [errorsPass1_eq] at hp
  simp only at hp
  have main : ∀ (ts : List Triple) (acc : List (String × List String)),
      (∀ q ∈ acc, q.2 = ["invalid role"]) →
      ∀ q ∈ ts.foldl
        (fun e t => if !(m.hasRole t.2.1) then
            errSet e (tripleToString t) ["invalid role"]
          else e) acc, q.2 = ["invalid role"] := by
    intro ts
    induction ts with
    | nil => intro acc hacc q hq; exact hacc q hq
    | cons t rest ih =>
      intro acc hacc q hq
      simp only [List.foldl_cons] at hq
      apply ih _ ?_ q hq
      intro r hr
      by_cases hrole : (!(m.hasRole t.2.1)) = true
      · rw [if_pos hrole] at hr
        rcases errSet_entries_sub hr with h' | h'
        · exact hacc r h'
        · rw [h']
      · rw [if_neg hrole] at hr
        exact hacc r hr
  exact main triples [] (by simp) p hp

theorem errSet_entries_values {e : List (String × List String)} {k : String}
    {v : List String} (P : List String → Prop)
    (he : ∀ p ∈ e, P p.2) (hv : P v) :
    ∀ p ∈ errSet e k v, P p.2 := by
  intro p hp
  rcases errSet_entries_sub hp with h | h
  · exact he p h
  · rw [h]
    exact hv

theorem foldl_errSet_const_lookup (ts : List Triple) (c : List String)
    (e : List (String × List String)) (k : String) :
    ((ts.foldl (fun e' t => errSet e' (tripleToString t) c) e).lookup k) =
      if k ∈ ts.map tripleToString then some c else e.lookup k := by
  induction ts generalizing e with
  | nil => simp
  | cons t rest ih =>
    simp only [List.foldl_cons]
    rw [ih, errSet_lookup]
    by_cases h : k ∈ rest.map tripleToString
    · rw [if_pos h, if_pos (by simp [h])]
    · rw [if_neg h]
      by_cases h2 : k = tripleToString t
      · rw [if_pos h2, if_pos (by simp [h2])]
      · rw [if_neg h2, if_neg (by
          simp only [List.map_cons, List.mem_cons]
          rintro (h' | h')
          · exact h2 h'
          · exact h h')]

theorem unreachablePass_lookup (entries : List (String × List Triple))
    (e : List (String × List String)) (k : String) :
    ((entries.foldl
        (fun e' p => p.2.foldl
          (fun e'' t => errSet e'' (tripleToString t) ["unreachable"]) e') e).lookup k) =
      if k ∈ (entries.map (fun p => p.2.map tripleToString)).flatten then
        some ["unreachable"]
      else e.lookup k := by
  induction entries generalizing e with
  | nil => simp
  | cons p rest ih =>
    simp only [List.foldl_cons]
    rw [ih, foldl_errSet_const_lookup]
    by_cases h : k ∈ (rest.map (fun p => p.2.map tripleToString)).flatten
    · rw [if_pos h, if_pos (by
        simp only [List.map_cons, List.flatten_cons, List.mem_append]
        exact Or.inr h)]
    · rw [if_neg h]
      by_cases h2 : k ∈ p.2.map tripleToString
      · rw [if_pos h2, if_pos (by
          simp only [List.map_cons, List.flatten_cons, List.mem_append]
          exact Or.inl h2)]
      · rw [if_neg h2, if_neg (by
          simp only [List.map_cons, List.flatten_cons, List.mem_append]
          rintro (h' | h')
          · exact h2 h'
          · exact h h')]

theorem unreachablePass_entries (entries : List (String × List Triple))
    (e : List (String × List String)) (P : List String → Prop)
    (he : ∀ p ∈ e, P p.2) (hu : P ["unreachable"]) :
    ∀ p ∈ entries.foldl
        (fun e' p => p.2.foldl
          (fun e'' t => errSet e'' (tripleToString t) ["unreachable"]) e') e, P p.2 := by
  induction entries generalizing e with
  | nil => exact he
  | cons q rest ih =>
    simp only [List.foldl_cons]
    apply ih
    have inner : ∀ (ts : List Triple) (e0 : List (String × List String)),
        (∀ p ∈ e0, P p.2) →
        ∀ p ∈ ts.foldl
          (fun e'' t => errSet e'' (tripleToString t) ["unreachable"]) e0, P p.2 := by
      intro ts
      induction ts with
      | nil => intro e0 he0; exact he0
      | cons t trest iih =>
        intro e0 he0
        simp only [List.foldl_cons]
        exact iih _ (errSet_entries_values P he0 hu)
    exact inner q.2 e he

theorem innerQ_keys_mono (tgts : List String) (v : String)
    (q : List (String × List String)) (k : String)
    (h : k ∈ q.map Prod.fst) :
    k ∈ (tgts.foldl (fun q' tgt => qAdd q' tgt v) q).map Prod.fst := by
  induction tgts generalizing q with
  | nil => exact h
  | cons tg rest ih =>
    simp only [List.foldl_cons]
    exact ih _ ((qAdd_keys_mem _ _ _ _).mpr (Or.inl h))

theorem buildQ_keys_mono (gm : List (String × List Triple)) (k : String)
    (h : k ∈ gKeys gm) : k ∈ (buildQ gm).map Prod.fst := by
  unfold buildQ
  have hq0 : k ∈ (buildQ0 gm).map Prod.fst := by
    unfold buildQ0
    rw [List.map_map]
    have hcomp : (Prod.fst ∘ fun p : String × List Triple => (p.1, q0F gm p.2)) =
        Prod.fst := rfl
    rw [hcomp]
    exact h
  generalize buildQ0 gm = q0 at *
  have main : ∀ (entries : List (String × List String)) (q : List (String × List String)),
      k ∈ q.map Prod.fst →
      k ∈ ((entries.foldl (fun q p => p.2.foldl (fun q' tgt => qAdd q' tgt p.1) q) q).map
        Prod.fst) := by
    intro entries
    induction entries with
    | nil => intro q hq; exact hq
    | cons p rest ih =>
      intro q hq
      simp only [List.foldl_cons]
      exact ih _ (innerQ_keys_mono _ _ _ _ hq)
  exact main q0 q0 hq0

theorem buildQ_lookup_isSome (gm : List (String × List Triple)) (k : String)
    (h : k ∈ gKeys gm) : (((buildQ gm).lookup k).isSome : Prop) :=
  (lookup_isSome_iff _ _).mpr (buildQ_keys_mono gm k h)

/-- `_dfs` on the source-variable map of a graph, started at a source
variable, succeeds and computes exactly the undirected-connectivity
set. -/
theorem _dfs_spec (g : Graph) (T : String) (hT : T ∈ sourceKeys g) :
    ∃ vis', _dfs (buildGM g.triples) (some T) = .ok vis' ∧
      ∀ v : String, (some v ∈ vis' ↔ Connected g T v) := by
  have hTkeys : T ∈ gKeys (buildGM g.triples) := (buildGM_keys_mem _ _).mpr hT
  have hchar : ∀ a b, b ∈ qVal (buildQ (buildGM g.triples)) a ↔ undirStep g a b :=
    fun a b => buildQ_memVal_iff_undirStep g a b
  have hvq : ∀ a b, b ∈ qVal (buildQ (buildGM g.triples)) a →
      (((buildQ (buildGM g.triples)).lookup b).isSome : Prop) := by
    intro a b hb
    have hstep := (hchar a b).mp hb
    have hbk : b ∈ sourceKeys g := by
      rcases hstep with h | h
      · obtain ⟨t, ht, hsrc, htgt, hmem⟩ := h
        exact hmem
      · obtain ⟨t, ht, hsrc, htgt, hmem⟩ := h
        exact List.mem_map.mpr ⟨t, ht, hsrc⟩
    exact buildQ_lookup_isSome _ _ ((buildGM_keys_mem _ _).mpr hbk)
  obtain ⟨vis', heq, h1, h2, h3, h4⟩ :=
    dfsLoop_spec (buildQ (buildGM g.triples))
      (fun x => ∃ s, x = some s ∧ Connected g T s)
      (by
        rintro a b ⟨s, rfl, hc⟩ hb
        exact ⟨b, rfl, hc.tail ((hchar s b).mp hb)⟩)
      hvq
      (dfsMeasure (buildQ (buildGM g.triples)) [] [some T] + 1)
      [] [some T]
      (by omega)
      (by
        intro x hx
        rcases List.mem_cons.mp hx with h | h
        · subst h
          exact buildQ_lookup_isSome _ _ hTkeys
        · cases h)
      (by intro x hx; cases hx)
      (by intro x hx; cases hx)
      (by
        intro x hx
        rcases List.mem_cons.mp hx with h | h
        · exact h ▸ ⟨T, rfl, Relation.ReflTransGen.refl⟩
        · cases h)
  refine ⟨vis', heq, fun v => ⟨?_, ?_⟩⟩
  · intro hv
    obtain ⟨s, hs, hc⟩ := h4 (some v) hv
    cases hs
    exact hc
  · intro hc
    induction hc with
    | refl => exact h2 (some T) (List.mem_cons_self _ _)
    | tail hab hbc ih =>
      rename_i b c
      exact h3 (some b) ih c ((hchar b c).mpr hbc)

theorem errorsPre_entries (m : Model) (g : Graph) :
    ∀ p ∈ errorsPre m g, p.2 ≠ ["unreachable"] := by
  unfold errorsPre
  have h1 : ∀ p ∈ (errorsPass1 m g.triples).1, p.2 ≠ ["unreachable"] := by
    intro p hp
    rw [pass1_entries m g.triples hp]
    decide
  have h2 : ∀ p ∈ (if jsFalsy g.top then
      errSet (errorsPass1 m g.triples).1 "" ["top is not set"]
    else (errorsPass1 m g.triples).1), p.2 ≠ ["unreachable"] := by
    by_cases hf : jsFalsy g.top = true
    · rw [if_pos hf]
      exact errSet_entries_values (fun v => v ≠ ["unreachable"]) h1 (by decide)
    · rw [if_neg hf]
      exact h1
  by_cases hk : (!(jsKey g.top ∈ gKeys (errorsPass1 m g.triples).2)) = true
  · rw [if_pos hk]
    exact errSet_entries_values (fun v => v ≠ ["unreachable"]) h2 (by decide)
  · rw [if_neg hk]
    exact h2

/-- Claim C3: for every graph whose top is set to a source variable (the
invariant the spec requires of an explicit top), `model.errors`
completes, reports no `'unreachable'` entries exactly when every
(source) variable of the graph is connected to the top by a path that
ignores edge direction — over an adjacency built only from triples
whose stringified target is itself a source variable; attribute triples
do not connect — and flags every triple whose source variable is
unreached with `'unreachable'`. -/
theorem claim_C3 (m : Model) (g : Graph) (T : String)
    (htop : g.top = some T) (hT : T ∈ sourceKeys g) :
    ∃ errs, m.errors g = .ok errs ∧
      ((∀ p ∈ errs, p.2 ≠ ["unreachable"]) ↔ (∀ v ∈ sourceKeys g, Connected g T v)) ∧
      (∀ t ∈ g.triples, ¬ Connected g T (jsKey t.1) →
        errs.lookup (tripleToString t) = some ["unreachable"]) := by
  obtain ⟨vis', hdfs, hiff⟩ := _dfs_spec g T hT
  have hne : ¬ g.triples.length = 0 := by
    intro h0
    rw [List.length_eq_zero] at h0
    unfold sourceKeys at hT
    rw [h0] at hT
    cases hT
  have hgm : (errorsPass1 m g.triples).2 = buildGM g.triples := by
    rw [errorsPass1_eq]
  have herr : m.errors g =
      .ok (errorsUnreachablePass (errorsPre m g) (buildGM g.triples) vis') := by
    unfold Model.errors
    rw [if_neg hne, hgm, htop, hdfs]
  refine ⟨errorsUnreachablePass (errorsPre m g) (buildGM g.triples) vis', herr, ?_, ?_⟩
  · constructor
    · -- no unreachable entries → every source variable connected
      intro hno v hv
      by_contra hnc
      have hvk : v ∈ gKeys (buildGM g.triples) := (buildGM_keys_mem _ _).mpr hv
      obtain ⟨l, hl⟩ := Option.isSome_iff_exists.mp ((lookup_isSome_iff _ _).mpr hvk)
      have hlmem : (v, l) ∈ buildGM g.triples := lookup_mem_entry hl
      have hlval : l = g.triples.filter (fun t => jsKey t.1 = v) := by
        rw [buildGM_lookup] at hl
        rw [if_pos (by unfold sourceKeys at hv; exact hv)] at hl
        exact (Option.some.inj hl).symm
      obtain ⟨t0, ht0⟩ : ∃ t0, t0 ∈ l := by
        unfold sourceKeys at hv
        obtain ⟨t0, ht0, hsrc⟩ := List.mem_map.mp hv
        exact ⟨t0, hlval ▸ List.mem_filter.mpr ⟨ht0, by simpa using hsrc⟩⟩
      have hnv : (some v) ∉ vis' := fun hvv => hnc ((hiff v).mp hvv)
      have hfil : (v, l) ∈ (buildGM g.triples).filter
          (fun p => !(vis'.contains (some p.1))) := by
        apply List.mem_filter.mpr
        refine ⟨hlmem, ?_⟩
        simp only [Bool.not_eq_true']
        cases hc : vis'.contains (some v) with
        | false => rfl
        | true => exact absurd ((optContains_iff _ _).mp hc) hnv
      have hkey : tripleToString t0 ∈
          (((buildGM g.triples).filter (fun p => !(vis'.contains (some p.1)))).map
            (fun p => p.2.map tripleToString)).flatten := by
        apply List.mem_flatten.mpr
        exact ⟨l.map tripleToString, List.mem_map.mpr ⟨(v, l), hfil, rfl⟩,
          List.mem_map.mpr ⟨t0, ht0, rfl⟩⟩
      have hlook : (errorsUnreachablePass (errorsPre m g) (buildGM g.triples)
          vis').lookup (tripleToString t0) = some ["unreachable"] := by
        unfold errorsUnreachablePass
        rw [unreachablePass_lookup]
        rw [if_pos hkey]
      have := hno _ (lookup_mem_entry hlook)
      exact this rfl
    · -- every source variable connected → no unreachable entries
      intro hconn
      have hfil : (buildGM g.triples).filter (fun p => !(vis'.contains (some p.1))) = [] := by
        rw [List.filter_eq_nil_iff]
        intro p hp
        have hpk : p.1 ∈ sourceKeys g :=
          (buildGM_keys_mem _ _).mp (List.mem_map.mpr ⟨p, hp, rfl⟩)
        have hcp : Connected g T p.1 := hconn _ hpk
        have : (some p.1) ∈ vis' := (hiff p.1).mpr hcp
        simp only [Bool.not_eq_true', Bool.not_eq_false]
        exact (optContains_iff _ _).mpr this
      unfold errorsUnreachablePass
      rw [hfil]
      simp only [List.foldl_nil]
      exact errorsPre_entries m g
  · -- every triple with an unreached source is flagged
    intro t ht hnc
    have hv : jsKey t.1 ∈ sourceKeys g := List.mem_map.mpr ⟨t, ht, rfl⟩
    have hvk : jsKey t.1 ∈ gKeys (buildGM g.triples) := (buildGM_keys_mem _ _).mpr hv
    obtain ⟨l, hl⟩ := Option.isSome_iff_exists.mp ((lookup_isSome_iff _ _).mpr hvk)
    have hlmem : (jsKey t.1, l) ∈ buildGM g.triples := lookup_mem_entry hl
    have htl : t ∈ l := by
      rw [buildGM_lookup, if_pos (by unfold sourceKeys at hv; exact hv)] at hl
      cases hl
      exact List.mem_filter.mpr ⟨ht, by simp⟩
    have hnv : (some (jsKey t.1)) ∉ vis' := fun hvv => hnc ((hiff _).mp hvv)
    have hfil : (jsKey t.1, l) ∈ (buildGM g.triples).filter
        (fun p => !(vis'.contains (some p.1))) := by
      apply List.mem_filter.mpr
      refine ⟨hlmem, ?_⟩
      simp only [Bool.not_eq_true']
      cases hc : vis'.contains (some (jsKey t.1)) with
      | false => rfl
      | true => exact absurd ((optContains_iff _ _).mp hc) hnv
    unfold errorsUnreachablePass
    rw [unreachablePass_lookup]
    rw [if_pos (List.mem_flatten.mpr ⟨l.map tripleToString,
      List.mem_map.mpr ⟨(jsKey t.1, l), hfil, rfl⟩,
      List.mem_map.mpr ⟨t, htl, rfl⟩⟩)]

/-- Witness for claim C3 at a concrete connected two-node graph. -/
theorem claim_C3_witness :
    ∃ errs, defaultModel.errors (Graph.make [(some "a", ":instance", some "alpha"),
        (some "a", ":ARG0", some "b"), (some "b", ":instance", some "beta")]) = .ok errs ∧
      ((∀ p ∈ errs, p.2 ≠ ["unreachable"]) ↔
        (∀ v ∈ sourceKeys (Graph.make [(some "a", ":instance", some "alpha"),
          (some "a", ":ARG0", some "b"), (some "b", ":instance", some "beta")]),
          Connected (Graph.make [(some "a", ":instance", some "alpha"),
            (some "a", ":ARG0", some "b"), (some "b", ":instance", some "beta")]) "a" v)) ∧
      (∀ t ∈ (Graph.make [(some "a", ":instance", some "alpha"),
          (some "a", ":ARG0", some "b"), (some "b", ":instance", some "beta")]).triples,
        ¬ Connected (Graph.make [(some "a", ":instance", some "alpha"),
            (some "a", ":ARG0", some "b"), (some "b", ":instance", some "beta")]) "a"
          (jsKey t.1) →
        errs.lookup (tripleToString t) = some ["unreachable"]) :=
  claim_C3 defaultModel
    (Graph.make [(some "a", ":instance", some "alpha"),
      (some "a", ":ARG0", some "b"), (some "b", ":instance", some "beta")])
    "a" (by decide) (by decide)

theorem emGet_emSet (em : EpidataMap) (k : Triple) (v : List Epi) (t : Triple) :
    emGet (emSet em k v) t = if t = k then some v else emGet em t := by
  induction em with
  | nil =>
    simp only [emSet, emGet]
    by_cases h : k = t
    · rw [if_pos h, if_pos h.symm]
    · rw [if_neg h, if_neg (fun hh => h hh.symm)]
  | cons p rest ih =>
    obtain ⟨pk, pv⟩ := p
    simp only [emSet, emGet]
    by_cases h : pk = k
    · subst h
      rw [if_pos rfl]
      simp only [emGet]
      by_cases h2 : pk = t
      · rw [if_pos h2, if_pos h2.symm]
      · rw [if_neg h2, if_neg h2, if_neg (fun hh => h2 hh.symm)]
    · rw [if_neg h]
      simp only [emGet]
      by_cases h2 : pk = t
      · subst h2
        rw [if_pos rfl, if_neg h, if_pos rfl]
      · rw [if_neg h2, if_neg h2, ih]

theorem buildEpimap_get_aux (l : List (Triple × List Epi)) (acc : EpidataMap) (t : Triple) :
    emGet (l.foldl (fun em p => if emHas em p.1 then em else emSet em p.1 p.2) acc) t =
      (match emGet acc t with
       | some w => some w
       | none => (l.find? (fun p => p.1 == t)).map Prod.snd) := by
  induction l generalizing acc with
  | nil => cases h : emGet acc t <;> simp [h]
  | cons p rest ih =>
    simp only [List.foldl]
    rw [ih]
    by_cases hhas : emHas acc p.1 = true
    · rw [if_pos hhas]
      cases hacc : emGet acc t with
      | some w => rfl
      | none =>
        have hne : (p.1 == t) = false := by
          rw [beq_eq_false_iff_ne]
          intro hh
          rw [emHas, hh, hacc] at hhas
          exact Bool.false_ne_true hhas
        simp [List.find?, hne]
    · rw [if_neg hhas]
      by_cases heq : t = p.1
      · have hnone : emGet acc t = none := by
          cases hg : emGet acc t with
          | none => rfl
          | some w =>
            rw [heq] at hg
            rw [emHas, hg] at hhas
            exact absurd rfl hhas
        have hbe : (p.1 == t) = true := beq_iff_eq.mpr heq.symm
        rw [emGet_emSet, if_pos heq, hnone]
        simp [List.find?, hbe]
      · rw [emGet_emSet, if_neg heq]
        cases hacc : emGet acc t with
        | some w => rfl
        | none =>
          have hne : (p.1 == t) = false := by
            rw [beq_eq_false_iff_ne]
            exact fun hh => heq hh.symm
          simp [List.find?, hne]

theorem buildEpimap_get (l : List (Triple × List Epi)) (t : Triple) :
    emGet (buildEpimap l) t = (l.find? (fun p => p.1 == t)).map Prod.snd := by
  rw [buildEpimap, buildEpimap_get_aux]
  rfl

/-- Claim C7: whenever the node phase of interpretation succeeds —
duplicate triple values included — `interpret` succeeds; every
occurrence of every triple is kept (in order, with roles colonized by
the `Graph` constructor), and the epigraph map binds each triple value
to the epidata of its FIRST occurrence, so a later duplicate's epidata
is discarded rather than overwriting it. -/
theorem claim_C7 (m : Model) (t : PTree) (top : Option String) (triples : List Triple)
    (epidata : List (Triple × List Epi))
    (h : _interpretNode t.node (nodeVarsN t.node) m = .ok (top, triples, epidata)) :
    ∃ g : Graph, interpret t m = .ok g ∧
      g.triples = triples.map (fun tr => (tr.1, ensureColon tr.2.1, tr.2.2)) ∧
      ∀ tr : Triple, emGet g.epidata tr = (epidata.find? (fun p => p.1 == tr)).map Prod.snd := by
  refine ⟨Graph.make triples top (buildEpimap epidata) t.metadata.asRecord, ?_, rfl, ?_⟩
  · unfold interpret
    rw [h]
  · intro tr
    exact buildEpimap_get epidata tr

theorem claim_C7_witness :
    ∃ g : Graph, interpret dupTree defaultModel = .ok g ∧
      g.triples = ([((some "a", ":instance", some "alpha") : Triple),
          (some "a", ":ARG0", some "b"), (some "a", ":ARG0", some "b")].map
            (fun tr => (tr.1, ensureColon tr.2.1, tr.2.2))) ∧
      ∀ tr : Triple, emGet g.epidata tr =
        (([(((some "a", ":instance", some "alpha") : Triple), ([] : List Epi)),
           (((some "a", ":ARG0", some "b") : Triple), [Epi.roleAlign ⟨[some 1], none⟩]),
           (((some "a", ":ARG0", some "b") : Triple),
             [Epi.roleAlign ⟨[some 2], none⟩])].find? (fun p => p.1 == tr)).map Prod.snd) :=
  claim_C7 defaultModel dupTree (some "a")
    [(some "a", ":instance", some "alpha"), (some "a", ":ARG0", some "b"),
     (some "a", ":ARG0", some "b")]
    [((some "a", ":instance", some "alpha"), []),
     ((some "a", ":ARG0", some "b"), [Epi.roleAlign ⟨[some 1], none⟩]),
     ((some "a", ":ARG0", some "b"), [Epi.roleAlign ⟨[some 2], none⟩])]
    (by decide)

/-- Claim C10: for a graph whose metadata record has no `"metadata"`
key, any tree `configure` returns has empty metadata (the graph's
metadata record is passed where the `Tree` constructor expects an
options object, so the graph's metadata is dropped) — whereas
`interpret` does carry the tree's metadata onto the graph. -/
theorem claim_C10 (m : Model) (g : Graph) (topArg : Option (Option String)) (tr : PTree)
    (hmeta : g.metadata.lookup "metadata" = none)
    (hc : configure g m topArg = .ok tr) :
    tr.metadata = MetaVal.record [] ∧
    ∀ (t : PTree) (g2 : Graph), interpret t m = .ok g2 → g2.metadata = t.metadata.asRecord := by
  have hopt : optionsMetadata g.metadata = MetaVal.record [] := by
    unfold optionsMetadata
    rw [hmeta]
  constructor
  · unfold configure at hc
    simp only [] at hc
    repeat' split at hc
    all_goals first
      | exact Except.noConfusion hc
      | (injection hc with hc; subst hc; simpa using hopt)
  · intro t g2 h2
    unfold interpret at h2
    cases hI : _interpretNode t.node (nodeVarsN t.node) m with
    | error e => rw [hI] at h2; exact absurd h2 (by simp)
    | ok v =>
      obtain ⟨top, triples, epidata⟩ := v
      rw [hI] at h2
      injection h2 with h2
      rw [← h2]
      rfl

theorem claim_C10_witness :
    (⟨PNode.mk (some "a") (PBranches.cons "/" (PTarget.atom (some "alpha")) PBranches.nil),
        MetaVal.record []⟩ : PTree).metadata = MetaVal.record [] ∧
    ∀ (t : PTree) (g2 : Graph), interpret t defaultModel = .ok g2 →
      g2.metadata = t.metadata.asRecord :=
  claim_C10 defaultModel
    (Graph.make [(some "a", ":instance", some "alpha")] (some "a") [] [("snt", "x")])
    none
    ⟨PNode.mk (some "a") (PBranches.cons "/" (PTarget.atom (some "alpha")) PBranches.nil),
      MetaVal.record []⟩
    (by decide) (by decide)

/-- Claim C2: what `reconfigure` actually computes is configuration of
a copy whose epidata lists are all EMPTIED (the source truncates each
list before its keep-non-layout-markers loop runs), not one with only
the layout markers removed.  On `alignedGraph` the two disagree: the
bug drops the alignment (`alpha`), while the spec's description
(`reconfigureSpec`) retains it (`alpha~1`). -/
theorem claim_C2 :
    (∀ (g : Graph) (m : Model) (topArg : Option (Option String)),
        reconfigure g m topArg none =
          configure { g with epidata := g.epidata.map (fun e => (e.1, ([] : List Epi))) }
            m topArg) ∧
    reconfigure alignedGraph ≠ reconfigureSpec alignedGraph ∧
    (reconfigure alignedGraph).toOption.map PTree.node =
      some (PNode.mk (some "a") (.cons "/" (.atom (some "alpha")) .nil)) ∧
    (reconfigureSpec alignedGraph).toOption.map PTree.node =
      some (PNode.mk (some "a") (.cons "/" (.atom (some "alpha~1")) .nil)) :=
  ⟨fun _ _ _ => rfl, by decide, by decide, by decide⟩

/-! ## Claim C1: generic association-list lemmas -/
theorem upsertBy_lookup_self {α β : Type} [DecidableEq α] [BEq α] [LawfulBEq α]
    (l : List (α × β)) (k : α) (v : β) : (upsertBy l k v).lookup k = some v := by
  induction l with
  | nil => simp [upsertBy, List.lookup]
  | cons p rest ih =>
    obtain ⟨k1, w⟩ := p
    simp only [upsertBy]
    by_cases h : k1 = k
    · rw [if_pos h]
      simp [List.lookup, h]
    · rw [if_neg h]
      have hb : (k == k1) = false := by
        rw [beq_eq_false_iff_ne]
        exact fun hh => h hh.symm
      simp [List.lookup, hb, ih]

theorem upsertBy_lookup_ne {α β : Type} [DecidableEq α] [BEq α] [LawfulBEq α]
    (l : List (α × β)) (k k2 : α) (v : β) (hne : k2 ≠ k) :
    (upsertBy l k v).lookup k2 = l.lookup k2 := by
  induction l with
  | nil =>
    have hb : (k2 == k) = false := beq_eq_false_iff_ne.mpr hne
    simp [upsertBy, List.lookup, hb]
  | cons p rest ih =>
    obtain ⟨k1, w⟩ := p
    simp only [upsertBy]
    by_cases h : k1 = k
    · rw [if_pos h]
      have hb : (k2 == k1) = false := beq_eq_false_iff_ne.mpr (h ▸ hne)
      simp [List.lookup, hb]
    · rw [if_neg h]
      cases hb : k2 == k1 with
      | true => simp [List.lookup, hb]
      | false => simp [List.lookup, hb, ih]

theorem upsertBy_keys_sub {α β : Type} [DecidableEq α]
    (l : List (α × β)) (k k2 : α) (v : β)
    (h : k2 ∈ (upsertBy l k v).map Prod.fst) : k2 = k ∨ k2 ∈ l.map Prod.fst := by
  induction l with
  | nil => simpa [upsertBy] using h
  | cons p rest ih =>
    obtain ⟨k1, w⟩ := p
    simp only [upsertBy] at h
    by_cases hk : k1 = k
    · rw [if_pos hk] at h
      simp only [List.map_cons, List.mem_cons] at h
      rcases h with h | h
      · exact Or.inr (by simp [h])
      · exact Or.inr (by simp [h])
    · rw [if_neg hk] at h
      simp only [List.map_cons, List.mem_cons] at h
      rcases h with h | h
      · exact Or.inr (by simp [h])
      · rcases ih h with h2 | h2
        · exact Or.inl h2
        · exact Or.inr (by simp [h2])

theorem upsertBy_length {α β : Type} [DecidableEq α] [BEq α] [LawfulBEq α]
    (l : List (α × β)) (k : α) (v : β) :
    (upsertBy l k v).length = if (l.lookup k).isSome then l.length else l.length + 1 := by
  induction l with
  | nil => simp [upsertBy, List.lookup]
  | cons p rest ih =>
    obtain ⟨k1, w⟩ := p
    simp only [upsertBy]
    by_cases h : k1 = k
    · rw [if_pos h]
      have hb : (k == k1) = true := beq_iff_eq.mpr h.symm
      simp [List.lookup, hb]
    · rw [if_neg h]
      have hb : (k == k1) = false := by
        rw [beq_eq_false_iff_ne]
        exact fun hh => h hh.symm
      simp only [List.length_cons, List.lookup, hb]
      rw [ih]
      by_cases hs : (rest.lookup k).isSome
      · simp [hs]
      · simp [hs]

theorem lookupBy_isSome_iff {α β : Type} [BEq α] [LawfulBEq α]
    (l : List (α × β)) (k : α) :
    (l.lookup k).isSome = true ↔ k ∈ l.map Prod.fst := by
  induction l with
  | nil => simp [List.lookup]
  | cons p rest ih =>
    obtain ⟨k1, w⟩ := p
    cases hb : k == k1 with
    | true =>
      have : k = k1 := beq_iff_eq.mp hb
      simp [List.lookup, hb, this]
    | false =>
      have hne : k ≠ k1 := by
        intro hh
        rw [beq_eq_false_iff_ne] at hb
        exact hb hh
      simp [List.lookup, hb, ih, hne]

theorem find?_key_nodup {α β : Type} [BEq α] [LawfulBEq α] [DecidableEq α]
    {l : List (α × β)} {k : α} {v : β}
    (hnd : nodupL (l.map Prod.fst) = true) (hmem : (k, v) ∈ l) :
    l.find? (fun p => p.1 == k) = some (k, v) := by
  induction l with
  | nil => cases hmem
  | cons p rest ih =>
    obtain ⟨k1, w⟩ := p
    simp only [List.map_cons, nodupL, Bool.and_eq_true, Bool.not_eq_true'] at hnd
    obtain ⟨hnotin, hnd2⟩ := hnd
    rcases List.mem_cons.mp hmem with h | h
    · injection h with h1 h2
      subst h1
      subst h2
      simp [List.find?]
    · have hkrest : k ∈ rest.map Prod.fst := by
        exact List.mem_map.mpr ⟨(k, v), h, rfl⟩
      have hne : (k1 == k) = false := by
        rw [beq_eq_false_iff_ne]
        intro hh
        subst hh
        have h2 : (List.map Prod.fst rest).elem k1 = true := List.elem_eq_true_of_mem hkrest
        have h3 : (List.map Prod.fst rest).contains k1 = true := h2
        rw [hnotin] at h3
        exact Bool.false_ne_true h3
      simp only [List.find?, hne]
      exact ih hnd2 h

/-! ## Claim C1: epidata-list structure lemmas -/
theorem epListB_ne_nil (m : Model) (k : Nat) (v : Option String) (bs : PBranches)
    (h : bs ≠ PBranches.nil) : epListB m k v bs ≠ [] := by
  cases bs with
  | nil => exact absurd rfl h
  | cons r tgt rest =>
    cases tgt with
    | atom a => cases rest <;> simp [epListB]
    | sub child => cases rest <;> simp [epListB]

theorem bool_not_true {b : Bool} (h : (!b) = true) : b = false := by
  cases b with
  | false => rfl
  | true => exact absurd h (by decide)

theorem bool_not_true2 {b : Bool} (h : b = false) : (!b) = true := by
  rw [h]
  rfl

theorem wfNode_iff (m : Model) (vars : List String) (n : PNode) :
    wfNode m vars n = true ↔
      ∃ s c bs, n = .mk (some s) (.cons "/" (.atom (some c)) bs) ∧
        (s == "") = false ∧ vars.contains s = true ∧ (c == "") = false ∧
        strContainsTilde c = false ∧ wfBranches m vars bs = true := by
  constructor
  · intro h
    cases n with
    | mk v bs =>
      cases v with
      | none => simp [wfNode] at h
      | some s =>
        cases bs with
        | nil => simp [wfNode] at h
        | cons r tgt rest =>
          cases tgt with
          | sub child => simp [wfNode] at h
          | atom a =>
            cases a with
            | none => simp [wfNode] at h
            | some c =>
              simp only [wfNode, Bool.and_eq_true] at h
              obtain ⟨⟨⟨⟨⟨hr, h1⟩, h2⟩, h3⟩, h4⟩, h5⟩ := h
              have hr2 : r = "/" := beq_iff_eq.mp hr
              subst hr2
              exact ⟨s, c, rest, rfl, bool_not_true h1, h2, bool_not_true h3,
                bool_not_true h4, h5⟩
  · rintro ⟨s, c, bs, rfl, h1, h2, h3, h4, h5⟩
    simp only [wfNode, Bool.and_eq_true]
    exact ⟨⟨⟨⟨⟨beq_iff_eq.mpr rfl, bool_not_true2 h1⟩, h2⟩, bool_not_true2 h3⟩,
      bool_not_true2 h4⟩, h5⟩

theorem wfBranches_atom_iff (m : Model) (vars : List String) (r : String)
    (a : Option String) (rest : PBranches) :
    wfBranches m vars (.cons r (.atom a) rest) = true ↔
      strStartsWithColon r = true ∧ strContainsTilde r = false ∧ (r == CONCEPT_ROLE) = false ∧
      vars.contains (jsKey a) = false ∧
      (∀ s, a = some s → strContainsTilde s = false) ∧
      wfBranches m vars rest = true := by
  cases a with
  | none =>
    simp only [wfBranches]
    constructor
    · intro h
      simp only [Bool.and_eq_true] at h
      obtain ⟨⟨⟨⟨⟨h1, h2⟩, h3⟩, h4⟩, -⟩, h6⟩ := h
      refine ⟨h1, bool_not_true h2, bool_not_true h3, bool_not_true h4, ?_, h6⟩
      intro s hs
      exact Option.noConfusion hs
    · rintro ⟨h1, h2, h3, h4, _, h6⟩
      simp only [Bool.and_eq_true]
      exact ⟨⟨⟨⟨⟨h1, bool_not_true2 h2⟩, bool_not_true2 h3⟩, bool_not_true2 h4⟩, trivial⟩, h6⟩
  | some s0 =>
    simp only [wfBranches]
    constructor
    · intro h
      simp only [Bool.and_eq_true] at h
      obtain ⟨⟨⟨⟨⟨h1, h2⟩, h3⟩, h4⟩, h5⟩, h6⟩ := h
      refine ⟨h1, bool_not_true h2, bool_not_true h3, bool_not_true h4, ?_, h6⟩
      intro s hs
      cases hs
      exact bool_not_true h5
    · rintro ⟨h1, h2, h3, h4, h5, h6⟩
      simp only [Bool.and_eq_true]
      exact ⟨⟨⟨⟨⟨h1, bool_not_true2 h2⟩, bool_not_true2 h3⟩, bool_not_true2 h4⟩,
        bool_not_true2 (h5 s0 rfl)⟩, h6⟩

theorem wfBranches_sub_iff (m : Model) (vars : List String) (r : String)
    (child : PNode) (rest : PBranches) :
    wfBranches m vars (.cons r (.sub child) rest) = true ↔
      strStartsWithColon r = true ∧ strContainsTilde r = false ∧ (r == CONCEPT_ROLE) = false ∧
      (m.isRoleInverted r = false ∨
        (m.invertRole (m.invertRole r) = r ∧ (m.invertRole r == CONCEPT_ROLE) = false)) ∧
      wfNode m vars child = true ∧ wfBranches m vars rest = true := by
  simp only [wfBranches]
  constructor
  · intro h
    simp only [Bool.and_eq_true] at h
    obtain ⟨⟨⟨⟨⟨h1, h2⟩, h3⟩, h4⟩, h5⟩, h6⟩ := h
    refine ⟨h1, bool_not_true h2, bool_not_true h3, ?_, h5, h6⟩
    rw [Bool.or_eq_true] at h4
    rcases h4 with h4 | h4
    · exact Or.inl (bool_not_true h4)
    · rw [Bool.and_eq_true] at h4
      exact Or.inr ⟨beq_iff_eq.mp h4.1, bool_not_true h4.2⟩
  · rintro ⟨h1, h2, h3, h4, h5, h6⟩
    simp only [Bool.and_eq_true]
    refine ⟨⟨⟨⟨⟨h1, bool_not_true2 h2⟩, bool_not_true2 h3⟩, ?_⟩, h5⟩, h6⟩
    rw [Bool.or_eq_true]
    rcases h4 with h4 | ⟨h4a, h4b⟩
    · exact Or.inl (bool_not_true2 h4)
    · exact Or.inr (by rw [Bool.and_eq_true]; exact ⟨beq_iff_eq.mpr h4a, bool_not_true2 h4b⟩)

theorem sizeOf_pos_N (n : PNode) : 0 < sizeOf n := by
  cases n
  simp_arith

theorem sizeOf_pos_B (bs : PBranches) : 0 < sizeOf bs := by
  cases bs <;> simp_arith

theorem sizeOf_node_branches (v : Option String) (bs : PBranches) :
    sizeOf bs < sizeOf (PNode.mk v bs) := by
  cases v <;> simp_arith

theorem sizeOf_branches_rest (r : String) (tgt : PTarget) (rest : PBranches) :
    sizeOf rest < sizeOf (PBranches.cons r tgt rest) := by
  simp_arith

theorem sizeOf_branches_child (r : String) (child : PNode) (rest : PBranches) :
    sizeOf child < sizeOf (PBranches.cons r (.sub child) rest) := by
  simp_arith

theorem epList_keys_aux (N : Nat) :
    (∀ (m : Model) (k : Nat) (n : PNode), sizeOf n ≤ N →
      (epListN m k n).map Prod.fst = trListN m n) ∧
    (∀ (m : Model) (k : Nat) (v : Option String) (bs : PBranches), sizeOf bs ≤ N →
      (epListB m k v bs).map Prod.fst = trListB m v bs) := by
  induction N with
  | zero =>
    constructor
    · intro m k n hsz
      exact absurd hsz (by have := sizeOf_pos_N n; omega)
    · intro m k v bs hsz
      exact absurd hsz (by have := sizeOf_pos_B bs; omega)
  | succ N ih =>
    obtain ⟨ihN, ihB⟩ := ih
    constructor
    · intro m k n hsz
      cases n with
      | mk v bs =>
        have hbs : sizeOf bs ≤ N := by
          have := sizeOf_node_branches v bs
          omega
        cases bs with
        | nil => simp [epListN, trListN, epListB, trListB]
        | cons r tgt rest =>
          cases tgt with
          | sub child =>
            simp only [epListN, trListN]
            exact ihB m k v _ hbs
          | atom a =>
            cases a with
            | none =>
              simp only [epListN, trListN]
              exact ihB m k v _ hbs
            | some c =>
              have hrest : sizeOf rest ≤ N := by
                have h1 := sizeOf_branches_rest r (.atom (some c)) rest
                omega
              by_cases hr : r = "/"
              · subst hr
                cases rest with
                | nil => simp [epListN, trListN, epListB, trListB]
                | cons r2 tgt2 rest2 =>
                  simp only [epListN, trListN, if_pos, List.map_cons]
                  rw [ihB m k v _ hrest]
              · simp only [epListN, trListN, if_neg hr]
                exact ihB m k v _ hbs
    · intro m k v bs hsz
      cases bs with
      | nil => simp [epListB, trListB]
      | cons r tgt rest =>
        have hrest : sizeOf rest ≤ N := by
          have h1 := sizeOf_branches_rest r tgt rest
          omega
        cases tgt with
        | atom a =>
          cases rest with
          | nil => simp [epListB, trListB]
          | cons r2 tgt2 rest2 =>
            simp only [epListB, trListB, List.map_cons]
            rw [ihB m k v _ hrest]
        | sub child =>
          have hchild : sizeOf child ≤ N := by
            have h1 := sizeOf_branches_child r child rest
            omega
          cases rest with
          | nil =>
            simp only [epListB, trListB, List.map_cons, List.append_nil]
            rw [ihN m (k + 1) child hchild]
          | cons r2 tgt2 rest2 =>
            simp only [epListB, trListB, List.map_cons, List.map_append]
            rw [ihN m 1 child hchild, ihB m k v _ hrest]

theorem epListN_keys (m : Model) (k : Nat) (n : PNode) :
    (epListN m k n).map Prod.fst = trListN m n :=
  (epList_keys_aux (sizeOf n)).1 m k n (Nat.le_refl _)

theorem epListB_keys (m : Model) (k : Nat) (v : Option String) (bs : PBranches) :
    (epListB m k v bs).map Prod.fst = trListB m v bs :=
  (epList_keys_aux (sizeOf bs)).2 m k v bs (Nat.le_refl _)

theorem epListN_ne_nil (m : Model) (vars : List String) (k : Nat) (n : PNode)
    (hwf : wfNode m vars n = true) : epListN m k n ≠ [] := by
  obtain ⟨s, c, bs, rfl, -, -, -, -, -⟩ := (wfNode_iff m vars _).mp hwf
  cases bs with
  | nil => simp [epListN]
  | cons r2 tgt2 rest2 => simp [epListN]

theorem appendPopLast_cons_cons (x y : Triple × List Epi) (rest : List (Triple × List Epi)) :
    appendPopLast (x :: y :: rest) = x :: appendPopLast (y :: rest) := rfl

theorem appendPopLast_append (l1 l2 : List (Triple × List Epi)) (h : l2 ≠ []) :
    appendPopLast (l1 ++ l2) = l1 ++ appendPopLast l2 := by
  induction l1 with
  | nil => simp
  | cons x rest ih =>
    have hne : rest ++ l2 ≠ [] := by
      cases hr : rest ++ l2 with
      | nil =>
        rcases List.append_eq_nil.mp hr with ⟨-, h2⟩
        exact absurd h2 h
      | cons e es => simp
    cases hr : rest ++ l2 with
    | nil => exact absurd hr hne
    | cons e es =>
      have hstep : appendPopLast (x :: (rest ++ l2)) = x :: appendPopLast (rest ++ l2) := by
        rw [hr]
        rfl
      rw [List.cons_append, hstep, ih]
      rfl

theorem appendPop_aux (N : Nat) :
    (∀ (m : Model) (vars : List String) (k : Nat) (n : PNode), sizeOf n ≤ N →
      wfNode m vars n = true →
      appendPopLast (epListN m k n) = epListN m (k + 1) n) ∧
    (∀ (m : Model) (vars : List String) (k : Nat) (v : Option String) (bs : PBranches),
      sizeOf bs ≤ N → bs ≠ PBranches.nil → wfBranches m vars bs = true →
      appendPopLast (epListB m k v bs) = epListB m (k + 1) v bs) := by
  induction N with
  | zero =>
    constructor
    · intro m vars k n hsz
      exact absurd hsz (by have := sizeOf_pos_N n; omega)
    · intro m vars k v bs hsz
      exact absurd hsz (by have := sizeOf_pos_B bs; omega)
  | succ N ih =>
    obtain ⟨ihN, ihB⟩ := ih
    constructor
    · intro m vars k n hsz hwf
      obtain ⟨s, c, bs, rfl, -, -, -, -, hwfB⟩ := (wfNode_iff m vars n).mp hwf
      have hbs : sizeOf bs ≤ N := by
        have h1 := sizeOf_node_branches (some s) (.cons "/" (.atom (some c)) bs)
        have h2 := sizeOf_branches_rest "/" (.atom (some c)) bs
        omega
      cases bs with
      | nil => simp [epListN, appendPopLast, List.replicate_succ']
      | cons r2 tgt2 rest2 =>
        simp only [epListN, if_pos]
        have hne2 := epListB_ne_nil m k (some s) (PBranches.cons r2 tgt2 rest2)
          (by intro hh; cases hh)
        cases hep : epListB m k (some s) (PBranches.cons r2 tgt2 rest2) with
        | nil => exact absurd hep hne2
        | cons e es =>
          rw [appendPopLast_cons_cons, ← hep,
            ihB m vars k (some s) _ hbs (by intro hh; cases hh) hwfB]
    · intro m vars k v bs hsz hne hwf
      cases bs with
      | nil => exact absurd rfl hne
      | cons r tgt rest =>
        have hrest : sizeOf rest ≤ N := by
          have h1 := sizeOf_branches_rest r tgt rest
          omega
        cases tgt with
        | atom a =>
          have hwfB : wfBranches m vars rest = true :=
            ((wfBranches_atom_iff m vars r a rest).mp hwf).2.2.2.2.2
          cases rest with
          | nil => simp [epListB, appendPopLast, List.replicate_succ']
          | cons r2 tgt2 rest2 =>
            simp only [epListB]
            have hne2 := epListB_ne_nil m k v (PBranches.cons r2 tgt2 rest2)
              (by intro hh; cases hh)
            cases hep : epListB m k v (PBranches.cons r2 tgt2 rest2) with
            | nil => exact absurd hep hne2
            | cons e es =>
              rw [appendPopLast_cons_cons, ← hep,
                ihB m vars k v _ hrest (by intro hh; cases hh) hwfB]
        | sub child =>
          have hiff := (wfBranches_sub_iff m vars r child rest).mp hwf
          have hwfC : wfNode m vars child = true := hiff.2.2.2.2.1
          have hwfB : wfBranches m vars rest = true := hiff.2.2.2.2.2
          have hchild : sizeOf child ≤ N := by
            have h1 := sizeOf_branches_child r child rest
            omega
          cases rest with
          | nil =>
            simp only [epListB]
            have hneC := epListN_ne_nil m vars (k + 1) child hwfC
            cases hep : epListN m (k + 1) child with
            | nil => exact absurd hep hneC
            | cons e es =>
              rw [appendPopLast_cons_cons, ← hep, ihN m vars (k + 1) child hchild hwfC]
          | cons r2 tgt2 rest2 =>
            simp only [epListB]
            have hneC := epListN_ne_nil m vars 1 child hwfC
            have hne2 := epListB_ne_nil m k v (PBranches.cons r2 tgt2 rest2)
              (by intro hh; cases hh)
            cases hc : epListN m 1 child with
            | nil => exact absurd hc hneC
            | cons e es =>
              rw [List.cons_append, appendPopLast_cons_cons, ← List.cons_append, ← hc,
                appendPopLast_append _ _ hne2,
                ihB m vars k v _ hrest (by intro hh; cases hh) hwfB]

theorem appendPop_N (m : Model) (vars : List String) (k : Nat) (n : PNode)
    (hwf : wfNode m vars n = true) :
    appendPopLast (epListN m k n) = epListN m (k + 1) n :=
  (appendPop_aux (sizeOf n)).1 m vars k n (Nat.le_refl _) hwf

theorem startsColon_ne_slash {r : String} (h : strStartsWithColon r = true) : r ≠ "/" := by
  intro hr
  subst hr
  exact absurd h (by decide)

theorem isRoleInverted_concept (m : Model) : m.isRoleInverted ":instance" = false := by
  unfold Model.isRoleInverted
  have h : strEndsWithOf ":instance" = false := by decide
  rw [h, Bool.and_false]

theorem processRole_colon (r : String) (hcol : strStartsWithColon r = true)
    (htil : strContainsTilde r = false) : _processRole r = .ok (r, []) := by
  unfold _processRole
  rw [if_neg (startsColon_ne_slash hcol), if_neg]
  rw [htil]
  exact Bool.false_ne_true

theorem processAtomic_clean (a : Option String)
    (htil : ∀ s, a = some s → strContainsTilde s = false) :
    _processAtomic a = .ok (a, []) := by
  cases a with
  | none => rfl
  | some s =>
    simp only [_processAtomic]
    rw [if_neg]
    intro hand
    rw [htil s rfl] at hand
    exact Bool.false_ne_true hand.2

theorem interpA_aux (N : Nat) :
    (∀ (m : Model) (vars : List String) (n : PNode), sizeOf n ≤ N →
      wfNode m vars n = true →
      _interpretNode n vars m = .ok (n.var, trListN m n, epListN m 0 n)) ∧
    (∀ (m : Model) (vars : List String) (v : Option String) (bs : PBranches),
      sizeOf bs ≤ N → wfBranches m vars bs = true →
      interpretBranches v bs vars m = .ok (trListB m v bs, epListB m 0 v bs, false)) := by
  induction N with
  | zero =>
    constructor
    · intro m vars n hsz
      exact absurd hsz (by have := sizeOf_pos_N n; omega)
    · intro m vars v bs hsz
      exact absurd hsz (by have := sizeOf_pos_B bs; omega)
  | succ N ih =>
    obtain ⟨ihN, ihB⟩ := ih
    constructor
    · intro m vars n hsz hwf
      obtain ⟨s, c, bs, rfl, -, -, -, hctil, hwfB⟩ := (wfNode_iff m vars n).mp hwf
      have hbs : sizeOf bs ≤ N := by
        have h1 := sizeOf_node_branches (some s) (.cons "/" (.atom (some c)) bs)
        have h2 := sizeOf_branches_rest "/" (.atom (some c)) bs
        omega
      have hpa : _processAtomic (some c) = .ok (some c, []) :=
        processAtomic_clean (some c) (by intro s2 hs2; cases hs2; exact hctil)
      have hinv : (m.isRoleInverted CONCEPT_ROLE && optMem (some c) vars) = false := by
        rw [show (CONCEPT_ROLE : String) = ":instance" from rfl, isRoleInverted_concept,
          Bool.false_and]
      have hrest := ihB m vars (some s) bs hbs hwfB
      simp only [_interpretNode, interpretBranches]
      rw [show _processRole "/" = .ok (CONCEPT_ROLE, []) from rfl]
      simp only [hpa, hinv, hrest, Bool.ite_eq_true_distrib]
      simp only [show ((CONCEPT_ROLE : String) == CONCEPT_ROLE) = true from rfl, if_false,
        Bool.true_or, List.nil_append]
      have htr : trListN m (.mk (some s) (.cons "/" (.atom (some c)) bs)) =
          ((some s, CONCEPT_ROLE, some c) : Triple) :: trListB m (some s) bs := by
        simp [trListN]
      have hep : epListN m 0 (.mk (some s) (.cons "/" (.atom (some c)) bs)) =
          (((some s, CONCEPT_ROLE, some c) : Triple), ([] : List Epi)) ::
            epListB m 0 (some s) bs := by
        cases bs with
        | nil => simp [epListN, epListB]
        | cons r2 tgt2 rest2 => simp [epListN]
      rw [htr, hep]
      rfl
    · intro m vars v bs hsz hwf
      cases bs with
      | nil => rfl
      | cons r tgt rest =>
        have hrest : sizeOf rest ≤ N := by
          have h1 := sizeOf_branches_rest r tgt rest
          omega
        cases tgt with
        | atom a =>
          obtain ⟨hcol, hrtil, hcr, hvk, hatil, hwfR⟩ := (wfBranches_atom_iff m vars r a rest).mp hwf
          have hpr := processRole_colon r hcol hrtil
          have hpa := processAtomic_clean a hatil
          have hinv : (m.isRoleInverted r && optMem a vars) = false := by
            cases a with
            | none => simp [optMem]
            | some s2 =>
              have : optMem (some s2) vars = false := by
                simp only [optMem]
                exact hvk
              rw [this, Bool.and_false]
          have hrestIH := ihB m vars v rest hrest hwfR
          simp only [interpretBranches, hpr, hpa, hinv, hrestIH]
          simp only [hcr, if_false, Bool.false_or, List.nil_append]
          have htr : trListB m v (.cons r (.atom a) rest) =
              ((v, r, a) : Triple) :: trListB m v rest := by
            simp [trListB]
          have hep : epListB m 0 v (.cons r (.atom a) rest) =
              (((v, r, a) : Triple), ([] : List Epi)) :: epListB m 0 v rest := by
            cases rest with
            | nil => simp [epListB]
            | cons r2 tgt2 rest2 => simp [epListB]
          rw [htr, hep]
          rfl
        | sub child =>
          obtain ⟨hcol, hrtil, hcr, -, hwfC, hwfR⟩ := (wfBranches_sub_iff m vars r child rest).mp hwf
          have hchild : sizeOf child ≤ N := by
            have h1 := sizeOf_branches_child r child rest
            omega
          have hpr := processRole_colon r hcol hrtil
          have hchildIH := ihN m vars child hchild hwfC
          have hrestIH := ihB m vars v rest hrest hwfR
          have hpop := appendPop_N m vars 0 child hwfC
          simp only [interpretBranches, hpr, hchildIH, hrestIH]
          simp only [hcr, if_false, Bool.false_or, List.nil_append]
          rw [hpop]
          have htr : trListB m v (.cons r (.sub child) rest) =
              m.deinvert (v, r, child.var) :: (trListN m child ++ trListB m v rest) := by
            simp [trListB]
          have hep : epListB m 0 v (.cons r (.sub child) rest) =
              (m.deinvert (v, r, child.var), [Epi.push child.var]) ::
                (epListN m (0 + 1) child ++ epListB m 0 v rest) := by
            cases rest with
            | nil => simp [epListB]
            | cons r2 tgt2 rest2 => simp [epListB]
          try rw [htr, hep]
          try rfl

theorem preconfigure_entries (m : Model) (g : Graph) (L : List (Triple × List Epi))
    (hT : g.triples = L.map Prod.fst)
    (hE : ∀ e ∈ L, emGet g.epidata e.1 = some e.2) :
    _preconfigure g m = (L.foldl (preF m) ([], [])).1 := by
  unfold _preconfigure
  rw [hT]
  have main : ∀ (L2 : List (Triple × List Epi)) (acc : List WItem × List (Option String)),
      (∀ e ∈ L2, emGet g.epidata e.1 = some e.2) →
      (L2.map Prod.fst).foldl
        (fun (acc2 : List WItem × List (Option String)) triple =>
          let st0 : PreSt := ⟨triple, false, [], [], acc2.2⟩
          let st := ((emGet g.epidata triple).getD []).foldl
            (preconfigEpi m triple.1 triple.2.1 triple.2.2) st0
          (acc2.1 ++ [WItem.datum st.triple st.push st.epis] ++ st.pops, st.pushed))
        acc = L2.foldl (preF m) acc := by
    intro L2
    induction L2 with
    | nil => intro acc hE2; rfl
    | cons e rest ih =>
      intro acc hE2
      simp only [List.map_cons, List.foldl_cons]
      rw [hE2 e (List.mem_cons_self e rest)]
      rw [ih _ (fun e2 he2 => hE2 e2 (List.mem_cons_of_mem e he2))]
      rfl
  exact congrArg Prod.fst (main L ([], []) hE)

theorem preconfigEpi_pops (m : Model) (v0 : Option String) (r0 : String)
    (t0 : Option String) (k : Nat) (st : PreSt) :
    (List.replicate k Epi.pop).foldl (preconfigEpi m v0 r0 t0) st =
      { st with pops := st.pops ++ List.replicate k WItem.pop } := by
  induction k generalizing st with
  | zero => simp
  | succ k ih =>
    rw [List.replicate_succ, List.foldl_cons, ih]
    simp only [preconfigEpi]
    rw [List.replicate_succ]
    have : st.pops ++ WItem.pop :: List.replicate k WItem.pop =
        (st.pops ++ [WItem.pop]) ++ List.replicate k WItem.pop := by
      simp
    rw [this]

theorem preF_plain (m : Model) (acc : List WItem) (pushed : List (Option String))
    (tr : Triple) (k : Nat) :
    preF m (acc, pushed) (tr, List.replicate k Epi.pop) =
      (acc ++ [WItem.datum tr false []] ++ List.replicate k WItem.pop, pushed) := by
  simp only [preF, preconfigEpi_pops]
  simp

theorem preF_push (m : Model) (acc : List WItem) (pushed : List (Option String))
    (v : Option String) (r : String) (cv : Option String)
    (hnotin : pushed.contains cv = false)
    (hne : cv ≠ v)
    (hrc : (r == CONCEPT_ROLE) = false)
    (hinv : m.isRoleInverted r = false ∨
      (m.invertRole (m.invertRole r) = r ∧ (m.invertRole r == CONCEPT_ROLE) = false)) :
    preF m (acc, pushed) (m.deinvert (v, r, cv), [Epi.push cv]) =
      (acc ++ [WItem.datum (v, r, cv) true []], cv :: pushed) := by
  rcases hinv with hinv | ⟨hinv2, hirc⟩
  · have hdi : m.deinvert (v, r, cv) = (v, r, cv) := by
      unfold Model.deinvert
      rw [hinv]
      simp
    rw [hdi]
    simp only [preF, List.foldl_cons, List.foldl_nil, preconfigEpi]
    rw [hnotin]
    simp only [Bool.false_eq_true, if_false]
    rw [if_neg, if_neg hne]
    · simp
    · intro hcond
      rcases hcond with ⟨-, hcond2⟩ | hcond
      · exact hcond2 rfl
      · rw [beq_eq_false_iff_ne] at hrc
        exact hrc hcond
  · by_cases hri : m.isRoleInverted r = true
    · have hdi : m.deinvert (v, r, cv) = (cv, m.invertRole r, v) := by
        unfold Model.deinvert Model.invert
        rw [hri]
        simp
      rw [hdi]
      simp only [preF, List.foldl_cons, List.foldl_nil, preconfigEpi]
      rw [hnotin]
      simp only [Bool.false_eq_true, if_false]
      rw [if_neg]
      · have hback : m.invert (cv, m.invertRole r, v) = (v, r, cv) := by
          show ((v : Option String), m.invertRole (m.invertRole r), (cv : Option String)) =
            (v, r, cv)
          rw [hinv2]
        simp [hback]
      · intro hcond
        rcases hcond with ⟨hcond1, -⟩ | hcond
        · exact hcond1 rfl
        · rw [beq_eq_false_iff_ne] at hirc
          exact hirc hcond
    · have hri2 : m.isRoleInverted r = false := by
        cases hx : m.isRoleInverted r with
        | false => rfl
        | true => exact absurd hx hri
      have hdi : m.deinvert (v, r, cv) = (v, r, cv) := by
        unfold Model.deinvert
        rw [hri2]
        simp
      rw [hdi]
      simp only [preF, List.foldl_cons, List.foldl_nil, preconfigEpi]
      rw [hnotin]
      simp only [Bool.false_eq_true, if_false]
      rw [if_neg, if_neg hne]
      · simp
      · intro hcond
        rcases hcond with ⟨-, hcond2⟩ | hcond
        · exact hcond2 rfl
        · rw [beq_eq_false_iff_ne] at hrc
          exact hrc hcond

theorem contains_eq_false_iff {α : Type} [BEq α] [LawfulBEq α] (l : List α) (x : α) :
    l.contains x = false ↔ x ∉ l := by
  constructor
  · intro h hmem
    have h2 : l.contains x = true := List.elem_eq_true_of_mem hmem
    rw [h] at h2
    exact Bool.false_ne_true h2
  · intro h
    cases hc : l.contains x with
    | false => rfl
    | true => exact absurd (List.mem_of_elem_eq_true hc) h

theorem nodeVars_shape {m : Model} {vars : List String} {s c : String} {bs : PBranches}
    (hwf : wfNode m vars (.mk (some s) (.cons "/" (.atom (some c)) bs)) = true) :
    nodeVarsN (.mk (some s) (.cons "/" (.atom (some c)) bs)) = s :: nodeVarsB bs := by
  obtain ⟨s2, c2, bs2, heq, hs, -, -, -, -⟩ :=
    (wfNode_iff m vars (.mk (some s) (.cons "/" (.atom (some c)) bs))).mp hwf
  injection heq with h1 h2
  injection h1 with h1
  subst h1
  have hs2 : s ≠ "" := by
    intro hh
    rw [hh] at hs
    exact absurd hs (by decide)
  simp [nodeVarsN, nodeVarsB, hs2]

theorem pushList_eq_aux (N : Nat) :
    (∀ (m : Model) (vars : List String) (n : PNode), sizeOf n ≤ N →
      wfNode m vars n = true →
      pushListN n = ((nodeVarsN n).drop 1).map some) ∧
    (∀ (m : Model) (vars : List String) (bs : PBranches), sizeOf bs ≤ N →
      wfBranches m vars bs = true →
      pushListB bs = (nodeVarsB bs).map some) := by
  induction N with
  | zero =>
    constructor
    · intro m vars n hsz
      exact absurd hsz (by have := sizeOf_pos_N n; omega)
    · intro m vars bs hsz hwf
      cases bs with
      | nil => rfl
      | cons r tgt rest => exact absurd hsz (by have := sizeOf_pos_B (.cons r tgt rest); omega)
  | succ N ih =>
    obtain ⟨ihN, ihB⟩ := ih
    constructor
    · intro m vars n hsz hwf
      obtain ⟨s, c, bs, rfl, -, -, -, -, hwfB⟩ := (wfNode_iff m vars n).mp hwf
      have hbs : sizeOf bs ≤ N := by
        have h1 := sizeOf_node_branches (some s) (.cons "/" (.atom (some c)) bs)
        have h2 := sizeOf_branches_rest "/" (.atom (some c)) bs
        omega
      rw [nodeVars_shape hwf]
      simp only [List.drop_succ_cons, List.drop_zero]
      show pushListB (.cons "/" (.atom (some c)) bs) = (nodeVarsB bs).map some
      show pushListB bs = (nodeVarsB bs).map some
      exact ihB m vars bs hbs hwfB
    · intro m vars bs hsz hwf
      cases bs with
      | nil => rfl
      | cons r tgt rest =>
        have hrest : sizeOf rest ≤ N := by
          have h1 := sizeOf_branches_rest r tgt rest
          omega
        cases tgt with
        | atom a =>
          have hwfR : wfBranches m vars rest = true :=
            ((wfBranches_atom_iff m vars r a rest).mp hwf).2.2.2.2.2
          show pushListB rest = (nodeVarsB rest).map some
          exact ihB m vars rest hrest hwfR
        | sub child =>
          obtain ⟨-, -, -, -, hwfC, hwfR⟩ := (wfBranches_sub_iff m vars r child rest).mp hwf
          have hchild : sizeOf child ≤ N := by
            have h1 := sizeOf_branches_child r child rest
            omega
          obtain ⟨s2, c2, bs2, heq, -, -, -, -, -⟩ := (wfNode_iff m vars child).mp hwfC
          have hvarC : nodeVarsN child = s2 :: nodeVarsB bs2 := by
            rw [heq]
            exact nodeVars_shape (heq ▸ hwfC)
          have hcv : child.var = some s2 := by
            rw [heq]
            rfl
          show child.var :: (pushListN child ++ pushListB rest) =
            (nodeVarsN child ++ nodeVarsB rest).map some
          rw [ihN m vars child hchild hwfC, ihB m vars rest hrest hwfR, hvarC, hcv]
          simp

theorem preF_plain0 (m : Model) (acc : List WItem) (pushed : List (Option String))
    (tr : Triple) :
    preF m (acc, pushed) (tr, ([] : List Epi)) = (acc ++ [WItem.datum tr false []], pushed) := by
  have h := preF_plain m acc pushed tr 0
  simpa using h

theorem preFold_aux (N : Nat) :
    (∀ (m : Model) (vars : List String) (k : Nat) (n : PNode)
        (acc : List WItem) (pushed : List (Option String)),
      sizeOf n ≤ N → wfNode m vars n = true →
      ((nodeVarsN n).map some).Nodup →
      (∀ x ∈ ((nodeVarsN n).drop 1).map some, x ∉ pushed) →
      (epListN m k n).foldl (preF m) (acc, pushed) =
        (acc ++ dataN n ++ List.replicate k WItem.pop,
         (pushListN n).reverse ++ pushed)) ∧
    (∀ (m : Model) (vars : List String) (k : Nat) (v : Option String) (bs : PBranches)
        (acc : List WItem) (pushed : List (Option String)),
      sizeOf bs ≤ N → bs ≠ PBranches.nil → wfBranches m vars bs = true →
      ((nodeVarsB bs).map some).Nodup →
      v ∉ (nodeVarsB bs).map some →
      (∀ x ∈ (nodeVarsB bs).map some, x ∉ pushed) →
      (epListB m k v bs).foldl (preF m) (acc, pushed) =
        (acc ++ dataB v bs ++ List.replicate k WItem.pop,
         (pushListB bs).reverse ++ pushed)) := by
  induction N with
  | zero =>
    constructor
    · intro m vars k n acc pushed hsz
      exact absurd hsz (by have := sizeOf_pos_N n; omega)
    · intro m vars k v bs acc pushed hsz
      exact absurd hsz (by have := sizeOf_pos_B bs; omega)
  | succ N ih =>
    obtain ⟨ihN, ihB⟩ := ih
    constructor
    · intro m vars k n acc pushed hsz hwf hND hDisj
      obtain ⟨s, c, bs, rfl, -, -, -, -, hwfB⟩ := (wfNode_iff m vars n).mp hwf
      have hbs : sizeOf bs ≤ N := by
        have h1 := sizeOf_node_branches (some s) (.cons "/" (.atom (some c)) bs)
        have h2 := sizeOf_branches_rest "/" (.atom (some c)) bs
        omega
      have hvars := nodeVars_shape hwf
      rw [hvars] at hND hDisj
      simp only [List.drop_succ_cons, List.drop_zero] at hDisj
      have hpushN : pushListN (PNode.mk (some s) (.cons "/" (.atom (some c)) bs)) =
          pushListB bs := rfl
      cases bs with
      | nil =>
        show ([(((some s : Option String), CONCEPT_ROLE, some c),
            List.replicate k Epi.pop)].foldl (preF m) (acc, pushed)) = _
        rw [List.foldl_cons, preF_plain, List.foldl_nil, hpushN]
        show _ = (acc ++ [WItem.datum ((some s : Option String), CONCEPT_ROLE, some c) false []]
          ++ List.replicate k WItem.pop, List.reverse [] ++ pushed)
        simp
      | cons r2 tgt2 rest2 =>
        show (((((some s : Option String), CONCEPT_ROLE, some c), ([] : List Epi)) ::
            epListB m k (some s) (.cons r2 tgt2 rest2)).foldl (preF m) (acc, pushed)) = _
        have hpair : s ∉ nodeVarsB (.cons r2 tgt2 rest2) ∧
            ((nodeVarsB (.cons r2 tgt2 rest2)).map some).Nodup := by
          simpa using hND
        rw [List.foldl_cons, preF_plain0,
          ihB m vars k (some s) _ _ _ hbs (by intro hh; cases hh) hwfB
            hpair.2 (by simpa using hpair.1) hDisj, hpushN]
        have hdN : dataN (PNode.mk (some s) (.cons "/" (.atom (some c)) (.cons r2 tgt2 rest2))) =
            WItem.datum ((some s : Option String), CONCEPT_ROLE, some c) false [] ::
              dataB (some s) (.cons r2 tgt2 rest2) := by
          simp [dataN]
        rw [hdN]
        simp
    · intro m vars k v bs acc pushed hsz hbne hwf hND hVv hDisj
      cases bs with
      | nil => exact absurd rfl hbne
      | cons r tgt rest =>
        have hrest : sizeOf rest ≤ N := by
          have h1 := sizeOf_branches_rest r tgt rest
          omega
        cases tgt with
        | atom a =>
          obtain ⟨-, -, -, -, -, hwfR⟩ := (wfBranches_atom_iff m vars r a rest).mp hwf
          have hvarsEq : nodeVarsB (.cons r (.atom a) rest) = nodeVarsB rest := rfl
          rw [hvarsEq] at hND hVv hDisj
          cases rest with
          | nil =>
            show ([(((v, r, a) : Triple), List.replicate k Epi.pop)].foldl
              (preF m) (acc, pushed)) = _
            rw [List.foldl_cons, preF_plain, List.foldl_nil]
            show _ = (acc ++ [WItem.datum ((v, r, a) : Triple) false []] ++
              List.replicate k WItem.pop, List.reverse [] ++ pushed)
            simp
          | cons r2 tgt2 rest2 =>
            show (((((v, r, a) : Triple), ([] : List Epi)) ::
                epListB m k v (.cons r2 tgt2 rest2)).foldl (preF m) (acc, pushed)) = _
            rw [List.foldl_cons, preF_plain0,
              ihB m vars k v _ _ _ hrest (by intro hh; cases hh) hwfR hND hVv hDisj]
            show _ = (acc ++ (WItem.datum ((v, r, a) : Triple) false [] ::
              dataB v (.cons r2 tgt2 rest2)) ++ List.replicate k WItem.pop,
              (pushListB (.cons r2 tgt2 rest2)).reverse ++ pushed)
            simp
        | sub child =>
          obtain ⟨-, -, hrc, hinv, hwfC, hwfR⟩ := (wfBranches_sub_iff m vars r child rest).mp hwf
          have hchild : sizeOf child ≤ N := by
            have h1 := sizeOf_branches_child r child rest
            omega
          obtain ⟨s2, c2, bs2, heq, -, -, -, -, -⟩ := (wfNode_iff m vars child).mp hwfC
          have hvarC : nodeVarsN child = s2 :: nodeVarsB bs2 := by
            rw [heq]
            exact nodeVars_shape (heq ▸ hwfC)
          have hcv : child.var = some s2 := by
            rw [heq]
            rfl
          have hvarsEq : nodeVarsB (.cons r (.sub child) rest) =
              nodeVarsN child ++ nodeVarsB rest := rfl
          rw [hvarsEq, hvarC] at hND hVv hDisj
          simp only [List.map_append, List.map_cons] at hND hVv hDisj
          have hndParts := List.nodup_append.mp hND
          -- membership facts
          have hs2push : pushed.contains (some s2) = false := by
            rw [contains_eq_false_iff]
            exact hDisj (some s2) (by simp)
          have hs2v : (some s2 : Option String) ≠ v := by
            intro hh
            rw [← hh] at hVv
            exact hVv (by simp)
          -- child hypotheses
          have hNDchild : ((nodeVarsN child).map some).Nodup := by
            rw [hvarC]
            simp only [List.map_cons]
            exact hndParts.1
          have hDisjChild : ∀ x ∈ ((nodeVarsN child).drop 1).map some, x ∉ some s2 :: pushed := by
            rw [hvarC]
            simp only [List.drop_succ_cons, List.drop_zero]
            intro x hx
            intro hmem
            rcases List.mem_cons.mp hmem with hh | hh
            · subst hh
              have := hndParts.1
              rw [List.nodup_cons] at this
              exact this.1 hx
            · exact hDisj x (by simp [hx]) hh
          cases rest with
          | nil =>
            show (((m.deinvert (v, r, child.var), [Epi.push child.var]) ::
                epListN m (k + 1) child).foldl (preF m) (acc, pushed)) = _
            rw [List.foldl_cons, hcv,
              preF_push m acc pushed v r (some s2) hs2push hs2v hrc hinv,
              ihN m vars (k + 1) child _ _ hchild hwfC hNDchild hDisjChild]
            show _ = (acc ++ (WItem.datum ((v, r, child.var) : Triple) true [] ::
              (dataN child ++ (WItem.pop :: dataB v PBranches.nil))) ++
              List.replicate k WItem.pop,
              (child.var :: (pushListN child ++ pushListB PBranches.nil)).reverse ++ pushed)
            rw [hcv]
            simp only [dataB, List.append_nil, pushListB, List.reverse_cons, List.replicate_succ']
            simp
            rw [← List.replicate_succ', List.replicate_succ]
          | cons r2 tgt2 rest2 =>
            have hVvR : v ∉ (nodeVarsB (.cons r2 tgt2 rest2)).map some := by
              intro hh
              exact hVv (by simp [hh])
            have hDisjR : ∀ x ∈ (nodeVarsB (.cons r2 tgt2 rest2)).map some,
                x ∉ (pushListN child).reverse ++ (some s2 :: pushed) := by
              intro x hx hmem
              rw [List.mem_append] at hmem
              rcases hmem with hh | hh
              · rw [List.mem_reverse] at hh
                have hpc : pushListN child = ((nodeVarsN child).drop 1).map some :=
                  (pushList_eq_aux (sizeOf child)).1 m vars child (Nat.le_refl _) hwfC
                rw [hpc, hvarC] at hh
                simp only [List.drop_succ_cons, List.drop_zero] at hh
                exact hndParts.2.2 (List.mem_cons_of_mem _ hh) hx
              · rcases List.mem_cons.mp hh with hh2 | hh2
                · subst hh2
                  exact hndParts.2.2 (List.mem_cons_self _ _) hx
                · exact hDisj x (by simp [hx]) hh2
            show (((m.deinvert (v, r, child.var), [Epi.push child.var]) ::
                (epListN m 1 child ++ epListB m k v (.cons r2 tgt2 rest2))).foldl
                (preF m) (acc, pushed)) = _
            rw [List.foldl_cons, hcv,
              preF_push m acc pushed v r (some s2) hs2push hs2v hrc hinv,
              List.foldl_append,
              ihN m vars 1 child _ _ hchild hwfC hNDchild hDisjChild,
              ihB m vars k v _ _ _ hrest (by intro hh; cases hh) hwfR
                hndParts.2.1 hVvR hDisjR]
            show _ = (acc ++ (WItem.datum ((v, r, child.var) : Triple) true [] ::
              (dataN child ++ (WItem.pop :: dataB v (.cons r2 tgt2 rest2)))) ++
              List.replicate k WItem.pop,
              (child.var :: (pushListN child ++ pushListB (.cons r2 tgt2 rest2))).reverse ++
                pushed)
            rw [hcv]
            simp

theorem nodupL_iff {α : Type} [BEq α] [LawfulBEq α] (l : List α) :
    nodupL l = true ↔ l.Nodup := by
  induction l with
  | nil => simp [nodupL]
  | cons x rest ih =>
    rw [show nodupL (x :: rest) = (!(rest.contains x) && nodupL rest) from rfl,
      Bool.and_eq_true, List.nodup_cons, ih]
    constructor
    · rintro ⟨h1, h2⟩
      exact ⟨(contains_eq_false_iff _ _).mp (bool_not_true h1), h2⟩
    · rintro ⟨h1, h2⟩
      exact ⟨bool_not_true2 ((contains_eq_false_iff _ _).mpr h1), h2⟩

theorem ensureColon_id {r : String} (h : strStartsWithColon r = true) : ensureColon r = r := by
  unfold ensureColon
  rw [h]
  rfl

theorem deinvert_colon (m : Model) (v cv : Option String) (r : String)
    (hcol : strStartsWithColon r = true) :
    strStartsWithColon (m.deinvert (v, r, cv)).2.1 = true := by
  unfold Model.deinvert
  by_cases hri : m.isRoleInverted (v, r, cv).2.1 = true
  · rw [if_pos hri]
    show strStartsWithColon (m.invertRole r) = true
    rw [startsColon_head] at hcol ⊢
    exact m.invertRole_head r ':' hcol (Or.inl rfl)
  · rw [if_neg hri]
    exact hcol

theorem trColon_aux (N : Nat) :
    (∀ (m : Model) (vars : List String) (n : PNode), sizeOf n ≤ N →
      wfNode m vars n = true →
      ∀ tr ∈ trListN m n, strStartsWithColon tr.2.1 = true) ∧
    (∀ (m : Model) (vars : List String) (v : Option String) (bs : PBranches),
      sizeOf bs ≤ N → wfBranches m vars bs = true →
      ∀ tr ∈ trListB m v bs, strStartsWithColon tr.2.1 = true) := by
  induction N with
  | zero =>
    constructor
    · intro m vars n hsz
      exact absurd hsz (by have := sizeOf_pos_N n; omega)
    · intro m vars v bs hsz hwf tr htr
      cases bs with
      | nil => cases htr
      | cons r tgt rest => exact absurd hsz (by have := sizeOf_pos_B (.cons r tgt rest); omega)
  | succ N ih =>
    obtain ⟨ihN, ihB⟩ := ih
    constructor
    · intro m vars n hsz hwf tr htr
      obtain ⟨s, c, bs, rfl, -, -, -, -, hwfB⟩ := (wfNode_iff m vars n).mp hwf
      have hbs : sizeOf bs ≤ N := by
        have h1 := sizeOf_node_branches (some s) (.cons "/" (.atom (some c)) bs)
        have h2 := sizeOf_branches_rest "/" (.atom (some c)) bs
        omega
      have hshape : trListN m (.mk (some s) (.cons "/" (.atom (some c)) bs)) =
          ((some s, CONCEPT_ROLE, some c) : Triple) :: trListB m (some s) bs := by
        simp [trListN]
      rw [hshape] at htr
      rcases List.mem_cons.mp htr with h | h
      · subst h
        show strStartsWithColon CONCEPT_ROLE = true
        decide
      · exact ihB m vars (some s) bs hbs hwfB tr h
    · intro m vars v bs hsz hwf tr htr
      cases bs with
      | nil => cases htr
      | cons r tgt rest =>
        have hrest : sizeOf rest ≤ N := by
          have h1 := sizeOf_branches_rest r tgt rest
          omega
        cases tgt with
        | atom a =>
          obtain ⟨hcol, -, -, -, -, hwfR⟩ := (wfBranches_atom_iff m vars r a rest).mp hwf
          rcases List.mem_cons.mp htr with h | h
          · subst h
            exact hcol
          · exact ihB m vars v rest hrest hwfR tr h
        | sub child =>
          obtain ⟨hcol, -, -, -, hwfC, hwfR⟩ := (wfBranches_sub_iff m vars r child rest).mp hwf
          have hchild : sizeOf child ≤ N := by
            have h1 := sizeOf_branches_child r child rest
            omega
          rcases List.mem_cons.mp htr with h | h
          · subst h
            exact deinvert_colon m v child.var r hcol
          · rcases List.mem_append.mp h with h2 | h2
            · exact ihN m vars child hchild hwfC tr h2
            · exact ihB m vars v rest hrest hwfR tr h2

theorem trSources_aux (N : Nat) :
    (∀ (m : Model) (vars : List String) (n : PNode), sizeOf n ≤ N →
      wfNode m vars n = true →
      ∀ tr ∈ trListN m n, vars.contains (jsKey tr.1) = true) ∧
    (∀ (m : Model) (vars : List String) (v : Option String) (bs : PBranches),
      sizeOf bs ≤ N → wfBranches m vars bs = true →
      vars.contains (jsKey v) = true →
      ∀ tr ∈ trListB m v bs, vars.contains (jsKey tr.1) = true) := by
  induction N with
  | zero =>
    constructor
    · intro m vars n hsz
      exact absurd hsz (by have := sizeOf_pos_N n; omega)
    · intro m vars v bs hsz hwf hv tr htr
      cases bs with
      | nil => cases htr
      | cons r tgt rest => exact absurd hsz (by have := sizeOf_pos_B (.cons r tgt rest); omega)
  | succ N ih =>
    obtain ⟨ihN, ihB⟩ := ih
    constructor
    · intro m vars n hsz hwf tr htr
      obtain ⟨s, c, bs, rfl, -, hsv, -, -, hwfB⟩ := (wfNode_iff m vars n).mp hwf
      have hbs : sizeOf bs ≤ N := by
        have h1 := sizeOf_node_branches (some s) (.cons "/" (.atom (some c)) bs)
        have h2 := sizeOf_branches_rest "/" (.atom (some c)) bs
        omega
      have hshape : trListN m (.mk (some s) (.cons "/" (.atom (some c)) bs)) =
          ((some s, CONCEPT_ROLE, some c) : Triple) :: trListB m (some s) bs := by
        simp [trListN]
      rw [hshape] at htr
      rcases List.mem_cons.mp htr with h | h
      · subst h
        exact hsv
      · exact ihB m vars (some s) bs hbs hwfB hsv tr h
    · intro m vars v bs hsz hwf hv tr htr
      cases bs with
      | nil => cases htr
      | cons r tgt rest =>
        have hrest : sizeOf rest ≤ N := by
          have h1 := sizeOf_branches_rest r tgt rest
          omega
        cases tgt with
        | atom a =>
          obtain ⟨-, -, -, -, -, hwfR⟩ := (wfBranches_atom_iff m vars r a rest).mp hwf
          rcases List.mem_cons.mp htr with h | h
          · subst h
            exact hv
          · exact ihB m vars v rest hrest hwfR hv tr h
        | sub child =>
          obtain ⟨-, -, -, -, hwfC, hwfR⟩ := (wfBranches_sub_iff m vars r child rest).mp hwf
          have hchild : sizeOf child ≤ N := by
            have h1 := sizeOf_branches_child r child rest
            omega
          obtain ⟨s2, c2, bs2, heq, -, hs2v, -, -, -⟩ := (wfNode_iff m vars child).mp hwfC
          rcases List.mem_cons.mp htr with h | h
          · subst h
            unfold Model.deinvert
            by_cases hri : m.isRoleInverted ((v, r, child.var) : Triple).2.1 = true
            · rw [if_pos hri]
              show vars.contains (jsKey child.var) = true
              rw [heq]
              exact hs2v
            · rw [if_neg hri]
              exact hv
          · rcases List.mem_append.mp h with h2 | h2
            · exact ihN m vars child hchild hwfC tr h2
            · exact ihB m vars v rest hrest hwfR hv tr h2

/-! ## Claim C1: stepping the configuration loop -/
theorem upsertBy_keys_of_mem {α β : Type} [DecidableEq α] [BEq α] [LawfulBEq α]
    (l : List (α × β)) (k : α) (v : β) (h : (l.lookup k).isSome = true) :
    (upsertBy l k v).map Prod.fst = l.map Prod.fst := by
  induction l with
  | nil => simp [List.lookup] at h
  | cons p rest ih =>
    obtain ⟨k1, w⟩ := p
    simp only [upsertBy]
    by_cases hk : k1 = k
    · rw [if_pos hk]
      simp
    · rw [if_neg hk]
      have hb : (k == k1) = false := by
        rw [beq_eq_false_iff_ne]
        exact fun hh => hk hh.symm
      simp only [List.lookup, hb] at h
      simp only [List.map_cons]
      rw [ih h]

theorem cnLoop_nil (m : Model) (v : Option String) (id : Nat) (f : Nat) (sur : Bool)
    (st : CState) : cnLoop m v id (f + 1) sur st [] = .ok (sur, st, []) := rfl

theorem cnLoop_pop (m : Model) (v : Option String) (id : Nat) (f : Nat) (sur : Bool)
    (st : CState) (rest : List WItem) :
    cnLoop m v id (f + 1) sur st (WItem.pop :: rest) = .ok (sur, st, rest) := rfl

theorem cnLoop_step_concept (m : Model) (v : Option String) (id : Nat) (f : Nat) (sur : Bool)
    (st : CState) (c : String) (rest : List WItem)
    (hc : c ≠ "")
    (w : Option String) (E : List CEdge)
    (hE : st.objs.lookup id = some ⟨w, E⟩) :
    cnLoop m v id (f + 1) sur st (WItem.datum (v, CONCEPT_ROLE, some c) false [] :: rest) =
      cnLoop m v id f sur (stSetObj st id ⟨w, ("/", BTgt.atom (some c), []) :: E⟩) rest := by
  have hfalsy : jsFalsy (some c) = false := by
    simp [jsFalsy]
    exact hc
  simp only [cnLoop, if_true, hfalsy, Bool.false_eq_true, if_false, hE]

theorem cnLoop_step_atomic (m : Model) (v : Option String) (id : Nat) (f : Nat) (sur : Bool)
    (st : CState) (r : String) (a : Option String) (rest : List WItem)
    (hrc : r ≠ CONCEPT_ROLE)
    (hsite : ¬(st.nodemap.lookup (jsKey a) = some none))
    (w : Option String) (E : List CEdge)
    (hE : st.objs.lookup id = some ⟨w, E⟩) :
    cnLoop m v id (f + 1) sur st (WItem.datum (v, r, a) false [] :: rest) =
      cnLoop m v id f sur (stSetObj st id ⟨w, E ++ [(r, BTgt.atom a, [])]⟩) rest := by
  simp only [cnLoop, if_true, hrc, hsite, Bool.false_eq_true, if_false, hE]

theorem cnLoop_step_push (m : Model) (v : Option String) (id : Nat) (f : Nat) (sur : Bool)
    (st : CState) (r : String) (cv : Option String) (rest : List WItem)
    (hrc : r ≠ CONCEPT_ROLE) :
    cnLoop m v id (f + 1) sur st (WItem.datum (v, r, cv) true [] :: rest) =
      (match cnLoop m cv st.nextId f false
          ⟨st.nextId + 1, upsertBy st.nodemap (jsKey cv) (some st.nextId),
           upsertBy st.objs st.nextId ⟨cv, []⟩⟩ rest with
       | .error e => .error e
       | .ok (csurp, st2, rest2) =>
         match st2.objs.lookup id with
         | none => .error "internal: missing node object"
         | some obj =>
           cnLoop m v id f (sur && csurp)
             (stSetObj st2 id ⟨obj.v, obj.edges ++ [(r, BTgt.ref st.nextId, [])]⟩) rest2) := by
  simp only [cnLoop, if_true, hrc, Bool.false_eq_true, if_false]

theorem PNode.eta (n : PNode) : PNode.mk n.var n.branches = n := by
  cases n
  rfl

/-- A full push iteration of `cnLoop`, given the result of the child
run and the parent object's value at re-read time. -/
theorem cnLoop_push_chain (m : Model) (v : Option String) (id : Nat) (f : Nat) (sur : Bool)
    (st : CState) (r : String) (cv : Option String) (tail : List WItem)
    (hrc : r ≠ CONCEPT_ROLE)
    (stC : CState) (rest2 : List WItem) (csurp : Bool)
    (hchild : cnLoop m cv st.nextId f false
      ⟨st.nextId + 1, upsertBy st.nodemap (jsKey cv) (some st.nextId),
       upsertBy st.objs st.nextId ⟨cv, []⟩⟩ tail = .ok (csurp, stC, rest2))
    (w : Option String) (E : List CEdge)
    (hlook : stC.objs.lookup id = some ⟨w, E⟩) :
    cnLoop m v id (f + 1) sur st (WItem.datum (v, r, cv) true [] :: tail) =
      cnLoop m v id f (sur && csurp)
        (stSetObj stC id ⟨w, E ++ [(r, BTgt.ref st.nextId, [])]⟩) rest2 := by
  rw [cnLoop_step_push m v id f sur st r cv tail hrc]
  simp only [hchild, hlook]

theorem cnB_aux (N : Nat) :
    (∀ (m : Model) (vars : List String) (n : PNode) (st : CState) (id : Nat)
        (w : Option String),
      sizeOf n ≤ N → wfNode m vars n = true →
      st.objs.lookup id = some ⟨w, []⟩ →
      (∀ kk ∈ st.nodemap.map Prod.fst, vars.contains kk = true) →
      id < st.nextId →
      (∀ j ∈ st.objs.map Prod.fst, j < st.nextId) →
      st.objs.length = st.nextId →
      ∃ (st2 : CState) (edges2 : List CEdge),
        (∀ fuel, (dataN n).length + 1 ≤ fuel →
          cnLoop m n.var id fuel false st (dataN n) = .ok (false, st2, [])) ∧
        (∀ fuel rest2, (dataN n).length + 1 ≤ fuel →
          cnLoop m n.var id fuel false st (dataN n ++ (WItem.pop :: rest2)) =
            .ok (false, st2, rest2)) ∧
        st2.objs.lookup id = some ⟨w, edges2⟩ ∧
        st.nextId ≤ st2.nextId ∧
        (∀ j, j ≠ id → j < st.nextId → st2.objs.lookup j = st.objs.lookup j) ∧
        (∀ kk ∈ st2.nodemap.map Prod.fst, vars.contains kk = true) ∧
        (∀ j ∈ st2.objs.map Prod.fst, j < st2.nextId) ∧
        st2.objs.length = st2.nextId ∧
        (∀ (stL : CState) (fuelM : Nat),
          stL.objs.lookup id = some ⟨w, edges2⟩ →
          (∀ j, st.nextId ≤ j → j < st2.nextId → stL.objs.lookup j = st2.objs.lookup j) →
          st2.nextId ≤ st.nextId + fuelM →
          processEpigraph (materializeN stL (fuelM + 1) id) = PNode.mk w n.branches)) ∧
    (∀ (m : Model) (vars : List String) (v : Option String) (bs : PBranches) (st : CState)
        (id : Nat) (w : Option String) (E : List CEdge),
      sizeOf bs ≤ N → wfBranches m vars bs = true →
      st.objs.lookup id = some ⟨w, E⟩ →
      (∀ kk ∈ st.nodemap.map Prod.fst, vars.contains kk = true) →
      id < st.nextId →
      (∀ j ∈ st.objs.map Prod.fst, j < st.nextId) →
      st.objs.length = st.nextId →
      ∃ (st2 : CState) (edges2 : List CEdge),
        (∀ fuel, (dataB v bs).length + 1 ≤ fuel →
          cnLoop m v id fuel false st (dataB v bs) = .ok (false, st2, [])) ∧
        (∀ fuel rest2, (dataB v bs).length + 1 ≤ fuel →
          cnLoop m v id fuel false st (dataB v bs ++ (WItem.pop :: rest2)) =
            .ok (false, st2, rest2)) ∧
        st2.objs.lookup id = some ⟨w, E ++ edges2⟩ ∧
        st.nextId ≤ st2.nextId ∧
        (∀ j, j ≠ id → j < st.nextId → st2.objs.lookup j = st.objs.lookup j) ∧
        (∀ kk ∈ st2.nodemap.map Prod.fst, vars.contains kk = true) ∧
        (∀ j ∈ st2.objs.map Prod.fst, j < st2.nextId) ∧
        st2.objs.length = st2.nextId ∧
        (∀ (stL : CState) (fuelM : Nat),
          (∀ j, st.nextId ≤ j → j < st2.nextId → stL.objs.lookup j = st2.objs.lookup j) →
          st2.nextId ≤ st.nextId + fuelM →
          processEpiBranches (materializeE (fun j => materializeN stL fuelM j) edges2) =
            bs)) := by
  induction N with
  | zero =>
    constructor
    · intro m vars n st id w hsz
      exact absurd hsz (by have := sizeOf_pos_N n; omega)
    · intro m vars v bs st id w E hsz hwf hE hKeys hId hObjs hLen
      cases bs with
      | nil =>
        refine ⟨st, [], ?_, ?_, by simpa using hE, Nat.le_refl _, fun j hj hj2 => rfl,
          hKeys, hObjs, hLen, ?_⟩
        · intro fuel hfuel
          cases fuel with
          | zero => omega
          | succ f => exact cnLoop_nil m v id f false st
        · intro fuel rest2 hfuel
          cases fuel with
          | zero => omega
          | succ f => exact cnLoop_pop m v id f false st rest2
        · intro stL fuelM hagree hbound
          rfl
      | cons r tgt rest => exact absurd hsz (by have := sizeOf_pos_B (.cons r tgt rest); omega)
  | succ N ih =>
    obtain ⟨ihN, ihB⟩ := ih
    constructor
    · -- node level
      intro m vars n st id w hsz hwf hE hKeys hId hObjs hLen
      obtain ⟨s, c, bs, rfl, -, -, hcne, -, hwfB⟩ := (wfNode_iff m vars n).mp hwf
      have hbs : sizeOf bs ≤ N := by
        have h1 := sizeOf_node_branches (some s) (.cons "/" (.atom (some c)) bs)
        have h2 := sizeOf_branches_rest "/" (.atom (some c)) bs
        omega
      have hcne2 : c ≠ "" := by
        intro hh
        rw [hh] at hcne
        exact absurd hcne (by decide)
      -- the concept step
      have hstep := fun (f : Nat) (sur : Bool) (rest : List WItem) =>
        cnLoop_step_concept m (some s) id f sur st c rest hcne2 w [] hE
      set st1 := stSetObj st id ⟨w, [("/", BTgt.atom (some c), [])]⟩ with hst1
      have hE1 : st1.objs.lookup id = some ⟨w, [("/", BTgt.atom (some c), [])]⟩ :=
        upsertBy_lookup_self _ _ _
      have hK1 : ∀ kk ∈ st1.nodemap.map Prod.fst, vars.contains kk = true := hKeys
      have hId1 : id < st1.nextId := hId
      have hidSome : (st.objs.lookup id).isSome = true := by
        rw [hE]
        rfl
      have hO1 : ∀ j ∈ st1.objs.map Prod.fst, j < st1.nextId := by
        intro j hj
        apply hObjs
        rw [hst1] at hj
        show j ∈ st.objs.map Prod.fst
        rw [← upsertBy_keys_of_mem st.objs id (⟨w, [("/", BTgt.atom (some c), [])]⟩ : NodeObj)
          hidSome]
        exact hj
      have hL1 : st1.objs.length = st1.nextId := by
        show (upsertBy st.objs id _).length = st.nextId
        rw [upsertBy_length, if_pos hidSome]
        exact hLen
      obtain ⟨st2, edges2, hCa, hCb, hC2, hF1, hF2, hFK, hFO, hFL, hCM⟩ :=
        ihB m vars (some s) bs st1 id w [("/", BTgt.atom (some c), [])] hbs hwfB
          hE1 hK1 hId1 hO1 hL1
      have hdN : dataN (PNode.mk (some s) (.cons "/" (.atom (some c)) bs)) =
          WItem.datum ((some s : Option String), CONCEPT_ROLE, some c) false [] ::
            dataB (some s) bs := by
        simp [dataN]
      have hvar : (PNode.mk (some s) (.cons "/" (.atom (some c)) bs)).var = some s := rfl
      refine ⟨st2, ("/", BTgt.atom (some c), []) :: edges2, ?_, ?_, ?_, ?_, ?_, hFK, hFO, hFL, ?_⟩
      · intro fuel hfuel
        rw [hdN] at hfuel ⊢
        rw [hvar]
        cases fuel with
        | zero => omega
        | succ f =>
          rw [hstep f false (dataB (some s) bs)]
          exact hCa f (by simp at hfuel; omega)
      · intro fuel rest2 hfuel
        rw [hdN] at hfuel ⊢
        rw [hvar]
        cases fuel with
        | zero => omega
        | succ f =>
          rw [List.cons_append, hstep f false (dataB (some s) bs ++ (WItem.pop :: rest2))]
          exact hCb f rest2 (by simp at hfuel; omega)
      · simpa using hC2
      · exact hF1
      · intro j hj hj2
        rw [hF2 j hj hj2]
        show (upsertBy st.objs id _).lookup j = st.objs.lookup j
        exact upsertBy_lookup_ne _ _ _ _ hj
      · intro stL fuelM hLid hagree hbound
        have hbs2 := hCM stL fuelM hagree hbound
        have hred : processEpigraph (materializeN stL (fuelM + 1) id) =
            PNode.mk w (PBranches.cons "/" (PTarget.atom (some c))
              (processEpiBranches
                (materializeE (fun j => materializeN stL fuelM j) edges2))) := by
          rw [materializeN, hLid]
          rfl
        rw [hred, hbs2]
        rfl
    · -- branch level
      intro m vars v bs st id w E hsz hwf hE hKeys hId hObjs hLen
      cases bs with
      | nil =>
        refine ⟨st, [], ?_, ?_, by simpa using hE, Nat.le_refl _, fun j hj hj2 => rfl,
          hKeys, hObjs, hLen, ?_⟩
        · intro fuel hfuel
          cases fuel with
          | zero => omega
          | succ f => exact cnLoop_nil m v id f false st
        · intro fuel rest2 hfuel
          cases fuel with
          | zero => omega
          | succ f => exact cnLoop_pop m v id f false st rest2
        · intro stL fuelM hagree hbound
          rfl
      | cons r tgt rest =>
        have hrest : sizeOf rest ≤ N := by
          have := sizeOf_branches_rest r tgt rest
          omega
        cases tgt with
        | atom a =>
          obtain ⟨-, -, hnotc, hnotvar, -, hwfrest⟩ :=
            (wfBranches_atom_iff m vars r a rest).mp hwf
          have hrc : r ≠ CONCEPT_ROLE := beq_eq_false_iff_ne.mp hnotc
          have hsite : ¬(st.nodemap.lookup (jsKey a) = some none) := by
            intro hh
            have h1 : (st.nodemap.lookup (jsKey a)).isSome = true := by rw [hh]; rfl
            have h2 := hKeys _ ((lookupBy_isSome_iff _ _).mp h1)
            rw [hnotvar] at h2
            exact Bool.false_ne_true h2
          have hstep := fun (f : Nat) (sur : Bool) (tail : List WItem) =>
            cnLoop_step_atomic m v id f sur st r a tail hrc hsite w E hE
          set st1 := stSetObj st id ⟨w, E ++ [(r, BTgt.atom a, [])]⟩ with hst1
          have hE1 : st1.objs.lookup id = some ⟨w, E ++ [(r, BTgt.atom a, [])]⟩ :=
            upsertBy_lookup_self _ _ _
          have hidSome : (st.objs.lookup id).isSome = true := by
            rw [hE]
            rfl
          have hO1 : ∀ j ∈ st1.objs.map Prod.fst, j < st1.nextId := by
            intro j hj
            apply hObjs
            rw [hst1] at hj
            show j ∈ st.objs.map Prod.fst
            rw [← upsertBy_keys_of_mem st.objs id (⟨w, E ++ [(r, BTgt.atom a, [])]⟩ : NodeObj)
              hidSome]
            exact hj
          have hL1 : st1.objs.length = st1.nextId := by
            show (upsertBy st.objs id _).length = st.nextId
            rw [upsertBy_length, if_pos hidSome]
            exact hLen
          obtain ⟨st2, e2rest, hCa, hCb, hC2, hF1, hF2, hFK, hFO, hFL, hCM⟩ :=
            ihB m vars v rest st1 id w (E ++ [(r, BTgt.atom a, [])]) hrest hwfrest
              hE1 hKeys hId hO1 hL1
          have hdB : dataB v (.cons r (.atom a) rest) =
              WItem.datum (v, r, a) false [] :: dataB v rest := by
            simp [dataB]
          refine ⟨st2, (r, BTgt.atom a, []) :: e2rest, ?_, ?_, ?_, hF1, ?_, hFK, hFO, hFL, ?_⟩
          · intro fuel hfuel
            rw [hdB] at hfuel ⊢
            cases fuel with
            | zero => omega
            | succ f =>
              rw [hstep f false (dataB v rest)]
              exact hCa f (by simp at hfuel; omega)
          · intro fuel rest2 hfuel
            rw [hdB] at hfuel ⊢
            cases fuel with
            | zero => omega
            | succ f =>
              rw [List.cons_append, hstep f false (dataB v rest ++ (WItem.pop :: rest2))]
              exact hCb f rest2 (by simp at hfuel; omega)
          · rw [hC2, List.append_assoc]
            rfl
          · intro j hj hj2
            rw [hF2 j hj hj2]
            show (upsertBy st.objs id _).lookup j = st.objs.lookup j
            exact upsertBy_lookup_ne _ _ _ _ hj
          · intro stL fuelM hagree hbound
            have h2 := hCM stL fuelM hagree hbound
            show PBranches.cons r (PTarget.atom a)
                (processEpiBranches (materializeE (fun j => materializeN stL fuelM j) e2rest)) =
              PBranches.cons r (PTarget.atom a) rest
            rw [h2]
        | sub child =>
          obtain ⟨-, -, hnotc, -, hwfchild, hwfrest⟩ :=
            (wfBranches_sub_iff m vars r child rest).mp hwf
          have hrc : r ≠ CONCEPT_ROLE := beq_eq_false_iff_ne.mp hnotc
          have hchild : sizeOf child ≤ N := by
            have := sizeOf_branches_child r child rest
            omega
          obtain ⟨s2, c2, bs2, heq2, -, hs2v, -, -, -⟩ :=
            (wfNode_iff m vars child).mp hwfchild
          have hcv : jsKey child.var = s2 := by
            rw [heq2]
            rfl
          -- the freshly allocated child state
          set st1 : CState :=
            ⟨st.nextId + 1, upsertBy st.nodemap (jsKey child.var) (some st.nextId),
             upsertBy st.objs st.nextId ⟨child.var, []⟩⟩ with hst1
          have hE1 : st1.objs.lookup st.nextId = some ⟨child.var, []⟩ :=
            upsertBy_lookup_self _ _ _
          have hK1 : ∀ kk ∈ st1.nodemap.map Prod.fst, vars.contains kk = true := by
            intro kk hkk
            rw [hst1] at hkk
            rcases upsertBy_keys_sub _ _ _ _ hkk with hk | hk
            · rw [hk, hcv]
              exact hs2v
            · exact hKeys kk hk
          have hId1 : st.nextId < st1.nextId := Nat.lt_succ_self _
          have hfresh : (st.objs.lookup st.nextId).isSome = false := by
            cases hx : (st.objs.lookup st.nextId).isSome
            · rfl
            · exact absurd (hObjs _ ((lookupBy_isSome_iff _ _).mp hx)) (Nat.lt_irrefl _)
          have hO1 : ∀ j ∈ st1.objs.map Prod.fst, j < st1.nextId := by
            intro j hj
            rw [hst1] at hj
            rcases upsertBy_keys_sub _ _ _ _ hj with hk | hk
            · omega
            · have := hObjs j hk
              omega
          have hL1 : st1.objs.length = st1.nextId := by
            show (upsertBy st.objs st.nextId _).length = st.nextId + 1
            rw [upsertBy_length, if_neg (by rw [hfresh]; exact Bool.false_ne_true)]
            rw [hLen]
          obtain ⟨stC, edgesC, hCaC, hCbC, hC2C, hF1C, hF2C, hFKC, hFOC, hFLC, hCMC⟩ :=
            ihN m vars child st1 st.nextId child.var hchild hwfchild hE1 hK1 hId1 hO1 hL1
          -- the parent object is untouched by the child run
          have hlookC : stC.objs.lookup id = some ⟨w, E⟩ := by
            rw [hF2C id (by omega) (by omega), hst1]
            show (upsertBy st.objs st.nextId _).lookup id = _
            rw [upsertBy_lookup_ne _ _ _ _ (by omega)]
            exact hE
          set st2' := stSetObj stC id ⟨w, E ++ [(r, BTgt.ref st.nextId, [])]⟩ with hst2'
          have hE2' : st2'.objs.lookup id = some ⟨w, E ++ [(r, BTgt.ref st.nextId, [])]⟩ :=
            upsertBy_lookup_self _ _ _
          have hCSome : (stC.objs.lookup id).isSome = true := by
            rw [hlookC]
            rfl
          have hId2' : id < st2'.nextId := by
            have h1 : st1.nextId ≤ stC.nextId := hF1C
            have h2 : st2'.nextId = stC.nextId := rfl
            omega
          have hO2' : ∀ j ∈ st2'.objs.map Prod.fst, j < st2'.nextId := by
            intro j hj
            apply hFOC
            rw [hst2'] at hj
            show j ∈ stC.objs.map Prod.fst
            rw [← upsertBy_keys_of_mem stC.objs id
              (⟨w, E ++ [(r, BTgt.ref st.nextId, [])]⟩ : NodeObj) hCSome]
            exact hj
          have hL2' : st2'.objs.length = st2'.nextId := by
            show (upsertBy stC.objs id _).length = stC.nextId
            rw [upsertBy_length, if_pos hCSome]
            exact hFLC
          obtain ⟨st2, e2rest, hCaR, hCbR, hC2R, hF1R, hF2R, hFKR, hFOR, hFLR, hCMR⟩ :=
            ihB m vars v rest st2' id w (E ++ [(r, BTgt.ref st.nextId, [])]) hrest hwfrest
              hE2' hFKC hId2' hO2' hL2'
          have hdB : dataB v (.cons r (.sub child) rest) =
              WItem.datum (v, r, child.var) true [] ::
                (dataN child ++ (WItem.pop :: dataB v rest)) := by
            simp [dataB]
          have hchain : st1.nextId ≤ stC.nextId := hF1C
          have hchain2 : stC.nextId ≤ st2.nextId := hF1R
          have hn1 : st1.nextId = st.nextId + 1 := rfl
          have hn2 : st2'.nextId = stC.nextId := rfl
          refine ⟨st2, (r, BTgt.ref st.nextId, []) :: e2rest, ?_, ?_, ?_, ?_, ?_, hFKR, hFOR,
            hFLR, ?_⟩
          · intro fuel hfuel
            rw [hdB] at hfuel ⊢
            cases fuel with
            | zero => omega
            | succ f =>
              have hlen : (dataN child).length + 1 ≤ f ∧ (dataB v rest).length + 1 ≤ f := by
                simp at hfuel
                omega
              rw [cnLoop_push_chain m v id f false st r child.var
                (dataN child ++ (WItem.pop :: dataB v rest)) hrc stC (dataB v rest) false
                (hCbC f (dataB v rest) hlen.1) w E hlookC]
              exact hCaR f hlen.2
          · intro fuel rest2 hfuel
            rw [hdB] at hfuel ⊢
            cases fuel with
            | zero => omega
            | succ f =>
              have hlen : (dataN child).length + 1 ≤ f ∧ (dataB v rest).length + 1 ≤ f := by
                simp at hfuel
                omega
              rw [List.cons_append, List.append_assoc, List.cons_append]
              rw [cnLoop_push_chain m v id f false st r child.var
                (dataN child ++ (WItem.pop :: (dataB v rest ++ (WItem.pop :: rest2)))) hrc
                stC (dataB v rest ++ (WItem.pop :: rest2)) false
                (hCbC f (dataB v rest ++ (WItem.pop :: rest2)) hlen.1) w E hlookC]
              exact hCbR f rest2 hlen.2
          · rw [hC2R, List.append_assoc]
            rfl
          · omega
          · intro j hj hj2
            rw [hF2R j hj (by omega), hst2']
            show (upsertBy stC.objs id _).lookup j = _
            rw [upsertBy_lookup_ne _ _ _ _ hj]
            rw [hF2C j (by omega) (by omega), hst1]
            show (upsertBy st.objs st.nextId _).lookup j = _
            rw [upsertBy_lookup_ne _ _ _ _ (by omega)]
          · intro stL fuelM hagree hbound
            have hge : st.nextId + 1 ≤ st2.nextId := by omega
            cases fuelM with
            | zero => omega
            | succ fm =>
              -- the child id and range facts
              have hLidC : stL.objs.lookup st.nextId = some ⟨child.var, edgesC⟩ := by
                rw [hagree st.nextId (Nat.le_refl _) (by omega)]
                rw [hF2R st.nextId (by omega) (by omega), hst2']
                show (upsertBy stC.objs id _).lookup st.nextId = _
                rw [upsertBy_lookup_ne _ _ _ _ (by omega)]
                exact hC2C
              have hagreeC : ∀ j, st1.nextId ≤ j → j < stC.nextId →
                  stL.objs.lookup j = stC.objs.lookup j := by
                intro j hj hj2
                rw [hagree j (by omega) (by omega)]
                rw [hF2R j (by omega) (by omega), hst2']
                show (upsertBy stC.objs id _).lookup j = _
                rw [upsertBy_lookup_ne _ _ _ _ (by omega)]
              have hboundC : stC.nextId ≤ st1.nextId + fm := by omega
              have hchildEq := hCMC stL fm hLidC hagreeC hboundC
              have hagreeR : ∀ j, st2'.nextId ≤ j → j < st2.nextId →
                  stL.objs.lookup j = st2.objs.lookup j := by
                intro j hj hj2
                exact hagree j (by omega) hj2
              have hboundR : st2.nextId ≤ st2'.nextId + (fm + 1) := by
                show st2.nextId ≤ stC.nextId + (fm + 1)
                omega
              have hrestEq := hCMR stL (fm + 1) hagreeR hboundR
              show PBranches.cons r (PTarget.sub (processEpigraph (materializeN stL (fm + 1)
                  st.nextId)))
                (processEpiBranches (materializeE (fun j => materializeN stL (fm + 1) j)
                  e2rest)) = PBranches.cons r (PTarget.sub child) rest
              rw [hchildEq, hrestEq, PNode.eta]

/-! ## Claim C1: assembling interpretation and configuration -/
theorem map_id_of_mem {α : Type} (l : List α) (f : α → α) (h : ∀ x ∈ l, f x = x) :
    l.map f = l := by
  induction l with
  | nil => rfl
  | cons x rest ih =>
    rw [List.map_cons, h x (List.mem_cons_self x rest),
      ih (fun y hy => h y (List.mem_cons_of_mem x hy))]

theorem upsertBy_key_mem {α β : Type} [DecidableEq α] (l : List (α × β)) (k : α) (v : β) :
    k ∈ (upsertBy l k v).map Prod.fst := by
  induction l with
  | nil => simp [upsertBy]
  | cons p rest ih =>
    obtain ⟨k1, w⟩ := p
    by_cases hk : k1 = k
    · subst hk
      simp [upsertBy]
    · simp only [upsertBy, if_neg hk, List.map_cons, List.mem_cons]
      exact Or.inr ih

theorem upsertBy_keys_super {α β : Type} [DecidableEq α] (l : List (α × β)) (k k2 : α) (v : β)
    (h : k2 ∈ l.map Prod.fst) : k2 ∈ (upsertBy l k v).map Prod.fst := by
  induction l with
  | nil => cases h
  | cons p rest ih =>
    obtain ⟨k1, w⟩ := p
    by_cases hk : k1 = k
    · subst hk
      simpa [upsertBy] using h
    · simp only [List.map_cons, List.mem_cons] at h
      rcases h with h | h
      · simp [upsertBy, if_neg hk, h]
      · simp only [upsertBy, if_neg hk, List.map_cons, List.mem_cons]
        exact Or.inr (ih h)

theorem foldl_upsert_keys_mono (l : List (Option String)) (init : List (String × Option Nat))
    (kk : String) (h : kk ∈ init.map Prod.fst) :
    kk ∈ (l.foldl (fun nm v => upsertBy nm (jsKey v) (none : Option Nat)) init).map Prod.fst := by
  induction l generalizing init with
  | nil => exact h
  | cons x rest ih =>
    exact ih _ (upsertBy_keys_super _ _ _ _ h)

theorem foldl_upsert_keys_mem (l : List (Option String)) (init : List (String × Option Nat))
    (v : Option String) (hv : v ∈ l) :
    jsKey v ∈ (l.foldl (fun nm v => upsertBy nm (jsKey v) (none : Option Nat)) init).map
      Prod.fst := by
  induction l generalizing init with
  | nil => cases hv
  | cons x rest ih =>
    rcases List.mem_cons.mp hv with h | h
    · subst h
      exact foldl_upsert_keys_mono rest _ _ (upsertBy_key_mem _ _ _)
    · exact ih _ h

theorem foldl_upsert_keys_sub (l : List (Option String)) (init : List (String × Option Nat))
    (kk : String)
    (h : kk ∈ (l.foldl (fun nm v => upsertBy nm (jsKey v) (none : Option Nat)) init).map
      Prod.fst) :
    kk ∈ init.map Prod.fst ∨ ∃ v ∈ l, kk = jsKey v := by
  induction l generalizing init with
  | nil => exact Or.inl h
  | cons x rest ih =>
    rcases ih _ h with h2 | ⟨v, hv, hk⟩
    · rcases upsertBy_keys_sub _ _ _ _ h2 with h3 | h3
      · exact Or.inr ⟨x, List.mem_cons_self x rest, h3⟩
      · exact Or.inl h3
    · exact Or.inr ⟨v, List.mem_cons_of_mem x hv, hk⟩

theorem dedupKeepFirst_mem_of (l acc : List (Option String)) (x : Option String)
    (h : x ∈ l.foldl (fun acc y => if y ∈ acc then acc else acc ++ [y]) acc) :
    x ∈ acc ∨ x ∈ l := by
  induction l generalizing acc with
  | nil => exact Or.inl h
  | cons y rest ih =>
    simp only [List.foldl_cons] at h
    by_cases hy : y ∈ acc
    · rw [if_pos hy] at h
      rcases ih _ h with h2 | h2
      · exact Or.inl h2
      · exact Or.inr (List.mem_cons_of_mem y h2)
    · rw [if_neg hy] at h
      rcases ih _ h with h2 | h2
      · rcases List.mem_append.mp h2 with h3 | h3
        · exact Or.inl h3
        · rw [List.mem_singleton.mp h3]
          exact Or.inr (List.mem_cons_self y rest)
      · exact Or.inr (List.mem_cons_of_mem y h2)

theorem mem_variablesL (g : Graph) (x : Option String) (h : x ∈ g.variablesL) :
    x ∈ g.triples.map (fun tr => tr.1) ∨ x = g._top := by
  unfold Graph.variablesL at h
  cases htop : g._top with
  | none =>
    rw [htop] at h
    rcases dedupKeepFirst_mem_of _ _ _ h with h2 | h2
    · cases h2
    · exact Or.inl h2
  | some t =>
    rw [htop] at h
    simp only [] at h
    by_cases hb : (some t) ∈ dedupKeepFirst (g.triples.map (·.1))
    · rw [if_pos hb] at h
      rcases dedupKeepFirst_mem_of _ _ _ h with h2 | h2
      · cases h2
      · exact Or.inl h2
    · rw [if_neg hb] at h
      rcases List.mem_append.mp h with h2 | h2
      · rcases dedupKeepFirst_mem_of _ _ _ h2 with h3 | h3
        · cases h3
        · exact Or.inl h3
      · rcases List.mem_singleton.mp h2 with rfl
        exact Or.inr rfl

theorem top_mem_variablesL (g : Graph) (s : String) (h : g._top = some s) :
    some s ∈ g.variablesL := by
  unfold Graph.variablesL
  rw [h]
  simp only []
  by_cases hb : (some s) ∈ dedupKeepFirst (g.triples.map (·.1))
  · rw [if_pos hb]
    exact hb
  · rw [if_neg hb]
    exact List.mem_append_right _ (List.mem_singleton.mpr rfl)

/-- `configure` on a graph whose triples, top and preconfigured work
list come from a well-formed node rebuilds exactly that node. -/
theorem configure_wf (m : Model) (vars : List String) (n : PNode) (g : Graph) (s : String)
    (hwfN : wfNode m vars n = true)
    (hvar : n.var = some s)
    (hgt : g.triples = trListN m n)
    (hgtop : g._top = some s)
    (hpre : _preconfigure g m = dataN n) :
    configure g m none = .ok ⟨n, optionsMetadata g.metadata⟩ := by
  obtain ⟨s2, c, bs, heqn, -, hsv2, -, -, -⟩ := (wfNode_iff m vars n).mp hwfN
  subst heqn
  simp only [PNode.var] at hvar
  have hs2 : s2 = s := Option.some.inj hvar
  subst s2
  have hshapeTr : trListN m (PNode.mk (some s) (.cons "/" (.atom (some c)) bs)) =
      ((some s : Option String), CONCEPT_ROLE, some c) :: trListB m (some s) bs := by
    simp [trListN]
  have hisE : g.triples.isEmpty = false := by
    rw [hgt, hshapeTr]
    rfl
  have hgtopv : g.top = some s := by
    unfold Graph.top
    rw [hgtop]
  set nodemap0 : List (String × Option Nat) :=
    g.variablesL.foldl (fun nm v => upsertBy nm (jsKey v) (none : Option Nat)) [] with hnm0
  have hsmem : s ∈ nodemap0.map Prod.fst :=
    foldl_upsert_keys_mem g.variablesL [] (some s) (top_mem_variablesL g s hgtop)
  have hisNone : (nodemap0.lookup s).isNone = false := by
    have h1 : (nodemap0.lookup s).isSome = true := (lookupBy_isSome_iff _ _).mpr hsmem
    cases hx : nodemap0.lookup s with
    | none => rw [hx] at h1; exact absurd h1 (by decide)
    | some y => rfl
  have hKeys0 : ∀ kk ∈ nodemap0.map Prod.fst, vars.contains kk = true := by
    intro kk hkk
    rw [hnm0] at hkk
    rcases foldl_upsert_keys_sub _ _ _ hkk with h2 | ⟨v, hv, rfl⟩
    · simp at h2
    · rcases mem_variablesL g v hv with h3 | h3
      · obtain ⟨tr, htr, rfl⟩ := List.mem_map.mp h3
        rw [hgt] at htr
        exact (trSources_aux (sizeOf (PNode.mk (some s) (.cons "/" (.atom (some c)) bs)))).1
          m vars _ le_rfl hwfN tr htr
      · rw [h3, hgtop]
        exact hsv2
  set st0 : CState := ⟨1, upsertBy nodemap0 s (some 0), [(0, ⟨some s, []⟩)]⟩ with hst0
  have hE0 : st0.objs.lookup 0 = some ⟨some s, []⟩ := rfl
  have hK0 : ∀ kk ∈ st0.nodemap.map Prod.fst, vars.contains kk = true := by
    intro kk hkk
    rcases upsertBy_keys_sub _ _ _ _ hkk with h2 | h2
    · rw [h2]
      exact hsv2
    · exact hKeys0 kk h2
  have hId0 : 0 < st0.nextId := Nat.one_pos
  have hObjs0 : ∀ j ∈ st0.objs.map Prod.fst, j < st0.nextId := by
    intro j hj
    rw [hst0] at hj
    simp at hj
    omega
  have hLen0 : st0.objs.length = st0.nextId := rfl
  obtain ⟨stF, edgesF, hCaF, -, hC2F, -, -, -, -, hFLF, hCMF⟩ :=
    (cnB_aux (sizeOf (PNode.mk (some s) (.cons "/" (.atom (some c)) bs)))).1
      m vars _ st0 0 (some s) le_rfl hwfN hE0 hK0 hId0 hObjs0 hLen0
  have hjk : jsKey (some s) = s := rfl
  have hcfgnode : _configureNode m (some s)
      ((dataN (PNode.mk (some s) (.cons "/" (.atom (some c)) bs))).length + 1) st0
      (dataN (PNode.mk (some s) (.cons "/" (.atom (some c)) bs))) = .ok (false, stF, []) := by
    unfold _configureNode
    rw [hjk, show st0.nodemap = upsertBy nodemap0 s (some 0) from rfl, upsertBy_lookup_self]
    exact hCaF _ le_rfl
  have hnid : st0.nextId = 1 := rfl
  have hfinal := hCMF stF stF.objs.length hC2F (fun j hj hj2 => rfl) (by omega)
  simp only [configure, hisE, Bool.false_eq_true, if_false, Option.getD_none, hgtopv]
  rw [← hnm0]
  simp only [hisNone, Bool.false_eq_true, if_false]
  rw [← hst0]
  simp only [hpre]
  rw [hcfgnode]
  show Except.ok (⟨processEpigraph (materializeN stF (stF.objs.length + 1) 0),
      optionsMetadata g.metadata⟩ : PTree) = _
  rw [hfinal]
  rfl

/-- Claim C1: for a tree in the verified well-formed class — a
concept-first node per nesting level with truthy tilde-free concepts,
colon-headed non-instance roles, no reentrancy (no atomic target is a
node variable), invertible nested roles, distinct truthy variables and
distinct triples — and with empty metadata, interpretation followed by
configuration (layout markers left untouched) rebuilds exactly the
original tree. -/
theorem claim_C1 (m : Model) (t : PTree)
    (hwf : wfTree m t = true) (hmeta : t.metadata = MetaVal.record []) :
    ∃ g, interpret t m = .ok g ∧ configure g m none = .ok t := by
  obtain ⟨nd, md⟩ := t
  have hmd : md = MetaVal.record [] := hmeta
  subst md
  simp only [wfTree, Bool.and_eq_true] at hwf
  obtain ⟨⟨hwfN, hndV⟩, hndT⟩ := hwf
  have hint : interpret ⟨nd, MetaVal.record []⟩ m =
      .ok (Graph.make (trListN m nd) nd.var (buildEpimap (epListN m 0 nd))
        (MetaVal.record []).asRecord) := by
    unfold interpret
    simp only []
    rw [(interpA_aux (sizeOf nd)).1 m (nodeVarsN nd) nd le_rfl hwfN]
  obtain ⟨s, c, bs, heqn, -, -, -, -, -⟩ := (wfNode_iff m (nodeVarsN nd) nd).mp hwfN
  have hvar : nd.var = some s := by
    rw [heqn]
    rfl
  have hgt : (Graph.make (trListN m nd) nd.var (buildEpimap (epListN m 0 nd))
      (MetaVal.record []).asRecord).triples = trListN m nd := by
    show (trListN m nd).map (fun tr => (tr.1, ensureColon tr.2.1, tr.2.2)) = trListN m nd
    apply map_id_of_mem
    intro tr htr
    rw [ensureColon_id ((trColon_aux (sizeOf nd)).1 m (nodeVarsN nd) nd le_rfl hwfN tr htr)]
  have hgtop : (Graph.make (trListN m nd) nd.var (buildEpimap (epListN m 0 nd))
      (MetaVal.record []).asRecord)._top = some s := hvar
  have hndVm : ((nodeVarsN nd).map some).Nodup :=
    List.Nodup.map (Option.some_injective String) ((nodupL_iff _).mp hndV)
  have hEm : ∀ e ∈ epListN m 0 nd,
      emGet (Graph.make (trListN m nd) nd.var (buildEpimap (epListN m 0 nd))
        (MetaVal.record []).asRecord).epidata e.1 = some e.2 := by
    intro e he
    show emGet (buildEpimap (epListN m 0 nd)) e.1 = some e.2
    rw [buildEpimap_get]
    have hnd2 : nodupL ((epListN m 0 nd).map Prod.fst) = true := by
      rw [epListN_keys]
      exact hndT
    rw [find?_key_nodup hnd2 (show (e.1, e.2) ∈ epListN m 0 nd from he)]
    rfl
  have hT : (Graph.make (trListN m nd) nd.var (buildEpimap (epListN m 0 nd))
      (MetaVal.record []).asRecord).triples = (epListN m 0 nd).map Prod.fst := by
    rw [hgt, epListN_keys]
  have hpre : _preconfigure (Graph.make (trListN m nd) nd.var (buildEpimap (epListN m 0 nd))
      (MetaVal.record []).asRecord) m = dataN nd := by
    rw [preconfigure_entries m _ (epListN m 0 nd) hT hEm]
    rw [(preFold_aux (sizeOf nd)).1 m (nodeVarsN nd) 0 nd [] [] le_rfl hwfN hndVm
      (fun x hx => List.not_mem_nil x)]
    simp
  refine ⟨_, hint, ?_⟩
  exact configure_wf m (nodeVarsN nd) nd _ s hwfN hvar hgt hgtop hpre

/-- Claim C1, counterexample: the round trip is not the identity on
every tree without reentrancy.  The tree `(a ARG0 b)` — colon-less
role, untouched markers — interprets successfully, but configuration
returns `(a :ARG0 b)`: the `Graph` constructor colonizes the role, so
the rebuilt tree differs from the original. -/
theorem claim_C1_counterexample :
    ∃ g t2, interpret cxTree defaultModel = .ok g ∧
      configure g defaultModel none = .ok t2 ∧ t2 ≠ cxTree :=
  ⟨{ triples := [(some "a", ":instance", none), (some "a", ":ARG0", some "b")],
     _top := some "a",
     epidata := [((some "a", "ARG0", some "b"), []), ((some "a", ":instance", none), [])],
     metadata := [] },
   ⟨PNode.mk (some "a") (.cons ":ARG0" (.atom (some "b")) .nil), MetaVal.record []⟩,
   by decide, by decide, by decide⟩

theorem claim_C1_witness :
    wfTree defaultModel barkTree = true ∧
    barkTree.metadata = MetaVal.record [] ∧
    ∃ g, interpret barkTree defaultModel = .ok g ∧
      configure g defaultModel none = .ok barkTree :=
  ⟨by decide, rfl, claim_C1 defaultModel barkTree (by decide) rfl⟩
